import Mathlib

/-!
Shallow embedding of the kite SQL query builder (Go package `qb`,
files `pkg/kite/datasource/sql/qb/builder.go` and `dialect.go`) together
with proofs about the claims on its behaviour.

Modelling conventions:
* Go strings are `List Char` (`Chars`) so that character counting and
  concatenation reasoning is structural; `lit` injects Lean string literals.
* A Go `map[string]interface{}` is the association structure `Spec`
  (a mutual inductive, so that recursion over nested specifications is
  structural and kernel-reducible).  The builder itself sorts key slices
  with `sort.Strings` before iterating; `sortKeys` models that.  Where Go
  iterates a map directly, the association order of `Spec` stands in for
  Go's unspecified map iteration order.
* Go `interface{}` values appearing in where/update specifications are the
  inductive `Value`.  `vCustom` models a user supplied `Comparable`
  (`rawSql`/`errorComparable` of utils.go) by its observable `Build` output
  and its `buildError` result; an empty fragment list models a nil fragment
  slice (Go's `whereConnector` drops exactly the nil ones).
* Fallible Go functions returning `(T, error)` become `Except Err T`.
* `getWhereConditions` recurses into nested `_or` specifications through a
  map lookup, which is not structural; it is therefore defined with an
  explicit fuel argument, with `Spec.weight` (an executable measure that
  strictly dominates the `_or` nesting depth) supplying the canonical fuel.
  `Err.outOfFuel` is a modelling artifact marking the unreachable
  fuel-exhaustion and unreachable failed-lookup branches.
-/

abbrev Chars := List Char

/-- The character list of a string literal. -/
def lit (s : String) : Chars := s.data

/-- The placeholder character. -/
def qm : Char := '?'

/-- Left brace (written by code point to keep brace characters out of
character literals). -/
def lbr : Char := Char.ofNat 123

/-- Right brace. -/
def rbr : Char := Char.ofNat 125

/-- Backquote (the quoting character of the order/group grammar). -/
def bq : Char := Char.ofNat 96

/-- The error values of the qb package.  Errors built by `fmt.Errorf` keep
their dynamic data as a payload.  `outOfFuel` is a modelling artifact (see
the module docstring); it corresponds to no Go error and is unreachable
for the canonical fuel. -/
inductive Err where
  | splitEmptyKey
  | unsupportedOperator
  | orValueType
  | orderByValueType
  | orderByValueInvalid
  | groupByValueType
  | groupByValueInvalid
  | limitValueType
  | limitValueLength
  | havingValueType
  | havingUnsupportedOperator
  | lockModeValueType
  | notAllowedLockMode
  | limitType
  | limitOffsetNotSupported
  | customValueType
  | betweenValueLength
  | whereInterfaceSliceType (op : Chars)
  | emptySliceCondition (op : Chars)
  | insertDataNotMatch
  | insertNullData
  | unsupportedDialect
  | featureUnsupportedDialect (feature : Chars)
  | emptyConflictColumns
  | namedQueryKeyNotFound (key : Chars)
  | outOfFuel
  deriving DecidableEq, Repr

instance {ε α : Type} [DecidableEq ε] [DecidableEq α] : DecidableEq (Except ε α) := fun a b =>
  match a, b with
  | .error x, .error y => if h : x = y then .isTrue (by rw [h]) else .isFalse (by simp [h])
  | .error _, .ok _ => .isFalse (by simp)
  | .ok _, .error _ => .isFalse (by simp)
  | .ok x, .ok y => if h : x = y then .isTrue (by rw [h]) else .isFalse (by simp [h])

/-- The three dialects of dialect.go. -/
inductive Dialect where
  | mysql
  | postgres
  | sqlite
  deriving DecidableEq, Repr

mutual
/-- Go `interface{}` values occurring in where/update specifications.
`vStr`/`vInt` are scalars, `vRaw` is `qb.Raw`, `vNull` is `qb.NullType`
(`true` = `IsNull`), `vList` is `[]interface{}`, `vIntList` is `[]int`
(representative of all integer-slice types accepted by `parseLimit`),
`vSpecs` is `[]map[string]interface{}` (the `_or` payload type), `vMap` is
`map[string]interface{}` (the `_having` payload type), and `vCustom` is a
user `Comparable` given by its `Build` output and `buildError` value. -/
inductive Value where
  | vInt (n : Int)
  | vStr (s : Chars)
  | vRaw (s : Chars)
  | vNull (isNull : Bool)
  | vIntList (ns : List Int)
  | vList (vs : ValueList)
  | vSpecs (ms : SpecList)
  | vMap (m : Spec)
  | vCustom (conds : List Chars) (cvals : ValueList) (err : Option Err)
  deriving DecidableEq
/-- A Go `[]interface{}`. -/
inductive ValueList where
  | nil
  | cons (v : Value) (tl : ValueList)
  deriving DecidableEq
/-- A Go `map[string]interface{}` as an association structure. -/
inductive Spec where
  | nil
  | cons (k : Chars) (v : Value) (tl : Spec)
  deriving DecidableEq
/-- A Go `[]map[string]interface{}`. -/
inductive SpecList where
  | nil
  | cons (m : Spec) (tl : SpecList)
  deriving DecidableEq
end

mutual
/-- Executable size measure over `Value`; non-recursive payloads count 1,
so the measure only grows with specification nesting. -/
def Value.weight : Value → Nat
  | .vList vs => vs.weight + 1
  | .vSpecs ms => ms.weight + 1
  | .vMap m => m.weight + 1
  | .vCustom _ cv _ => cv.weight + 1
  | _ => 1
def ValueList.weight : ValueList → Nat
  | .nil => 1
  | .cons v tl => v.weight + tl.weight
def Spec.weight : Spec → Nat
  | .nil => 1
  | .cons _ v tl => v.weight + tl.weight + 1
def SpecList.weight : SpecList → Nat
  | .nil => 1
  | .cons m tl => m.weight + tl.weight
end

/-- Build a `Spec` from a standard association list (for statements). -/
def specOf : List (Chars × Value) → Spec
  | [] => .nil
  | (k, v) :: tl => .cons k v (specOf tl)

/-- Build a `ValueList` from a standard list. -/
def valsOf : List Value → ValueList
  | [] => .nil
  | v :: tl => .cons v (valsOf tl)

/-- Build a `SpecList` from a standard list. -/
def specsOf : List Spec → SpecList
  | [] => .nil
  | m :: tl => .cons m (specsOf tl)

/-- The standard-list view of a `Spec`. -/
def Spec.toList : Spec → List (Chars × Value)
  | .nil => []
  | .cons k v tl => (k, v) :: tl.toList

/-- The standard-list view of a `ValueList`. -/
def ValueList.toList : ValueList → List Value
  | .nil => []
  | .cons v tl => v :: tl.toList

/-- The standard-list view of a `SpecList`. -/
def SpecList.toList : SpecList → List Spec
  | .nil => []
  | .cons m tl => m :: tl.toList

/-- Emptiness of a specification (`len(m) == 0`; Go nil and empty maps
behave identically everywhere in the builder). -/
def Spec.isEmpty : Spec → Bool
  | .nil => true
  | .cons _ _ _ => false

/-- Go map access on the specification model (maps have unique keys, the
first binding stands for the map entry). -/
def lookup (k : Chars) : Spec → Option Value
  | .nil => none
  | .cons k' v tl => if k' = k then some v else lookup k tl

/-- The keys of a specification, in association order. -/
def keysOf : Spec → List Chars
  | .nil => []
  | .cons k _ tl => k :: keysOf tl

/-! ### Generic string helpers mirroring the Go `strings` functions used. -/

/-- Go `unicode.IsSpace` restricted to the ASCII whitespace handled here
(space, tab, newline, carriage return, form feed). -/
def isSpaceGo (c : Char) : Bool :=
  c = ' ' || c = '\t' || c = '\n' || c = '\r' || c.toNat = 12

/-- Drop trailing characters satisfying `p` (Go `strings.TrimRight`). -/
def trimTrailing (p : Char → Bool) (s : Chars) : Chars :=
  (s.reverse.dropWhile p).reverse

/-- Go `strings.Trim(s, cutset)` for a single-class cutset. -/
def trimBy (p : Char → Bool) (s : Chars) : Chars :=
  trimTrailing p (s.dropWhile p)

/-- Go `strings.Trim(s, " ")`. -/
def trimSpacesOnly (s : Chars) : Chars := trimBy (· = ' ') s

/-- Go `strings.TrimSpace`. -/
def trimWS (s : Chars) : Chars := trimBy isSpaceGo s

/-- Go `strings.Join(xs, sep)`. -/
def joinSep (sep : Chars) : List Chars → Chars
  | [] => []
  | [x] => x
  | x :: y :: xs => x ++ sep ++ joinSep sep (y :: xs)

/-- Go `strings.Split(s, sep)` for a one-character separator. -/
def splitOnChar (sep : Char) : Chars → List Chars
  | [] => [[]]
  | c :: cs =>
    if c = sep then [] :: splitOnChar sep cs
    else
      match splitOnChar sep cs with
      | [] => [[c]]
      | p :: ps => (c :: p) :: ps

/-- Accumulator loop of `fieldsWS`; `acc` is the current word reversed. -/
def fieldsAux : Chars → Chars → List Chars
  | [], acc => if acc.isEmpty then [] else [acc.reverse]
  | c :: cs, acc =>
    if isSpaceGo c then
      if acc.isEmpty then fieldsAux cs [] else acc.reverse :: fieldsAux cs []
    else fieldsAux cs (c :: acc)

/-- Go `strings.Fields`: whitespace-separated words. -/
def fieldsWS (s : Chars) : List Chars := fieldsAux s []

/-- Go `strings.ToLower` (character-wise). -/
def lowerChars (s : Chars) : Chars := s.map Char.toLower

/-- Sorting of key slices: Go `sort.Strings`, lexicographic order. -/
def sortKeys (ks : List Chars) : List Chars := ks.insertionSort (· ≤ ·)

/-- Lookup on plain association lists (used for intermediate maps the Go
code builds and then drains with freshly sorted key lists). -/
def alookup {α : Type} (k : Chars) : List (Chars × α) → Option α
  | [] => none
  | (k', v) :: tl => if k' = k then some v else alookup k tl

/-- Go map insertion on an association list: replace or append. -/
def insertReplace {α : Type} (k : Chars) (v : α) : List (Chars × α) → List (Chars × α)
  | [] => [(k, v)]
  | (k', v') :: tl => if k' = k then (k, v) :: tl else (k', v') :: insertReplace k v tl

-- scratch sanity checks (removed before the final version)
theorem scratch1 : sortKeys [lit "b", lit "a"] = [lit "a", lit "b"] := by decide
theorem scratch2 : fieldsWS (lit "  a  bc ") = [lit "a", lit "bc"] := by decide
theorem scratch3 : lookup (lit "a") (specOf [(lit "a", .vInt 3)]) = some (.vInt 3) := by decide

/-! ### Key splitting and operators (builder.go `splitKey`, `opOrder`). -/

/-- Is a value a Go slice (`reflect.Kind() == reflect.Slice`)?  The
element view used by `convertInterfaceToMap` and the named query. -/
def sliceElems : Value → Option (List Value)
  | .vList vs => some vs.toList
  | .vIntList ns => some (ns.map .vInt)
  | .vSpecs ms => some (ms.toList.map .vMap)
  | _ => none

/-- builder.go `removeInnerSpace`: collapse the first inner run of spaces
to a single space (the last space of the run is kept). -/
def removeInnerSpace (op : Chars) : Chars :=
  let pre := op.takeWhile (· ≠ ' ')
  let rest := op.dropWhile (· ≠ ' ')
  match rest with
  | [] => op
  | _ :: _ => pre ++ [' '] ++ rest.dropWhile (· = ' ')

/-- builder.go `splitKey`: split a where key into field and operator. -/
def splitKey (key : Chars) (val : Value) : Except Err (Chars × Chars) :=
  let k := trimSpacesOnly key
  if k.isEmpty then .error .splitEmptyKey
  else
    let pre := k.takeWhile (· ≠ ' ')
    let post := k.dropWhile (· ≠ ' ')
    match post with
    | [] => .ok (k, if (sliceElems val).isSome then lit "in" else lit "=")
    | _ :: rest => .ok (pre, removeInnerSpace (trimSpacesOnly rest))

/-- builder.go `opOrder` (also the order in which `buildWhereCondition`
drains the operator map). -/
def opOrder : List Chars :=
  [lit "=", lit "in", lit "!=", lit "<>", lit "not in", lit ">", lit ">=",
   lit "<", lit "<=", lit "like", lit "not like", lit "between",
   lit "not between", lit "null"]

/-- The reserved directive keys skipped by `getWhereConditions`
(builder.go `defaultIgnoreKeys`). -/
def ignoreKeys : List Chars :=
  [lit "_orderby", lit "_groupby", lit "_having", lit "_limit", lit "_lockMode"]

/-! ### Condition nodes and their rendering (builder.go `Comparable`).

`nestC`/`orC` (Go `NestWhere`/`OrWhere`) hold the `Build` outputs of their
children: `Build` is the unique observer of a `Comparable`, and
`getWhereConditions` constructs the nested nodes bottom-up, so storing the
children's rendered form is observationally identical to storing the
children and renders `Build` non-recursive (hence kernel-reducible). -/
inductive Comparable where
  | eqC (m : List (Chars × Value))
  | neC (m : List (Chars × Value))
  | ltC (m : List (Chars × Value))
  | lteC (m : List (Chars × Value))
  | gtC (m : List (Chars × Value))
  | gteC (m : List (Chars × Value))
  | likeC (m : List (Chars × Value))
  | notLikeC (m : List (Chars × Value))
  | inC (m : List (Chars × List Value))
  | notInC (m : List (Chars × List Value))
  | betweenC (m : List (Chars × List Value))
  | notBetweenC (m : List (Chars × List Value))
  | nullC (m : List (Chars × Value))
  | nilC
  | nestC (built : List (List Chars × List Value))
  | orC (built : List (List Chars × List Value))
  | customC (conds : List Chars) (cvals : List Value)
  deriving DecidableEq

/-- builder.go `quoteField` (identity, kept for shape fidelity). -/
def quoteField (f : Chars) : Chars := f

/-- builder.go `assembleExpression`. -/
def assembleExpression (field op : Chars) : Chars := quoteField field ++ op ++ [qm]

/-- `?,?,...,?` with `n` placeholders (Go `strings.Repeat("?,", n)` with
the trailing comma trimmed). -/
def qmarks : Nat → Chars
  | 0 => []
  | 1 => [qm]
  | n + 2 => qm :: ',' :: qmarks (n + 1)

/-- builder.go `build` (the shared renderer of the Eq/Ne/Gt/... family):
sorted keys; `Raw` values are spliced verbatim without argument, others
render `field op ?` and push their value.  The fallback branch for a key
missing from its own map is unreachable (`ks` are exactly the keys). -/
def buildKV (m : List (Chars × Value)) (op : Chars) : List Chars × List Value :=
  if m.isEmpty then ([], [])
  else
    let ks := sortKeys (m.map Prod.fst)
    let pcs := ks.map (fun k =>
      match alookup k m with
      | some (.vRaw r) => (k ++ op ++ r, (none : Option Value))
      | some v => (assembleExpression k op, some v)
      | none => (assembleExpression k op, some (.vInt 0)))
    (pcs.map Prod.fst, pcs.filterMap Prod.snd)

/-- builder.go `Like.Build`/`NotLike.Build`: no Raw special case. -/
def buildLike (m : List (Chars × Value)) (opTxt : Chars) : List Chars × List Value :=
  if m.isEmpty then ([], [])
  else
    let ks := sortKeys (m.map Prod.fst)
    (ks.map (fun k => k ++ opTxt ++ [qm]),
     ks.map (fun k => (alookup k m).getD (.vInt 0)))

/-- builder.go `buildIn`/`buildNotIn` joint renderer. -/
def buildInKV (m : List (Chars × List Value)) (opTxt : Chars) : List Chars × List Value :=
  if m.isEmpty then ([], [])
  else
    let ks := sortKeys (m.map Prod.fst)
    (ks.map (fun k => quoteField k ++ opTxt ++ [' ', '('] ++ qmarks ((alookup k m).getD []).length ++ [')']),
     (ks.map (fun k => (alookup k m).getD [])).flatten)

/-- builder.go `betweenBuilder`: an entry whose value list does not have
exactly two elements fails closed to `(1=0)` and contributes no argument. -/
def betweenBuilder (m : List (Chars × List Value)) (notBetween : Bool) : List Chars × List Value :=
  if m.isEmpty then ([], [])
  else
    let ks := sortKeys (m.map Prod.fst)
    let opTxt := if notBetween then lit " NOT BETWEEN ? AND ?" else lit " BETWEEN ? AND ?"
    let pcs := ks.map (fun k =>
      let vs := (alookup k m).getD []
      if vs.length = 2 then ('(' :: k ++ opTxt ++ [')'], vs) else (lit "(1=0)", []))
    (pcs.map Prod.fst, (pcs.map Prod.snd).flatten)

/-- builder.go `nullComparable.Build`: sorted keys, non-`NullType` values
are skipped, no arguments are produced. -/
def buildNull (m : List (Chars × Value)) : List Chars × List Value :=
  if m.isEmpty then ([], [])
  else
    let ks := sortKeys (m.map Prod.fst)
    (ks.filterMap (fun k =>
      match alookup k m with
      | some (.vNull b) => some (k ++ (if b then lit " IS NULL" else lit " IS NOT NULL"))
      | _ => none), [])

/-- The loop body of builder.go `whereConnector` applied to already
rendered pieces: nil fragment lists are skipped together with their
values, the surviving fragments are joined with the connector and
parenthesized; no fragments yields the empty string. -/
def connect (andOr : Chars) (pieces : List (List Chars × List Value)) : Chars × List Value :=
  let kept := pieces.filter (fun p => !p.1.isEmpty)
  let frags := (kept.map Prod.fst).flatten
  let vals := (kept.map Prod.snd).flatten
  if frags.isEmpty then ([], [])
  else ('(' :: joinSep ([' '] ++ andOr ++ [' ']) frags ++ [')'], vals)

/-- The `Build` method of every `Comparable` variant. -/
def Build : Comparable → List Chars × List Value
  | .eqC m => buildKV m (lit "=")
  | .neC m => buildKV m (lit "!=")
  | .ltC m => buildKV m (lit "<")
  | .lteC m => buildKV m (lit "<=")
  | .gtC m => buildKV m (lit ">")
  | .gteC m => buildKV m (lit ">=")
  | .likeC m => buildLike m (lit " LIKE ")
  | .notLikeC m => buildLike m (lit " NOT LIKE ")
  | .inC m => buildInKV m (lit " IN")
  | .notInC m => buildInKV m (lit " NOT IN")
  | .betweenC m => betweenBuilder m false
  | .notBetweenC m => betweenBuilder m true
  | .nullC m => buildNull m
  | .nilC => ([], [])
  | .nestC built => let p := connect (lit "AND") built; ([p.1], p.2)
  | .orC built => let p := connect (lit "OR") built; ([p.1], p.2)
  | .customC conds cvals => (conds, cvals)

/-- builder.go `whereConnector`. -/
def whereConnector (andOr : Chars) (conditions : List Comparable) : Chars × List Value :=
  connect andOr (conditions.map Build)

-- scratch
theorem scratch4 :
    whereConnector (lit "AND") [.eqC [(lit "name", .vStr (lit "kite"))]] =
      (lit "(name=?)", [.vStr (lit "kite")]) := by decide
theorem scratch5 :
    Build (.orC []) = ([[]], []) := by decide
theorem scratch6 :
    whereConnector (lit "AND") [.orC [], .eqC [(lit "a", .vInt 1)]] =
      (lit "( AND a=?)", [.vInt 1]) := by decide

/-! ### The where-clause compiler (builder.go `getWhereConditions`). -/

/-- builder.go `convertInterfaceToMap` + the validation loop of
`convertWhereMapToWhereMapSlice`. -/
def convertWhereMapToWhereMapSlice (m : List (Chars × Value)) (op : Chars) :
    Except Err (List (Chars × List Value)) :=
  m.mapM (fun p =>
    match sliceElems p.2 with
    | none => .error (.whereInterfaceSliceType op)
    | some vs =>
      if vs.isEmpty then .error (.emptySliceCondition op)
      else if (op = lit "between" || op = lit "not between") && vs.length ≠ 2 then
        .error .betweenValueLength
      else .ok (p.1, vs))

/-- builder.go `op2Comparable`: the producer selected for an operator. -/
def op2Cmp (op : Chars) (m : List (Chars × Value)) : Except Err Comparable :=
  if op = lit "=" then .ok (.eqC m)
  else if op = lit "!=" then .ok (.neC m)
  else if op = lit "<>" then .ok (.neC m)
  else if op = lit "in" then (convertWhereMapToWhereMapSlice m op).map .inC
  else if op = lit "not in" then (convertWhereMapToWhereMapSlice m op).map .notInC
  else if op = lit "between" then (convertWhereMapToWhereMapSlice m op).map .betweenC
  else if op = lit "not between" then (convertWhereMapToWhereMapSlice m op).map .notBetweenC
  else if op = lit ">" then .ok (.gtC m)
  else if op = lit ">=" then .ok (.gteC m)
  else if op = lit "<" then .ok (.ltC m)
  else if op = lit "<=" then .ok (.lteC m)
  else if op = lit "like" then .ok (.likeC m)
  else if op = lit "not like" then .ok (.notLikeC m)
  else if op = lit "null" then .ok (.nullC m)
  else .error .unsupportedOperator

/-- builder.go `buildWhereCondition`: drain the operator map in `opOrder`
order. -/
def buildWhereCondition (wms : List (Chars × List (Chars × Value))) :
    Except Err (List Comparable) :=
  (opOrder.filterMap (fun op => (alookup op wms).map (fun m => (op, m)))).mapM
    (fun p => op2Cmp p.1 p.2)

/-- builder.go `whereMapSet.add`. -/
def wmsAdd (op field : Chars) (v : Value) (wms : List (Chars × List (Chars × Value))) :
    List (Chars × List (Chars × Value)) :=
  match alookup op wms with
  | some _ => wms.map (fun p => if p.1 = op then (p.1, insertReplace field v p.2) else p)
  | none => wms ++ [(op, [(field, v)])]

/-- One key of the `getWhereConditions` walk (the loop body of the Go
function): directive keys are skipped, `_or`-prefixed keys recurse into
their nested specifications through `rec` (each wrapped as a `NestWhere`,
the group as an `OrWhere`), `_custom_` keys take user comparables (vetoed
by `buildError`), everything else is split into field/operator and sorted
into the operator map.  The accumulator keeps Go's processing order
(comparables appended, operator-map writes applied left to right).  The
`none` lookup fallbacks are unreachable: the walked keys are enumerated
from the map itself. -/
def gwcStep (rec : Spec → Except Err (List Comparable)) (w : Spec)
    (acc : List Comparable × List (Chars × List (Chars × Value))) (k : Chars) :
    Except Err (List Comparable × List (Chars × List (Chars × Value))) :=
  if k ∈ ignoreKeys then .ok acc
  else if (lit "_or").isPrefixOf k then
    match lookup k w with
    | some (.vSpecs ms) =>
      (ms.toList.mapM (fun m => (rec m).map (fun cs => Comparable.nestC (cs.map Build)))).map
        (fun nested => (acc.1 ++ [Comparable.orC (nested.map Build)], acc.2))
    | some _ => .error .orValueType
    | none => .error .outOfFuel
  else if (lit "_custom_").isPrefixOf k then
    match lookup k w with
    | some (.vCustom conds cvals err) =>
      match err with
      | some e => .error e
      | none => .ok (acc.1 ++ [Comparable.customC conds cvals.toList], acc.2)
    | some _ => .error .customValueType
    | none => .error .outOfFuel
  else
    match lookup k w with
    | some v =>
      match splitKey k v with
      | .error e => .error e
      | .ok (field, op0) =>
        let op := lowerChars op0
        if op ∉ opOrder then .error .unsupportedOperator
        else
          let op := match v with | .vNull _ => lit "null" | _ => op
          .ok (acc.1, wmsAdd op field v acc.2)
    | none => .error .outOfFuel

/-- builder.go `getWhereConditions`, with fuel (see module docstring): the
Go function checks emptiness, sorts the keys, walks them with the loop
body `gwcStep` and finally drains the operator map through
`buildWhereCondition`, appending the result to the listed comparables. -/
def gwcF : Nat → Spec → Except Err (List Comparable)
  | 0, _ => .error .outOfFuel
  | fuel + 1, w =>
    if w.isEmpty then .ok []
    else
      match (sortKeys (keysOf w)).foldlM (gwcStep (gwcF fuel) w) ([], []) with
      | .error e => .error e
      | .ok (cmps, wms) =>
        match buildWhereCondition wms with
        | .error e => .error e
        | .ok built => .ok (cmps ++ built)

/-- builder.go `getWhereConditions` with the canonical fuel. -/
def getWhereConditions (w : Spec) : Except Err (List Comparable) :=
  gwcF (w.weight + 1) w

/-! ### Directive parsing (builder.go `resolveHaving`, `parseOrderByClause`,
`parseGroupByClause`, `parseLimit` and friends). -/

/-- builder.go `resolveHaving` on one entry: the split operator must be in
`opOrder` (note: that table includes in/like/between). -/
def havingEntryOk (k : Chars) (v : Value) : Except Err Unit :=
  match splitKey k v with
  | .error e => .error e
  | .ok (_, op) =>
    if lowerChars op ∈ opOrder then .ok () else .error .havingUnsupportedOperator

/-- The entry walk of `resolveHaving` (the Go code copies the map; the
copy has the same entries, so the input is returned). -/
def havingWalk : Spec → Except Err Unit
  | .nil => .ok ()
  | .cons k v tl =>
    match havingEntryOk k v with
    | .error e => .error e
    | .ok _ => havingWalk tl

/-- builder.go `resolveHaving`. -/
def resolveHaving (h : Value) : Except Err Spec :=
  match h with
  | .vMap hm => (havingWalk hm).map (fun _ => hm)
  | _ => .error .havingValueType

/-- One identifier of the order/group grammar: a plain identifier
(`[A-Za-z_][A-Za-z0-9_]*`, matched case-insensitively which changes
nothing for a both-case class) or a backquoted non-empty segment.
Returns the remainder on success. -/
def matchField : Chars → Option Chars
  | [] => none
  | c :: cs =>
    if c = bq then
      if (cs.takeWhile (· ≠ bq)).isEmpty then none
      else
        match cs.dropWhile (· ≠ bq) with
        | d :: rest => if d = bq then some rest else none
        | [] => none
    else if c.isAlpha || c = '_' then
      some (cs.dropWhile (fun d => d.isAlpha || d.isDigit || d = '_'))
    else none

/-- `field(\.field)*`, fueled (each field consumes at least one char, so
`length + 1` fuel always suffices). -/
def matchDottedF : Nat → Chars → Option Chars
  | 0, _ => none
  | f + 1, cs =>
    match matchField cs with
    | none => none
    | some rest =>
      match rest with
      | '.' :: tl => matchDottedF f tl
      | _ => some rest

/-- builder.go `groupByPattern` as a recognizer. -/
def groupByMatch (cs : Chars) : Bool :=
  matchDottedF (cs.length + 1) cs = some []

/-- builder.go `orderByPattern` as a recognizer: dotted field, optionally
followed by whitespace and case-insensitive `asc`/`desc`. -/
def orderByMatch (cs : Chars) : Bool :=
  match matchDottedF (cs.length + 1) cs with
  | none => false
  | some rest =>
    rest.isEmpty ||
      (!(rest.takeWhile isSpaceGo).isEmpty &&
        (let w := lowerChars (rest.dropWhile isSpaceGo)
         w = lit "asc" || w = lit "desc"))

/-- builder.go `normalizeOrderByClause`, one term: squash whitespace,
check the grammar, upper-case a trailing direction word. -/
def normalizeOrderTerm (term : Chars) : Except Err Chars :=
  let trimmed := joinSep [' '] (fieldsWS (trimWS term))
  if trimmed.isEmpty || !orderByMatch trimmed then .error .orderByValueInvalid
  else
    match fieldsWS trimmed with
    | [p0, p1] => .ok (joinSep [' '] [p0, p1.map Char.toUpper])
    | _ => .ok trimmed

/-- builder.go `normalizeOrderByClause`. -/
def normalizeOrderByClause (orderBy : Chars) : Except Err Chars :=
  let ob := trimWS orderBy
  if ob.isEmpty then .ok []
  else ((splitOnChar ',' ob).mapM normalizeOrderTerm).map (joinSep [','])

/-- builder.go `normalizeGroupByClause`. -/
def normalizeGroupByClause (groupBy : Chars) : Except Err Chars :=
  let gb := trimWS groupBy
  if gb.isEmpty then .ok []
  else
    ((splitOnChar ',' gb).mapM (fun term =>
      let trimmed := trimWS term
      if trimmed.isEmpty || !groupByMatch trimmed then
        (.error .groupByValueInvalid : Except Err Chars)
      else .ok trimmed)).map (joinSep [','])

/-- builder.go `parseOrderByClause`: strings are validated, `Raw` is
trimmed and passed through. -/
def parseOrderByClause (v : Value) : Except Err Chars :=
  match v with
  | .vStr s => normalizeOrderByClause s
  | .vRaw r => .ok (trimWS r)
  | _ => .error .orderByValueType

/-- builder.go `parseGroupByClause`. -/
def parseGroupByClause (v : Value) : Except Err Chars :=
  match v with
  | .vStr s => normalizeGroupByClause s
  | .vRaw r => .ok (trimWS r)
  | _ => .error .groupByValueType

/-- builder.go `parseLimit`.  `vInt` stands for the scalar branches
(int/int64; the unsigned scalars are the non-negative ones), `vIntList`
for the slice branches (`toUintSlice`, which checks the length first and
then signs element-wise). -/
def parseLimit (v : Value) : Except Err (List Nat) :=
  match v with
  | .vInt n => if n < 0 then .error .limitType else .ok [n.toNat]
  | .vIntList ns =>
    if ns.length = 0 || ns.length > 2 then .error .limitValueLength
    else ns.mapM (fun n => if n < 0 then .error .limitType else .ok n.toNat)
  | _ => .error .limitValueType

/-- builder.go `eleLimit`. -/
structure EleLimit where
  start : Nat
  step : Nat
  deriving DecidableEq, Repr

/-- builder.go `parseSelectLimit`: one element is a bare count, two are
`(offset, count)`. -/
def parseSelectLimit (v : Value) : Except Err EleLimit :=
  match parseLimit v with
  | .error e => .error e
  | .ok [n] => .ok ⟨0, n⟩
  | .ok [b, s] => .ok ⟨b, s⟩
  | .ok _ => .error .limitValueLength

/-- builder.go `getLimit` (UPDATE/DELETE): scalar-type errors are renamed
to `errLimitType`, a two-element pair is only accepted with a zero first
element, otherwise `errLimitOffsetNotSupported`. -/
def getLimit (w : Spec) : Except Err Nat :=
  match lookup (lit "_limit") w with
  | none => .ok 0
  | some v =>
    match parseLimit v with
    | .error e => .error (if e = .limitValueType then .limitType else e)
    | .ok [n] => .ok n
    | .ok [a, b] => if a ≠ 0 then .error .limitOffsetNotSupported else .ok b
    | .ok _ => .ok 0

/-! ### Dialect layer (dialect.go). -/

/-- dialect.go `lockClause`. -/
def lockClause (b : Dialect) (lockMode : Chars) : Except Err Chars :=
  match b with
  | .mysql =>
    if lockMode = lit "share" then .ok (lit " LOCK IN SHARE MODE")
    else if lockMode = lit "exclusive" then .ok (lit " FOR UPDATE")
    else .error .notAllowedLockMode
  | .postgres =>
    if lockMode = lit "share" then .ok (lit " FOR SHARE")
    else if lockMode = lit "exclusive" then .ok (lit " FOR UPDATE")
    else .error .notAllowedLockMode
  | .sqlite => .error .notAllowedLockMode

/-- dialect.go `limitIdentifier`. -/
def limitIdentifier : Dialect → Chars
  | .postgres => lit "ctid"
  | .sqlite => lit "rowid"
  | .mysql => []

/-- Decimal digit character. -/
def digitCh (d : Nat) : Char := Char.ofNat (48 + d)

/-- Fueled decimal rendering (`n / 10` strictly decreases, so `n + 1`
fuel always suffices). -/
def itoaF : Nat → Nat → Chars
  | 0, _ => []
  | f + 1, n => if n < 10 then [digitCh n] else itoaF f (n / 10) ++ [digitCh (n % 10)]

/-- Go `strconv.Itoa` on naturals. -/
def itoa (n : Nat) : Chars := itoaF (n + 1) n

/-- The scan of dialect.go `rebindQuery`: every `?` becomes `$counter`. -/
def rebindAux : Chars → Nat → Chars
  | [], _ => []
  | c :: cs, n => if c = qm then '$' :: (itoa n ++ rebindAux cs (n + 1)) else c :: rebindAux cs n

/-- dialect.go `rebindQuery`. -/
def rebindQuery (b : Dialect) (query : Chars) : Chars :=
  if b = .postgres then rebindAux query 1 else query

/-- dialect.go `finalizeQuery` (its error is always nil). -/
def finalizeQuery (b : Dialect) (query : Chars) (vals : List Value) : Chars × List Value :=
  (rebindQuery b query, vals)

-- scratch
theorem scratch7 : itoa 0 = lit "0" ∧ itoa 12 = lit "12" ∧ itoa 105 = lit "105" := by decide
theorem scratch8 : rebindQuery .postgres (lit "a=? AND b=?") = lit "a=$1 AND b=$2" := by decide
theorem scratch9 : normalizeOrderByClause (lit " name  desc , age ") = .ok (lit "name DESC,age") := by decide
theorem scratch10 : normalizeGroupByClause (lit "dept") = .ok (lit "dept") := by decide
theorem scratch11 : getLimit (specOf [(lit "_limit", .vIntList [1, 5])]) = .error .limitOffsetNotSupported := by decide

/-! ### Statement builders (builder.go). -/

/-- Is a condition the having sentinel (`nilComparable`)? -/
def isNilC : Comparable → Bool
  | .nilC => true
  | _ => false

/-- builder.go `splitCondition`: scan from the end for the sentinel; a
sentinel in last position (empty having tail) leaves the list intact. -/
def splitCondition (conditions : List Comparable) : List Comparable × List Comparable :=
  match (conditions.reverse).findIdx? isNilC with
  | none => (conditions, [])
  | some j =>
    let i := conditions.length - 1 - j
    if i < conditions.length - 1 then (conditions.take i, conditions.drop (i + 1))
    else (conditions, [])

/-- builder.go `(Builder).buildSelect` (string assembly; `finalizeQuery`
runs at the end).  A non-empty having list renders `HAVING` even when its
fragments all collapse, mirroring the `nil != having` test. -/
def buildSelect (b : Dialect) (table : Chars) (ufields : List Chars)
    (groupBy orderBy lockCl : Chars) (limit : Option EleLimit)
    (conditions : List Comparable) : Chars × List Value :=
  let fields := if ufields.isEmpty then lit "*" else joinSep [','] (ufields.map quoteField)
  let (whereConds, havingConds) := splitCondition conditions
  let (ws, wv) := whereConnector (lit "AND") whereConds
  let (hs, hv) := whereConnector (lit "AND") havingConds
  let q := lit "SELECT " ++ fields ++ lit " FROM " ++ table
    ++ (if ws.isEmpty then [] else lit " WHERE " ++ ws)
    ++ (if groupBy.isEmpty then [] else lit " GROUP BY " ++ groupBy)
    ++ (if havingConds.isEmpty then [] else lit " HAVING " ++ hs)
    ++ (if orderBy.isEmpty then [] else lit " ORDER BY " ++ orderBy)
    ++ (match limit with
        | none => []
        | some _ => if b = .mysql then lit " LIMIT ?,?" else lit " LIMIT ? OFFSET ?")
    ++ lockCl
  let vals := wv
    ++ (if havingConds.isEmpty then [] else hv)
    ++ (match limit with
        | none => []
        | some l =>
          if b = .mysql then [.vInt l.start, .vInt l.step] else [.vInt l.step, .vInt l.start])
  finalizeQuery b q vals

/-- builder.go `(Builder).BuildSelect`: directive parsing in source
order, then condition compilation, then assembly. -/
def BuildSelect (b : Dialect) (table : Chars) (w : Spec) (selectField : List Chars) :
    Except Err (Chars × List Value) := do
  let orderBy ← match lookup (lit "_orderby") w with
    | none => pure []
    | some v => parseOrderByClause v
  let groupBy ← match lookup (lit "_groupby") w with
    | none => pure []
    | some v => parseGroupByClause v
  let having ← if groupBy.isEmpty then pure none
    else match lookup (lit "_having") w with
      | none => pure none
      | some h => (resolveHaving h).map some
  let limit ← match lookup (lit "_limit") w with
    | none => pure none
    | some v => (parseSelectLimit v).map some
  let lockCl ← match lookup (lit "_lockMode") w with
    | none => pure []
    | some (.vStr s) => lockClause b (trimWS s)
    | some _ => throw .lockModeValueType
  let conditions ← getWhereConditions w
  let conditions ← match having with
    | none => pure conditions
    | some hm =>
      match getWhereConditions hm with
      | .error e => throw e
      | .ok hc => pure (conditions ++ Comparable.nilC :: hc)
  pure (buildSelect b table selectField groupBy orderBy lockCl limit conditions)

/-- builder.go `resolveUpdate`, one sorted key at a time.  Order of the
checks mirrors the source: `Raw` first, then the `_custom_` prefix (where
a non-`Comparable` value is silently skipped and a `Comparable` may veto
through `buildError`), then the plain `key=?` form. -/
def resolveUpdateGo : List Chars → Spec → Chars → List Value →
    Except Err (Chars × List Value)
  | [], _, sb, vals => .ok (trimTrailing (· = ',') sb, vals)
  | k :: ks, update, sb, vals =>
    match lookup k update with
    | some (.vRaw r) => resolveUpdateGo ks update (sb ++ k ++ ['='] ++ r ++ [',']) vals
    | some v =>
      if (lit "_custom_").isPrefixOf k then
        match v with
        | .vCustom conds cvals err =>
          match err with
          | some e => .error e
          | none =>
            resolveUpdateGo ks update
              (sb ++ (conds.map (fun s => s ++ [','])).flatten) (vals ++ cvals.toList)
        | _ => resolveUpdateGo ks update sb vals
      else resolveUpdateGo ks update (sb ++ quoteField k ++ lit "=?,") (vals ++ [v])
    | none => resolveUpdateGo ks update sb vals

/-- builder.go `resolveUpdate`. -/
def resolveUpdate (update : Spec) : Except Err (Chars × List Value) :=
  resolveUpdateGo (sortKeys (keysOf update)) update [] []

/-- builder.go `(Builder).buildUpdate`. -/
def buildUpdate (b : Dialect) (table : Chars) (update : Spec) (limit : Nat)
    (conditions : List Comparable) : Except Err (Chars × List Value) := do
  let (sets, vals) ← resolveUpdate update
  let cond := lit "UPDATE " ++ quoteField table ++ lit " SET " ++ sets
  let (ws, wv) := whereConnector (lit "AND") conditions
  if limit = 0 then
    let cond := if ws.isEmpty then cond else cond ++ lit " WHERE " ++ ws
    let vals := if ws.isEmpty then vals else vals ++ wv
    pure (finalizeQuery b cond vals)
  else
    match b with
    | .mysql =>
      let cond := if ws.isEmpty then cond else cond ++ lit " WHERE " ++ ws
      let vals := if ws.isEmpty then vals else vals ++ wv
      pure (finalizeQuery b (cond ++ lit " LIMIT ?") (vals ++ [.vInt limit]))
    | .postgres | .sqlite =>
      let lid := limitIdentifier b
      let sel := lit "SELECT " ++ lid ++ lit " FROM " ++ quoteField table
      let sel := if ws.isEmpty then sel else sel ++ lit " WHERE " ++ ws
      let sel := sel ++ lit " LIMIT ?"
      let cond := cond ++ lit " WHERE " ++ lid ++ lit " IN (" ++ sel ++ [')']
      pure (finalizeQuery b cond (vals ++ wv ++ [.vInt limit]))

/-- builder.go `(Builder).BuildUpdate`. -/
def BuildUpdate (b : Dialect) (table : Chars) (w : Spec) (update : Spec) :
    Except Err (Chars × List Value) := do
  let limit ← getLimit w
  let conditions ← getWhereConditions w
  buildUpdate b table update limit conditions

/-- builder.go `(Builder).buildDelete`. -/
def buildDelete (b : Dialect) (table : Chars) (limit : Nat)
    (conditions : List Comparable) : Except Err (Chars × List Value) :=
  let (ws, vals) := whereConnector (lit "AND") conditions
  if limit = 0 then
    let cond := lit "DELETE FROM " ++ quoteField table
      ++ (if ws.isEmpty then [] else lit " WHERE " ++ ws)
    .ok (finalizeQuery b cond vals)
  else
    match b with
    | .mysql =>
      let cond := lit "DELETE FROM " ++ quoteField table
        ++ (if ws.isEmpty then [] else lit " WHERE " ++ ws) ++ lit " LIMIT ?"
      .ok (finalizeQuery b cond (vals ++ [.vInt limit]))
    | .postgres | .sqlite =>
      let lid := limitIdentifier b
      let sel := lit "SELECT " ++ lid ++ lit " FROM " ++ quoteField table
      let sel := if ws.isEmpty then sel else sel ++ lit " WHERE " ++ ws
      let sel := sel ++ lit " LIMIT ?"
      let cond := lit "DELETE FROM " ++ quoteField table ++ lit " WHERE " ++ lid
        ++ lit " IN (" ++ sel ++ [')']
      .ok (finalizeQuery b cond (vals ++ [.vInt limit]))

/-- builder.go `(Builder).BuildDelete`. -/
def BuildDelete (b : Dialect) (table : Chars) (w : Spec) :
    Except Err (Chars × List Value) := do
  let limit ← getLimit w
  let conditions ← getWhereConditions w
  buildDelete b table limit conditions

/-! ### Insert family and upsert (builder.go, upsert part). -/

/-- builder.go `insertType`. -/
inductive InsertKind where
  | common
  | ignoreIns
  | replaceIns
  deriving DecidableEq, Repr

/-- builder.go `resolveFields`: the quoted, sorted field set of a row. -/
def resolveFields (m : Spec) : List Chars :=
  sortKeys ((keysOf m).map quoteField)

/-- The per-row value collection of `buildInsertRaw`: each field of the
first row must be present (`errInsertDataNotMatch` at the first missing
one, fields visited in order); extra keys of the row are never consulted. -/
def insertRowVals (fields : List Chars) (row : Spec) : Except Err (List Value) :=
  match fields with
  | [] => .ok []
  | f :: fs =>
    match lookup f row with
    | some v => (insertRowVals fs row).map (fun vs => v :: vs)
    | none => .error .insertDataNotMatch

/-- The row loop of `buildInsertRaw`: rows visited in order, first failing
row aborts. -/
def insertAllVals (fields : List Chars) : List Spec → Except Err (List (List Value))
  | [] => .ok []
  | r :: rs =>
    match insertRowVals fields r with
    | .error e => .error e
    | .ok vs => (insertAllVals fields rs).map (fun rest => vs :: rest)

/-- builder.go `(Builder).buildInsertRaw`. -/
def buildInsertRaw (b : Dialect) (table : Chars) (setMap : List Spec)
    (kind : InsertKind) : Except Err (Chars × List Value) := do
  match setMap with
  | [] => throw .insertNullData
  | r0 :: _ =>
    let command ← match kind with
      | .common => pure (lit "INSERT INTO")
      | .ignoreIns =>
        match b with
        | .mysql => pure (lit "INSERT IGNORE INTO")
        | .postgres | .sqlite => pure (lit "INSERT INTO")
      | .replaceIns =>
        match b with
        | .mysql | .sqlite => pure (lit "REPLACE INTO")
        | .postgres => throw (.featureUnsupportedDialect (lit "BuildReplaceInsert"))
    let suffix : Chars := match kind, b with
      | .ignoreIns, .postgres | .ignoreIns, .sqlite => lit " ON CONFLICT DO NOTHING"
      | _, _ => []
    let fields := resolveFields r0
    let placeholder := '(' :: qmarks fields.length ++ [')']
    let rowVals ← insertAllVals fields setMap
    let query := command ++ [' '] ++ quoteField table ++ lit " ("
      ++ joinSep [','] fields ++ lit ") VALUES "
      ++ joinSep [','] (setMap.map (fun _ => placeholder)) ++ suffix
    pure (query, rowVals.flatten)

/-- builder.go `(Builder).buildInsert` (raw build + finalize). -/
def buildInsert (b : Dialect) (table : Chars) (data : List Spec) (kind : InsertKind) :
    Except Err (Chars × List Value) := do
  let (q, vals) ← buildInsertRaw b table data kind
  pure (finalizeQuery b q vals)

/-- builder.go `(Builder).BuildInsert`. -/
def BuildInsert (b : Dialect) (table : Chars) (data : List Spec) :
    Except Err (Chars × List Value) :=
  buildInsert b table data .common

/-- builder.go `(Builder).BuildInsertIgnore`. -/
def BuildInsertIgnore (b : Dialect) (table : Chars) (data : List Spec) :
    Except Err (Chars × List Value) :=
  buildInsert b table data .ignoreIns

/-- builder.go `(Builder).BuildReplaceInsert`. -/
def BuildReplaceInsert (b : Dialect) (table : Chars) (data : List Spec) :
    Except Err (Chars × List Value) :=
  buildInsert b table data .replaceIns

/-- builder.go `(Builder).buildInsertOnDuplicate` (MySQL only). -/
def BuildInsertOnDuplicate (b : Dialect) (table : Chars) (data : List Spec)
    (update : Spec) : Except Err (Chars × List Value) := do
  if b ≠ .mysql then throw (.featureUnsupportedDialect (lit "BuildInsertOnDuplicate"))
  let (iq, iv) ← buildInsertRaw b table data .common
  let (sets, uv) ← resolveUpdate update
  pure (finalizeQuery b (iq ++ lit " ON DUPLICATE KEY UPDATE " ++ sets) (iv ++ uv))

/-- builder.go (upsert part) `buildConflictTarget`. -/
def buildConflictTarget (conflictColumns : List Chars) : Except Err Chars :=
  if conflictColumns.isEmpty then .ok []
  else
    (conflictColumns.mapM (fun col =>
      let c := trimWS col
      if c.isEmpty then (.error .emptyConflictColumns : Except Err Chars)
      else .ok (quoteField c))).map
      (fun cols => '(' :: joinSep [','] cols ++ [')'])

/-- builder.go (upsert part) `(Builder).BuildUpsert`. -/
def BuildUpsert (b : Dialect) (table : Chars) (data : List Spec)
    (conflictColumns : List Chars) (update : Spec) : Except Err (Chars × List Value) := do
  if update.isEmpty then
    match b with
    | .mysql => buildInsert b table data .ignoreIns
    | .postgres | .sqlite =>
      let (iq, iv) ← buildInsertRaw b table data .common
      let target ← buildConflictTarget conflictColumns
      let iq := if target.isEmpty then iq ++ lit " ON CONFLICT DO NOTHING"
        else iq ++ lit " ON CONFLICT " ++ target ++ lit " DO NOTHING"
      pure (finalizeQuery b iq iv)
  else
    match b with
    | .mysql =>
      let (iq, iv) ← buildInsertRaw b table data .common
      let (sets, uv) ← resolveUpdate update
      pure (finalizeQuery b (iq ++ lit " ON DUPLICATE KEY UPDATE " ++ sets) (iv ++ uv))
    | .postgres | .sqlite =>
      let target ← buildConflictTarget conflictColumns
      if target.isEmpty then throw .emptyConflictColumns
      let (iq, iv) ← buildInsertRaw b table data .common
      let (sets, uv) ← resolveUpdate update
      pure (finalizeQuery b
        (iq ++ lit " ON CONFLICT " ++ target ++ lit " DO UPDATE SET " ++ sets) (iv ++ uv))

/-! ### Named query (builder.go `namedQuery` and the `{{token}}` scan). -/

/-- Lazy inner match of the token regex after the opening braces: the
shortest non-empty run of non-whitespace characters followed by two
closing braces; returns the content and the remainder after the braces. -/
def matchInner : Chars → Option (Chars × Chars)
  | [] => none
  | c :: cs =>
    if isSpaceGo c then none
    else
      match cs with
      | d :: e :: rest =>
        if d = rbr ∧ e = rbr then some ([c], rest)
        else (matchInner cs).map (fun p => (c :: p.1, p.2))
      | _ => (matchInner cs).map (fun p => (c :: p.1, p.2))

/-- Leftmost token match: returns the text before the match, the matched
content (between the brace pairs) and the remainder after the match. -/
def findToken : Chars → Option (Chars × Chars × Chars)
  | [] => none
  | c :: cs =>
    let shifted := (findToken cs).map (fun p => (c :: p.1, p.2.1, p.2.2))
    if c = lbr then
      match cs with
      | d :: ds =>
        if d = lbr then
          match matchInner ds with
          | some (content, rest) => some ([], content, rest)
          | none => shifted
        else shifted
      | [] => none
    else shifted

/-- Go `strings.TrimRight(strings.TrimLeft(match, "{"), "}")` applied to
the full match text. -/
def tokenName (content : Chars) : Chars :=
  trimTrailing (· = rbr) (content.dropWhile (· = lbr))

/-- builder.go `createMultiPlaceholders`. -/
def createMultiPlaceholders (n : Nat) : Chars :=
  if n = 0 then [] else '(' :: qmarks n ++ [')']

/-- The `ReplaceAllStringFunc` loop of `namedQuery`, fueled by the input
length (every match consumes at least five characters).  Returns the
expanded text, the collected values, and the last missing identifier (Go
overwrites `err` at each missing key, so the last one wins). -/
def nqF : Nat → Chars → Spec → Chars × List Value × Option Chars
  | 0, sql, _ => (sql, [], none)
  | f + 1, sql, data =>
    match findToken sql with
    | none => (sql, [], none)
    | some (before, content, rest) =>
      let name := tokenName content
      let (rep, vs, e) :=
        match lookup name data with
        | none => (([] : Chars), ([] : List Value), some name)
        | some v =>
          match sliceElems v with
          | some elems => (createMultiPlaceholders elems.length, elems, none)
          | none => ([qm], [v], none)
      let (out, vals, err2) := nqF f rest data
      (before ++ rep ++ out, vs ++ vals, match err2 with | some k => some k | none => e)

/-- builder.go `namedQuery`: an empty mapping returns the template
unchanged with no error; otherwise tokens are expanded and a recorded
missing key aborts with empty output. -/
def namedQuery (sql : Chars) (data : Spec) : Except Err (Chars × List Value) :=
  if data.isEmpty then .ok (sql, [])
  else
    match nqF (sql.length + 1) sql data with
    | (_, _, some k) => .error (.namedQueryKeyNotFound k)
    | (out, vals, none) => .ok (out, vals)

/-- builder.go `(Builder).NamedQuery`. -/
def NamedQuery (b : Dialect) (sql : Chars) (data : Spec) :
    Except Err (Chars × List Value) := do
  let (cond, vals) ← namedQuery sql data
  pure (finalizeQuery b cond vals)

/-! ### Placeholder counting, cleanliness and PostgreSQL token reading
(for the parity claim). -/

/-- Number of `?` placeholders in a query text. -/
def countQ (q : Chars) : Nat := q.count qm

/-- ASCII decimal digit test (by code point, keeping evaluation simple). -/
def isDigitCh (c : Char) : Bool := 48 ≤ c.toNat && c.toNat ≤ 57

/-- Text free of both placeholder-relevant characters `?` and `$` (user
text spliced verbatim into SQL must satisfy this for the parity claim). -/
def cleanChars (s : Chars) : Bool := s.all (fun c => c != qm && c != '$')

/-- No `$` anywhere (placeholder-bearing SQL text before rebinding). -/
def noDol (s : Chars) : Bool := s.all (fun c => c != '$')

/-- Does not start with a digit. -/
def headND : Chars → Bool
  | [] => true
  | c :: _ => !isDigitCh c

/-- No `?` immediately followed by a digit (otherwise the PostgreSQL
rewrite of `?` to `$n` would merge the digit into the placeholder
number). -/
def noQD : Chars → Bool
  | [] => true
  | c :: cs => (!(c == qm && !headND cs)) && noQD cs

/-- The digit-token reader: for each `$` of the query, the digit run
following it; the second argument holds the reversed digit run of a `$`
currently being read. -/
def pgTokensAux : Chars → Option Chars → List Chars
  | [], none => []
  | [], some t => [t.reverse]
  | c :: cs, none =>
    if c = '$' then pgTokensAux cs (some []) else pgTokensAux cs none
  | c :: cs, some t =>
    if isDigitCh c then pgTokensAux cs (some (c :: t))
    else t.reverse :: (if c = '$' then pgTokensAux cs (some []) else pgTokensAux cs none)

/-- The `$`-introduced digit tokens of a PostgreSQL query, left to right. -/
def pgTokens (q : Chars) : List Chars := pgTokensAux q none

/-- The parity property the claim asserts of a finished statement:
MySQL/SQLite bind one argument per `?`; PostgreSQL has no `?` left and
its `$` tokens read exactly `$1 … $n` from left to right (hence strictly
increasing, argument `k` binding placeholder `$k`). -/
def placeholdersMatch (b : Dialect) (q : Chars) (vals : List Value) : Prop :=
  match b with
  | .postgres => countQ q = 0 ∧ pgTokens q = (List.range' 1 vals.length).map itoa
  | .mysql | .sqlite => countQ q = vals.length

instance (b : Dialect) (q : Chars) (vals : List Value) :
    Decidable (placeholdersMatch b q vals) :=
  match b with
  | .postgres => inferInstanceAs (Decidable (_ ∧ _))
  | .mysql => inferInstanceAs (Decidable (_ = _))
  | .sqlite => inferInstanceAs (Decidable (_ = _))

/-- A rendered piece (fragment list and values) respecting parity: every
fragment is free of `$` and of `?`-digit adjacency, and the fragments
hold exactly as many `?` as there are values. -/
def fragOk (p : List Chars × List Value) : Bool :=
  p.1.all (fun s => noDol s && noQD s) && ((p.1.map countQ).sum == p.2.length)

/-- Key/value map whose keys and `Raw` values are clean (both are
spliced into SQL verbatim by the Eq/Ne/... renderer). -/
def kvClean (m : List (Chars × Value)) : Bool :=
  m.all (fun p => cleanChars p.1 &&
    (match p.2 with | .vRaw r => cleanChars r | _ => true))

/-- Key/slice map with clean keys (IN/BETWEEN renderers splice only the
keys; the slice elements become arguments). -/
def klClean (m : List (Chars × List Value)) : Bool := m.all (fun p => cleanChars p.1)

/-- Cleanliness of a user `Comparable` value: its declared fragments are
free of `$` and `?`-digit adjacency and hold exactly as many `?` as it
declares values. -/
def customOk : Value → Bool
  | .vCustom conds cvals _ => conds.all (fun s => noDol s && noQD s)
      && ((conds.map countQ).sum == cvals.toList.length)
  | _ => true

/-- A where/update value that never splices unclean text into SQL: only
`Raw` text enters verbatim, every other value binds through `?`. -/
def valueClean : Value → Bool
  | .vRaw r => cleanChars r
  | _ => true

/-- Cleanliness of a condition node: everything its `Build` splices into
SQL respects parity. -/
def compClean : Comparable → Bool
  | .eqC m => kvClean m
  | .neC m => kvClean m
  | .ltC m => kvClean m
  | .lteC m => kvClean m
  | .gtC m => kvClean m
  | .gteC m => kvClean m
  | .likeC m => m.all (fun p => cleanChars p.1)
  | .notLikeC m => m.all (fun p => cleanChars p.1)
  | .inC m => klClean m
  | .notInC m => klClean m
  | .betweenC m => klClean m
  | .notBetweenC m => klClean m
  | .nullC m => m.all (fun p => cleanChars p.1)
  | .nilC => true
  | .nestC built => built.all fragOk
  | .orC built => built.all fragOk
  | .customC conds cvals => conds.all (fun s => noDol s && noQD s)
      && ((conds.map countQ).sum == cvals.length)

/-- Cleanliness of an `_orderby` directive value: whatever its parse
produces (and would be spliced into SQL) is clean. -/
def obClean (v : Value) : Bool :=
  match parseOrderByClause v with
  | .ok s => cleanChars s
  | .error _ => true

/-- Cleanliness of a `_groupby` directive value. -/
def gbClean (v : Value) : Bool :=
  match parseGroupByClause v with
  | .ok s => cleanChars s
  | .error _ => true

mutual
/-- Cleanliness of a value in `_or` position. -/
def Value.orClean : Value → Bool
  | .vSpecs ms => ms.allClean
  | _ => true
/-- Cleanliness of a value in `_having` position. -/
def Value.havingClean : Value → Bool
  | .vMap hm => hm.clean
  | _ => true
/-- Cleanliness of a where-specification: every piece of text its build
may splice into SQL (field keys, `Raw` text, user fragments, parsed
order/group clauses) respects parity, recursively through `_or` and
`_having` nesting. -/
def Spec.clean : Spec → Bool
  | .nil => true
  | .cons k v tl =>
    (if k ∈ ignoreKeys then
      (if k = lit "_having" then v.havingClean
       else if k = lit "_orderby" then obClean v
       else if k = lit "_groupby" then gbClean v
       else true)
     else if (lit "_or").isPrefixOf k then v.orClean
     else if (lit "_custom_").isPrefixOf k then customOk v
     else cleanChars k && valueClean v) && tl.clean
/-- Cleanliness of every specification of a list. -/
def SpecList.allClean : SpecList → Bool
  | .nil => true
  | .cons m tl => m.clean && tl.allClean
end

/-- The per-entry condition of `Spec.clean` (named for lemma reuse). -/
def entryClean (k : Chars) (v : Value) : Bool :=
  if k ∈ ignoreKeys then
    (if k = lit "_having" then v.havingClean
     else if k = lit "_orderby" then obClean v
     else if k = lit "_groupby" then gbClean v
     else true)
  else if (lit "_or").isPrefixOf k then v.orClean
  else if (lit "_custom_").isPrefixOf k then customOk v
  else cleanChars k && valueClean v

/-- Cleanliness of an update-set map for `resolveUpdate`: keys and `Raw`
text are spliced verbatim, `_custom_` fragments must respect parity. -/
def updClean : Spec → Bool
  | .nil => true
  | .cons k v tl =>
    (match v with
     | .vRaw r => cleanChars k && cleanChars r
     | _ => if (lit "_custom_").isPrefixOf k then customOk v else cleanChars k)
    && updClean tl

/-- Clean insert row: its keys are spliced as the SQL field list. -/
def rowClean (r : Spec) : Bool := (keysOf r).all cleanChars

/-- No token of the named-query template is directly followed by a digit
(such a digit would merge into a PostgreSQL placeholder number). -/
def tokBoundaryOkF : Nat → Chars → Bool
  | 0, _ => true
  | f + 1, sql =>
    match findToken sql with
    | none => true
    | some (_, _, rest) => headND rest && tokBoundaryOkF f rest

/-- `tokBoundaryOkF` at the canonical fuel. -/
def tokBoundaryOk (sql : Chars) : Bool := tokBoundaryOkF (sql.length + 1) sql

/-- Structural form of `List.mapM` over `Except` (equal to `mapM` by
`mapM_eq_mapE` below; the structural form supports induction). -/
def mapE {α β : Type} (f : α → Except Err β) : List α → Except Err (List β)
  | [] => .ok []
  | a :: l =>
    match f a with
    | .error e => .error e
    | .ok b => (mapE f l).map (fun bs => b :: bs)

/-- One argument per present optional value (parity bookkeeping). -/
def optCount {β : Type} : Option β → Nat
  | some _ => 1
  | none => 0

/-- The rendered pair of one key in the Eq/Ne/... renderer (the loop
body of `buildKV`, factored for lemmas). -/
def kvPair (m : List (Chars × Value)) (op : Chars) (k : Chars) : Chars × Option Value :=
  match alookup k m with
  | some (.vRaw r) => (k ++ op ++ r, (none : Option Value))
  | some v => (assembleExpression k op, some v)
  | none => (assembleExpression k op, some (.vInt 0))

/-- The rendered pair of one key of `betweenBuilder` (factored). -/
def bwPair (m : List (Chars × List Value)) (opTxt : Chars) (k : Chars) :
    Chars × List Value :=
  let vs := (alookup k m).getD []
  if vs.length = 2 then ('(' :: k ++ opTxt ++ [')'], vs) else (lit "(1=0)", [])

/-- The per-entry condition of `updClean` (named for lemma reuse). -/
def updEntryClean (k : Chars) (v : Value) : Bool :=
  match v with
  | .vRaw r => cleanChars k && cleanChars r
  | _ => if (lit "_custom_").isPrefixOf k then customOk v else cleanChars k

/-! ## Claims -/

/-- C2: `BuildSelect` on the PostgreSQL dialect with table `users`,
where-spec `name = "kite"`, `_limit = [10, 20]`, `_lockMode = "share"`
and field list `[id, name]` returns exactly
`SELECT id,name FROM users WHERE (name=$1) LIMIT $2 OFFSET $3 FOR SHARE`
with argument list `["kite", 20, 10]` and no error: PostgreSQL renders
`LIMIT ? OFFSET ?` with `(count, offset)` argument order and the `share`
lock mode renders as `FOR SHARE`. -/
theorem C2_select_postgres_example :
    BuildSelect .postgres (lit "users")
      (specOf [(lit "name", .vStr (lit "kite")), (lit "_limit", .vIntList [10, 20]),
               (lit "_lockMode", .vStr (lit "share"))])
      [lit "id", lit "name"] =
    .ok (lit "SELECT id,name FROM users WHERE (name=$1) LIMIT $2 OFFSET $3 FOR SHARE",
      [.vStr (lit "kite"), .vInt 20, .vInt 10]) := by decide

/-- C8 counterexample: the claim states that an `_or` directive holding an
empty slice contributes nothing, making the built SQL byte-identical to
the build without the `_or` entry.  On the code, `OrWhere.Build` wraps the
empty connector result in a one-element fragment list, so the empty group
survives into the WHERE clause: with the `_or` alone the SQL is
`SELECT * FROM t WHERE ()`, without it `SELECT * FROM t` — not identical. -/
theorem C8_counterexample :
    BuildSelect .mysql (lit "t") (specOf [(lit "_or", .vSpecs .nil)]) [] =
      .ok (lit "SELECT * FROM t WHERE ()", []) ∧
    BuildSelect .mysql (lit "t") (specOf []) [] =
      .ok (lit "SELECT * FROM t", []) ∧
    lit "SELECT * FROM t WHERE ()" ≠ lit "SELECT * FROM t" := by decide

/-- C8 amended: an `_or` group whose slice is empty (or whose nested specs
all render to nothing) is not dropped: `OrWhere.Build` returns a singleton
empty fragment, so the group renders as empty parentheses when alone
(`WHERE ()`, or `WHERE (( OR ))` for all-empty nested specs) and as a
spurious leading ` AND ` separator next to other conditions. -/
theorem C8_amended :
    Build (.orC []) = ([[]], []) ∧
    BuildSelect .mysql (lit "t") (specOf [(lit "_or", .vSpecs .nil)]) [] =
      .ok (lit "SELECT * FROM t WHERE ()", []) ∧
    BuildSelect .mysql (lit "t")
      (specOf [(lit "_or", .vSpecs (specsOf [.nil, .nil]))]) [] =
      .ok (lit "SELECT * FROM t WHERE (( OR ))", []) ∧
    BuildSelect .mysql (lit "t")
      (specOf [(lit "_or", .vSpecs .nil), (lit "a", .vInt 1)]) [] =
      .ok (lit "SELECT * FROM t WHERE ( AND a=?)", [.vInt 1]) := by decide

/-- C7 counterexample: the claim states that a `_having` entry using the
operator `in` is rejected with the having-unsupported-operator error.  On
the code, `resolveHaving` checks membership in `opOrder`, which contains
`in` (and like/between), so the entry compiles into the HAVING clause and
the build succeeds. -/
theorem C7_counterexample :
    BuildSelect .mysql (lit "t")
      (specOf [(lit "_groupby", .vStr (lit "dept")),
               (lit "_having", .vMap (specOf [(lit "cnt in", .vIntList [1, 2])]))]) [] =
    .ok (lit "SELECT * FROM t GROUP BY dept HAVING (cnt IN (?,?))",
      [.vInt 1, .vInt 2]) := by decide

/-- C9 counterexample: the claim states that for every value mapping not
containing a referenced identifier, `NamedQuery` returns an error.  The
empty mapping does not contain `id`, yet `namedQuery` short-circuits on
`len(data) == 0` and returns the template unchanged with no error. -/
theorem C9_counterexample :
    lookup (lit "id") .nil = none ∧
    NamedQuery .mysql (lit "SELECT \x7b\x7bid\x7d\x7d FROM t") .nil =
      .ok (lit "SELECT \x7b\x7bid\x7d\x7d FROM t", []) := by decide

/-- C4 counterexample: the claim states that for every non-empty row list
and non-empty update-set, `BuildUpsert` on MySQL succeeds.  A second row
missing a field of the first row makes the insert body fail with
`errInsertDataNotMatch` instead. -/
theorem C4_counterexample :
    BuildUpsert .mysql (lit "t") [specOf [(lit "a", .vInt 1)], .nil]
      [lit "a"] (specOf [(lit "x", .vInt 2)]) =
    .error .insertDataNotMatch := by decide

/-- C3 counterexample: the claim states that a where-spec `between` entry
with a value slice of length ≠ 2 builds successfully with an always-false
`(1=0)` fragment.  On the code the where-spec path validates arity in
`convertWhereMapToWhereMapSlice` and returns `errBetweenValueLength`
instead: the build fails, no SQL is produced. -/
theorem C3_counterexample :
    BuildSelect .mysql (lit "t")
      (specOf [(lit "a between", .vIntList [1, 2, 3])]) [] =
    .error .betweenValueLength := by decide

/-! ### Helper lemmas for symbolic builder evaluation. -/

/-- The walk step on an ignored (directive) key. -/
theorem gwcStep_ignore (rec w acc) {k : Chars} (h : k ∈ ignoreKeys) :
    gwcStep rec w acc k = .ok acc := by
  simp [gwcStep, h]

/-- The walk step on an ordinary field key. -/
theorem gwcStep_field (rec w acc) {k f op : Chars} {v : Value}
    (hig : k ∉ ignoreKeys)
    (hor : (lit "_or").isPrefixOf k = false)
    (hcu : (lit "_custom_").isPrefixOf k = false)
    (hv : lookup k w = some v)
    (hsp : splitKey k v = .ok (f, op))
    (hop : lowerChars op ∈ opOrder)
    (hnn : ∀ b, v ≠ .vNull b) :
    gwcStep rec w acc k = .ok (acc.1, wmsAdd (lowerChars op) f v acc.2) := by
  have hmatch : (match v with | Value.vNull _ => lit "null" | _ => lowerChars op)
      = lowerChars op := by
    cases v <;> first | rfl | exact absurd rfl (hnn _)
  simp [gwcStep, hig, hor, hcu, hv, hsp, hop, hmatch]

/-- One-step unfolding of `gwcF` at positive fuel (kept as a standalone
rewrite so proofs unfold exactly one layer). -/
theorem gwcF_succ (fuel : Nat) (w : Spec) :
    gwcF (fuel + 1) w =
      if w.isEmpty then .ok []
      else
        match (sortKeys (keysOf w)).foldlM (gwcStep (gwcF fuel) w) ([], []) with
        | .error e => .error e
        | .ok (cmps, wms) =>
          match buildWhereCondition wms with
          | .error e => .error e
          | .ok built => .ok (cmps ++ built) := rfl

/-- A one-entry specification with an ordinary field key compiles to the
drained one-operator map. -/
theorem gwc_single {k f op : Chars} {v : Value}
    (hig : k ∉ ignoreKeys)
    (hor : (lit "_or").isPrefixOf k = false)
    (hcu : (lit "_custom_").isPrefixOf k = false)
    (hsp : splitKey k v = .ok (f, op))
    (hop : lowerChars op ∈ opOrder)
    (hnn : ∀ b, v ≠ .vNull b) :
    getWhereConditions (specOf [(k, v)]) =
      buildWhereCondition [(lowerChars op, [(f, v)])] := by
  have hks : sortKeys (keysOf (specOf [(k, v)])) = [k] := rfl
  have hv : lookup k (specOf [(k, v)]) = some v := by simp [specOf, lookup]
  have hstep := gwcStep_field (gwcF (Spec.weight (specOf [(k, v)]))) (specOf [(k, v)])
    (([], []) : List Comparable × List (Chars × List (Chars × Value)))
    hig hor hcu hv hsp hop hnn
  have hne : (specOf [(k, v)]).isEmpty = false := rfl
  simp only [getWhereConditions, gwcF_succ, hks, hne, Bool.false_eq_true, if_false,
    List.foldlM, hstep]
  simp only [wmsAdd, alookup, List.nil_append, bind_pure]
  cases hbw : buildWhereCondition [(lowerChars op, [(f, v)])] <;> simp [hbw]

/-- Bind reduction on `Except` (kept as rewrite rules). -/
theorem except_bind_ok {ε α β : Type} (a : α) (f : α → Except ε β) :
    (Except.ok a : Except ε α) >>= f = f a := rfl

/-- Bind reduction on `Except`, error case. -/
theorem except_bind_err {ε α β : Type} (e : ε) (f : α → Except ε β) :
    (Except.error e : Except ε α) >>= f = .error e := rfl

/-- `BuildSelect` on a specification without directive keys reduces to
the condition compilation plus plain assembly. -/
theorem BuildSelect_plain (b : Dialect) (t : Chars) (flds : List Chars) (w : Spec)
    (h1 : lookup (lit "_orderby") w = none)
    (h2 : lookup (lit "_groupby") w = none)
    (h3 : lookup (lit "_limit") w = none)
    (h4 : lookup (lit "_lockMode") w = none) :
    BuildSelect b t w flds =
      match getWhereConditions w with
      | .error e => .error e
      | .ok cs => .ok (buildSelect b t flds [] [] [] none cs) := by
  simp only [BuildSelect, h1, h2, h3, h4]
  cases hg : getWhereConditions w <;> simp [hg, List.isEmpty]

/-- `BuildUpdate` on a specification without a `_limit` key. -/
theorem BuildUpdate_plain (b : Dialect) (t : Chars) (w u : Spec)
    (h3 : lookup (lit "_limit") w = none) :
    BuildUpdate b t w u =
      match getWhereConditions w with
      | .error e => .error e
      | .ok cs => buildUpdate b t u 0 cs := by
  simp only [BuildUpdate, getLimit, h3]
  cases hg : getWhereConditions w <;> simp [hg, except_bind_ok, except_bind_err]

/-- `BuildDelete` on a specification without a `_limit` key. -/
theorem BuildDelete_plain (b : Dialect) (t : Chars) (w : Spec)
    (h3 : lookup (lit "_limit") w = none) :
    BuildDelete b t w =
      match getWhereConditions w with
      | .error e => .error e
      | .ok cs => buildDelete b t 0 cs := by
  simp only [BuildDelete, getLimit, h3]
  cases hg : getWhereConditions w <;> simp [hg, except_bind_ok, except_bind_err]

/-- Draining a one-operator map keyed by `between`. -/
theorem bwc_between (m : List (Chars × Value)) :
    buildWhereCondition [(lit "between", m)] =
      (convertWhereMapToWhereMapSlice m (lit "between")).map (fun c => [.betweenC c]) := by
  simp +decide [buildWhereCondition, opOrder, alookup, op2Cmp, List.filterMap, List.mapM,
    List.mapM.loop]
  cases hc : convertWhereMapToWhereMapSlice m (lit "between") <;> rfl

/-- Draining a one-operator map keyed by `not between`. -/
theorem bwc_not_between (m : List (Chars × Value)) :
    buildWhereCondition [(lit "not between", m)] =
      (convertWhereMapToWhereMapSlice m (lit "not between")).map (fun c => [.notBetweenC c]) := by
  simp +decide [buildWhereCondition, opOrder, alookup, op2Cmp, List.filterMap, List.mapM,
    List.mapM.loop]
  cases hc : convertWhereMapToWhereMapSlice m (lit "not between") <;> rfl

/-- C3 amended: a where-spec field key with operator `between` or
`not between` whose slice value has length different from two makes the
whole build return an error — `errBetweenValueLength` (or, for an empty
slice, the empty-slice-condition error) — with no SQL; the always-false
`(1=0)` fragment is produced only by the `Between`/`NotBetween`
comparable's own `Build` method (reached when such a comparable is
constructed directly), which renders `(1=0)` in place of the condition and
contributes no argument. -/
theorem C3_amended :
    (∀ (b : Dialect) (t : Chars) (flds : List Chars) (upd : Spec)
      (k f op : Chars) (v : Value) (vs : List Value),
      k ∉ ignoreKeys →
      (lit "_or").isPrefixOf k = false →
      (lit "_custom_").isPrefixOf k = false →
      splitKey k v = .ok (f, op) →
      (lowerChars op = lit "between" ∨ lowerChars op = lit "not between") →
      sliceElems v = some vs →
      vs.length ≠ 2 →
      (BuildSelect b t (specOf [(k, v)]) flds =
          .error (if vs.isEmpty then .emptySliceCondition (lowerChars op)
            else .betweenValueLength) ∧
        BuildUpdate b t (specOf [(k, v)]) upd =
          .error (if vs.isEmpty then .emptySliceCondition (lowerChars op)
            else .betweenValueLength) ∧
        BuildDelete b t (specOf [(k, v)]) =
          .error (if vs.isEmpty then .emptySliceCondition (lowerChars op)
            else .betweenValueLength))) ∧
    (∀ (g : Chars) (ws : List Value) (nb : Bool), ws.length ≠ 2 →
      betweenBuilder [(g, ws)] nb = ([lit "(1=0)"], [])) := by
  constructor
  · intro b t flds upd k f op v vs hig hor hcu hsp hops hsl hlen
    have hnn : ∀ bb, v ≠ Value.vNull bb := by
      intro bb h
      rw [h] at hsl
      simp [sliceElems] at hsl
    have hop : lowerChars op ∈ opOrder := by
      rcases hops with h | h <;> rw [h] <;> decide
    have hgwc : getWhereConditions (specOf [(k, v)]) =
        .error (if vs.isEmpty then .emptySliceCondition (lowerChars op)
          else .betweenValueLength) := by
      rw [gwc_single hig hor hcu hsp hop hnn]
      have hconv : convertWhereMapToWhereMapSlice [(f, v)] (lowerChars op) =
          .error (if vs.isEmpty then .emptySliceCondition (lowerChars op)
            else .betweenValueLength) := by
        have hbool : (lowerChars op = lit "between" || lowerChars op = lit "not between") = true := by
          rcases hops with h | h <;> rw [h] <;> decide
        simp only [convertWhereMapToWhereMapSlice, List.mapM, List.mapM.loop, hsl, hbool,
          Bool.true_and, hlen]
        cases hemp : vs.isEmpty <;> simp [hemp, hlen]
      rcases hops with h | h <;> rw [h] <;> rw [h] at hconv
      · rw [bwc_between, hconv] <;> rfl
      · rw [bwc_not_between, hconv] <;> rfl
    have hne : ∀ dk : Chars, dk ∈ ignoreKeys → lookup dk (specOf [(k, v)]) = none := by
      intro dk hdk
      have : ¬(k = dk) := fun h => hig (h ▸ hdk)
      simp [specOf, lookup, this]
    refine ⟨?_, ?_, ?_⟩
    · rw [BuildSelect_plain b t flds _ (hne _ (by decide)) (hne _ (by decide))
        (hne _ (by decide)) (hne _ (by decide)), hgwc]
    · rw [BuildUpdate_plain b t _ upd (hne _ (by decide)), hgwc]
    · rw [BuildDelete_plain b t _ (hne _ (by decide)), hgwc]
  · intro g ws nb hlen
    have : alookup g [(g, ws)] = some ws := by simp [alookup]
    simp [betweenBuilder, sortKeys, List.insertionSort, this, hlen]

/-- Witness for C3 amended at a concrete input. -/
theorem C3_amended_witness :
    BuildSelect .mysql (lit "t") (specOf [(lit "a between", .vIntList [1, 2, 3])]) [] =
      .error .betweenValueLength ∧
    betweenBuilder [(lit "a", [.vInt 1])] true = ([lit "(1=0)"], []) :=
  ⟨(C3_amended.1 .mysql (lit "t") [] .nil (lit "a between") (lit "a") (lit "between")
      (.vIntList [1, 2, 3]) [.vInt 1, .vInt 2, .vInt 3] (by decide) (by decide) (by decide)
      (by decide) (.inl (by decide)) (by decide) (by decide)).1,
    C3_amended.2 (lit "a") [.vInt 1] true (by decide)⟩

/-- C7 amended: `_having` entries are validated against the full `opOrder`
operator table — the same table the WHERE compiler uses — so every
supported operator is accepted, including `in`, `not in`, `like`,
`not like`, `between` and `not between`, and such entries are compiled
into the HAVING clause; only an operator outside the table is rejected
with the having-unsupported-operator error. -/
theorem C7_amended :
    resolveHaving (.vMap (specOf [(lit "cnt in", .vIntList [1, 2])])) =
      .ok (specOf [(lit "cnt in", .vIntList [1, 2])]) ∧
    resolveHaving (.vMap (specOf [(lit "cnt not in", .vIntList [1, 2])])) =
      .ok (specOf [(lit "cnt not in", .vIntList [1, 2])]) ∧
    resolveHaving (.vMap (specOf [(lit "name like", .vStr (lit "k%"))])) =
      .ok (specOf [(lit "name like", .vStr (lit "k%"))]) ∧
    resolveHaving (.vMap (specOf [(lit "name not like", .vStr (lit "k%"))])) =
      .ok (specOf [(lit "name not like", .vStr (lit "k%"))]) ∧
    resolveHaving (.vMap (specOf [(lit "cnt between", .vIntList [1, 2])])) =
      .ok (specOf [(lit "cnt between", .vIntList [1, 2])]) ∧
    resolveHaving (.vMap (specOf [(lit "cnt not between", .vIntList [1, 2])])) =
      .ok (specOf [(lit "cnt not between", .vIntList [1, 2])]) ∧
    BuildSelect .mysql (lit "t")
      (specOf [(lit "_groupby", .vStr (lit "dept")),
               (lit "_having", .vMap (specOf [(lit "cnt between", .vIntList [1, 2])]))]) [] =
      .ok (lit "SELECT * FROM t GROUP BY dept HAVING ((cnt BETWEEN ? AND ?))",
        [.vInt 1, .vInt 2]) ∧
    (∀ (k : Chars) (v : Value) (tl : Spec) (f op : Chars)
      (b : Dialect) (t : Chars) (flds : List Chars),
      splitKey k v = .ok (f, op) → lowerChars op ∉ opOrder →
      resolveHaving (.vMap (.cons k v tl)) = .error .havingUnsupportedOperator ∧
      BuildSelect b t
        (specOf [(lit "_groupby", .vStr (lit "dept")), (lit "_having", .vMap (.cons k v tl))])
        flds = .error .havingUnsupportedOperator) := by
  refine ⟨by decide, by decide, by decide, by decide, by decide, by decide, by decide, ?_⟩
  intro k v tl f op b t flds hsp hnot
  have hcore : resolveHaving (.vMap (.cons k v tl)) = .error .havingUnsupportedOperator := by
    simp [resolveHaving, havingWalk, havingEntryOk, hsp, hnot, Except.map]
  refine ⟨hcore, ?_⟩
  have h1 : lookup (lit "_orderby")
      (specOf [(lit "_groupby", .vStr (lit "dept")), (lit "_having", .vMap (.cons k v tl))]) =
      none := rfl
  have h2 : lookup (lit "_groupby")
      (specOf [(lit "_groupby", .vStr (lit "dept")), (lit "_having", .vMap (.cons k v tl))]) =
      some (.vStr (lit "dept")) := rfl
  have h3 : lookup (lit "_having")
      (specOf [(lit "_groupby", .vStr (lit "dept")), (lit "_having", .vMap (.cons k v tl))]) =
      some (.vMap (.cons k v tl)) := rfl
  have h4 : parseGroupByClause (.vStr (lit "dept")) = .ok (lit "dept") := by decide
  simp only [BuildSelect, h1, h2, h3, h4, except_bind_ok, except_bind_err]
  simp [hcore, except_bind_ok, except_bind_err]
  rw [if_neg (by decide : ¬((lit "dept" : Chars) = []))]
  rfl

/-- Witness for C7 amended at a concrete input. -/
theorem C7_amended_witness :
    resolveHaving (.vMap (.cons (lit "a foo") (.vInt 1) .nil)) =
      .error .havingUnsupportedOperator ∧
    BuildSelect .mysql (lit "t")
      (specOf [(lit "_groupby", .vStr (lit "dept")),
               (lit "_having", .vMap (.cons (lit "a foo") (.vInt 1) .nil))]) [] =
      .error .havingUnsupportedOperator :=
  C7_amended.2.2.2.2.2.2.2 (lit "a foo") (.vInt 1) .nil (lit "a") (lit "foo")
    .mysql (lit "t") [] (by decide) (by decide)

/-- The identifiers of the template tokens in scan order (same scanner as
`nqF`, same fuel). -/
def scanTokensF : Nat → Chars → List Chars
  | 0, _ => []
  | f + 1, sql =>
    match findToken sql with
    | none => []
    | some (_, content, rest) => tokenName content :: scanTokensF f rest

/-- The identifiers referenced by a named-query template, in scan order. -/
def scanTokens (sql : Chars) : List Chars := scanTokensF (sql.length + 1) sql

/-- The error slot of the scan loop is set exactly when some scanned
token identifier is missing from the mapping. -/
theorem nqF_err_of_missing (fuel : Nat) :
    ∀ (sql : Chars) (data : Spec) (id : Chars),
      id ∈ scanTokensF fuel sql → lookup id data = none →
      (nqF fuel sql data).2.2.isSome = true := by
  induction fuel with
  | zero => intro sql data id hmem; simp [scanTokensF] at hmem
  | succ f ih =>
    intro sql data id hmem hmiss
    rw [scanTokensF] at hmem
    rw [nqF]
    cases hft : findToken sql with
    | none => rw [hft] at hmem; simp at hmem
    | some p =>
      obtain ⟨before, content, rest⟩ := p
      rw [hft] at hmem
      simp only [List.mem_cons] at hmem
      cases hmem with
      | inl heq =>
        subst heq
        simp only [hmiss]
        cases hrec : nqF f rest data with
        | mk out tail =>
          obtain ⟨vals, err2⟩ := tail
          cases err2 <;> simp
      | inr hmem =>
        have := ih rest data id hmem hmiss
        cases hrec : nqF f rest data with
        | mk out tail =>
          obtain ⟨vals, err2⟩ := tail
          rw [hrec] at this
          simp only at this
          cases err2 with
          | none => simp at this
          | some kk =>
            cases lookup (tokenName content) data <;> simp [hrec] <;>
              cases sliceElems _ <;> simp

/-- Any identifier recorded in the error slot of the scan loop is indeed
missing from the mapping. -/
theorem nqF_err_missing (fuel : Nat) :
    ∀ (sql : Chars) (data : Spec) (k : Chars),
      (nqF fuel sql data).2.2 = some k → lookup k data = none := by
  induction fuel with
  | zero => intro sql data k h; simp [nqF] at h
  | succ f ih =>
    intro sql data k h
    rw [nqF] at h
    cases hft : findToken sql with
    | none => rw [hft] at h; simp at h
    | some p =>
      obtain ⟨before, content, rest⟩ := p
      rw [hft] at h
      simp only at h
      cases hrec : nqF f rest data with
      | mk out tail =>
        obtain ⟨vals, err2⟩ := tail
        rw [hrec] at h
        cases err2 with
        | some kk =>
          simp at h
          subst h
          exact ih rest data kk (by rw [hrec])
        | none =>
          simp only at h
          cases hlk : lookup (tokenName content) data with
          | none => rw [hlk] at h; simp at h; subst h; exact hlk
          | some v =>
            rw [hlk] at h
            simp only at h
            cases hse : sliceElems v with
            | none => rw [hse] at h; simp at h
            | some elems => rw [hse] at h; simp at h

/-- C9 amended: for every template containing a referenced identifier that
is missing from the mapping, `NamedQuery` returns the key-not-found error
(naming the last missing identifier in scan order) with no SQL and no
arguments — provided the mapping is non-empty; the empty mapping
short-circuits and returns the template unchanged without error. -/
theorem C9_amended :
    ∀ (b : Dialect) (sql : Chars) (data : Spec) (id : Chars),
      data.isEmpty = false →
      id ∈ scanTokens sql →
      lookup id data = none →
      ∃ k, NamedQuery b sql data = .error (.namedQueryKeyNotFound k) ∧
        lookup k data = none := by
  intro b sql data id hne hmem hmiss
  have hsome := nqF_err_of_missing (sql.length + 1) sql data id hmem hmiss
  cases hn : nqF (sql.length + 1) sql data with
  | mk out tail =>
    obtain ⟨vals, err2⟩ := tail
    rw [hn] at hsome
    cases err2 with
    | none => simp at hsome
    | some k =>
      refine ⟨k, ?_, nqF_err_missing _ sql data k (by rw [hn])⟩
      simp [NamedQuery, namedQuery, hne, hn, except_bind_err]

/-- Witness for C9 amended at a concrete input. -/
theorem C9_amended_witness :
    ∃ k, NamedQuery .mysql (lit "SELECT \x7b\x7bid\x7d\x7d FROM t")
      (specOf [(lit "x", .vInt 1)]) = .error (.namedQueryKeyNotFound k) ∧
      lookup k (specOf [(lit "x", .vInt 1)]) = none :=
  C9_amended .mysql (lit "SELECT \x7b\x7bid\x7d\x7d FROM t") (specOf [(lit "x", .vInt 1)])
    (lit "id") (by decide) (by decide) (by decide)

/-! ### Insert-row lemmas (for C4 and C10). -/

/-- Induction on the spine of a specification (the mutual inductive has no
usable default eliminator for single-motive goals). -/
theorem spec_induction {P : Spec → Prop} (h0 : P .nil)
    (h1 : ∀ k v tl, P tl → P (.cons k v tl)) : ∀ m, P m
  | .nil => h0
  | .cons k v tl => h1 k v tl (spec_induction h0 h1 tl)

/-- A key of a specification always resolves. -/
theorem lookup_isSome_of_mem_keys {k : Chars} (m : Spec) (h : k ∈ keysOf m) :
    (lookup k m).isSome = true := by
  induction m using spec_induction with
  | h0 => simp [keysOf] at h
  | h1 k' v tl ih =>
    simp only [keysOf, List.mem_cons] at h
    by_cases hk : k' = k
    · simp [lookup, hk]
    · rcases h with h | h
      · exact absurd h.symm hk
      · simp [lookup, hk, ih h]

/-- Membership in the resolved field set is membership in the row's key
set. -/
theorem mem_resolveFields {f : Chars} {m : Spec} :
    f ∈ resolveFields m ↔ f ∈ keysOf m := by
  have : (keysOf m).map quoteField = keysOf m := by
    simp only [show quoteField = id from rfl, List.map_id]
  simp [resolveFields, sortKeys, this]

/-- Collecting one row's values succeeds when all listed fields resolve,
and yields the values in field order. -/
theorem insertRowVals_ok {fields : List Chars} {row : Spec}
    (h : ∀ f ∈ fields, (lookup f row).isSome = true) :
    insertRowVals fields row = .ok (fields.filterMap (fun f => lookup f row)) := by
  induction fields with
  | nil => rfl
  | cons f fs ih =>
    obtain ⟨v, hv⟩ := Option.isSome_iff_exists.mp (h f (by simp))
    rw [insertRowVals, hv, ih (fun g hg => h g (by simp [hg]))]
    simp [List.filterMap, hv, Except.map]

/-- Collecting one row's values fails with the row-mismatch error when a
listed field is missing. -/
theorem insertRowVals_missing {fields : List Chars} {row : Spec} {f : Chars}
    (hf : f ∈ fields) (hm : lookup f row = none) :
    insertRowVals fields row = .error .insertDataNotMatch := by
  induction fields with
  | nil => simp at hf
  | cons g gs ih =>
    rw [insertRowVals]
    cases hg : lookup g row with
    | none => rfl
    | some v =>
      rcases List.mem_cons.mp hf with h | h
      · subst h; rw [hm] at hg; cases hg
      · rw [ih h]; rfl

/-- The only error the row collection produces is the row-mismatch one. -/
theorem insertRowVals_error_eq {fields : List Chars} {row : Spec} {e : Err}
    (h : insertRowVals fields row = .error e) : e = .insertDataNotMatch := by
  induction fields with
  | nil => cases h
  | cons g gs ih =>
    rw [insertRowVals] at h
    cases hg : lookup g row with
    | none => rw [hg] at h; cases h; rfl
    | some v =>
      rw [hg] at h
      cases hr : insertRowVals gs row with
      | error e2 => rw [hr] at h; cases h; exact ih hr
      | ok vs => rw [hr] at h; cases h

/-- The row loop succeeds when every row resolves every listed field. -/
theorem insertAllVals_ok {fields : List Chars} {rows : List Spec}
    (h : ∀ r ∈ rows, ∀ f ∈ fields, (lookup f r).isSome = true) :
    insertAllVals fields rows =
      .ok (rows.map (fun r => fields.filterMap (fun f => lookup f r))) := by
  induction rows with
  | nil => rfl
  | cons r rs ih =>
    rw [insertAllVals, insertRowVals_ok (h r (by simp)),
      ih (fun r2 h2 => h r2 (by simp [h2]))]
    rfl

/-- The row loop fails with the row-mismatch error when some row misses a
listed field. -/
theorem insertAllVals_missing {fields : List Chars} {rows : List Spec} {r : Spec} {f : Chars}
    (hr : r ∈ rows) (hf : f ∈ fields) (hm : lookup f r = none) :
    insertAllVals fields rows = .error .insertDataNotMatch := by
  induction rows with
  | nil => simp at hr
  | cons r0 rs ih =>
    rw [insertAllVals]
    rcases List.mem_cons.mp hr with h | h
    · subst h; rw [insertRowVals_missing hf hm]
    · cases h0 : insertRowVals fields r0 with
      | error e => rw [insertRowVals_error_eq h0]
      | ok vs => rw [ih h]; rfl

/-- The command word of each MySQL insert variant. -/
def mysqlCmd : InsertKind → Chars
  | .common => lit "INSERT INTO"
  | .ignoreIns => lit "INSERT IGNORE INTO"
  | .replaceIns => lit "REPLACE INTO"

/-- Shape of the raw insert build on MySQL: the field set comes from the
first row only, and the argument matrix is the per-row resolution of
exactly those fields. -/
theorem buildInsertRaw_mysql (t : Chars) (r0 : Spec) (rest : List Spec) (kind : InsertKind) :
    buildInsertRaw .mysql t (r0 :: rest) kind =
      (insertAllVals (resolveFields r0) (r0 :: rest)).map (fun rv =>
        (mysqlCmd kind ++ [' '] ++ t ++ lit " (" ++ joinSep [','] (resolveFields r0)
          ++ lit ") VALUES "
          ++ joinSep [','] ((r0 :: rest).map
              (fun _ => '(' :: qmarks (resolveFields r0).length ++ [')'])),
         rv.flatten)) := by
  cases kind <;>
    cases h : insertAllVals (resolveFields r0) (r0 :: rest) <;>
      simp [buildInsertRaw, mysqlCmd, h, except_bind_ok, except_bind_err, quoteField,
        Except.map]

/-- C10: for every multi-row insert on the default (MySQL) builder —
`BuildInsert`, `BuildInsertIgnore`, `BuildReplaceInsert`,
`BuildInsertOnDuplicate`, `BuildUpsert` — the rendered field set is
computed from the first row alone.  A later row containing all of the
first row's fields (plus possibly more) builds successfully, the extra
fields and their values silently omitted: the SQL lists only the first
row's sorted fields and the arguments resolve exactly those fields per
row.  Only a later row missing one of the first row's fields causes
`errInsertDataNotMatch`. -/
theorem C10_insert_fields_from_first_row :
    ∀ (t : Chars) (r0 : Spec) (rest : List Spec) (update : Spec) (cols : List Chars),
      ((∀ r ∈ rest, ∀ f ∈ resolveFields r0, (lookup f r).isSome = true) →
        (resolveUpdate update).isOk = true →
        (BuildInsert .mysql t (r0 :: rest)).isOk = true ∧
        (BuildInsertIgnore .mysql t (r0 :: rest)).isOk = true ∧
        (BuildReplaceInsert .mysql t (r0 :: rest)).isOk = true ∧
        (BuildInsertOnDuplicate .mysql t (r0 :: rest) update).isOk = true ∧
        (BuildUpsert .mysql t (r0 :: rest) cols update).isOk = true ∧
        BuildInsert .mysql t (r0 :: rest) =
          .ok (lit "INSERT INTO " ++ t ++ lit " (" ++ joinSep [','] (resolveFields r0)
              ++ lit ") VALUES "
              ++ joinSep [','] ((r0 :: rest).map
                  (fun _ => '(' :: qmarks (resolveFields r0).length ++ [')'])),
            ((r0 :: rest).map
              (fun r => (resolveFields r0).filterMap (fun f => lookup f r))).flatten)) ∧
      (∀ r ∈ rest, (∃ f ∈ resolveFields r0, lookup f r = none) →
        BuildInsert .mysql t (r0 :: rest) = .error .insertDataNotMatch ∧
        BuildInsertIgnore .mysql t (r0 :: rest) = .error .insertDataNotMatch ∧
        BuildReplaceInsert .mysql t (r0 :: rest) = .error .insertDataNotMatch ∧
        BuildInsertOnDuplicate .mysql t (r0 :: rest) update = .error .insertDataNotMatch ∧
        BuildUpsert .mysql t (r0 :: rest) cols update = .error .insertDataNotMatch) := by
  intro t r0 rest update cols
  constructor
  · intro hsup hupd
    have hall : ∀ r ∈ r0 :: rest, ∀ f ∈ resolveFields r0, (lookup f r).isSome = true := by
      intro r hr f hf
      rcases List.mem_cons.mp hr with h | h
      · subst h; exact lookup_isSome_of_mem_keys r (mem_resolveFields.mp hf)
      · exact hsup r h f hf
    have hav := @insertAllVals_ok (resolveFields r0) (r0 :: rest) hall
    have hraw := fun kind => buildInsertRaw_mysql t r0 rest kind
    obtain ⟨su, hsu⟩ : ∃ p, resolveUpdate update = .ok p := by
      cases hu : resolveUpdate update with
      | error e => rw [hu] at hupd; simp [Except.isOk, Except.toBool] at hupd
      | ok p => exact ⟨p, rfl⟩
    have hins : ∀ kind, buildInsert .mysql t (r0 :: rest) kind =
        .ok (finalizeQuery .mysql
          (mysqlCmd kind ++ [' '] ++ t ++ lit " (" ++ joinSep [','] (resolveFields r0)
            ++ lit ") VALUES "
            ++ joinSep [','] ((r0 :: rest).map
                (fun _ => '(' :: qmarks (resolveFields r0).length ++ [')'])))
          (((r0 :: rest).map
            (fun r => (resolveFields r0).filterMap (fun f => lookup f r))).flatten)) := by
      intro kind
      simp [buildInsert, hraw kind, hav, Except.map, except_bind_ok]
    refine ⟨?_, ?_, ?_, ?_, ?_, ?_⟩
    · simp [BuildInsert, hins .common, Except.isOk, Except.toBool]
    · simp [BuildInsertIgnore, hins .ignoreIns, Except.isOk, Except.toBool]
    · simp [BuildReplaceInsert, hins .replaceIns, Except.isOk, Except.toBool]
    · obtain ⟨sets, uv⟩ := su
      simp [BuildInsertOnDuplicate, hraw .common, hav, Except.map, except_bind_ok, hsu,
        Except.isOk, Except.toBool]
    · obtain ⟨sets, uv⟩ := su
      cases hue : update.isEmpty with
      | true =>
        simp [BuildUpsert, hue, BuildInsertIgnore, hins .ignoreIns, Except.isOk, Except.toBool]
      | false =>
        simp [BuildUpsert, hue, hraw .common, hav, Except.map, except_bind_ok, hsu,
          Except.isOk, Except.toBool]
    · have hcmd : (lit "INSERT INTO " : Chars) = lit "INSERT INTO" ++ [' '] := rfl
      simp [BuildInsert, hins .common, finalizeQuery, rebindQuery, mysqlCmd, hcmd,
        List.append_assoc, List.singleton_append, List.cons_append]
  · intro r hr ⟨f, hf, hm⟩
    have hav := @insertAllVals_missing (resolveFields r0) (r0 :: rest) r f
      (List.mem_cons_of_mem r0 hr) hf hm
    have hraw : ∀ kind, buildInsertRaw .mysql t (r0 :: rest) kind =
        .error .insertDataNotMatch := by
      intro kind
      simp [buildInsertRaw_mysql, hav, Except.map]
    refine ⟨?_, ?_, ?_, ?_, ?_⟩
    · simp [BuildInsert, buildInsert, hraw .common, except_bind_err]
    · simp [BuildInsertIgnore, buildInsert, hraw .ignoreIns, except_bind_err]
    · simp [BuildReplaceInsert, buildInsert, hraw .replaceIns, except_bind_err]
    · simp [BuildInsertOnDuplicate, hraw .common, except_bind_err]
    · cases hue : update.isEmpty with
      | true => simp [BuildUpsert, hue, buildInsert, hraw .ignoreIns, except_bind_err]
      | false => simp [BuildUpsert, hue, hraw .common, except_bind_err]

/-- Witness for C10 at concrete inputs: the second row's extra field `b`
is silently omitted; a second row missing `a` fails. -/
theorem C10_insert_fields_witness :
    BuildInsert .mysql (lit "t") [specOf [(lit "a", .vInt 1)],
      specOf [(lit "a", .vInt 2), (lit "b", .vInt 3)]] =
      .ok (lit "INSERT INTO t (a) VALUES (?),(?)", [.vInt 1, .vInt 2]) ∧
    BuildInsert .mysql (lit "t") [specOf [(lit "a", .vInt 1)], specOf [(lit "b", .vInt 3)]] =
      .error .insertDataNotMatch := by
  constructor
  · have h := ((C10_insert_fields_from_first_row (lit "t") (specOf [(lit "a", .vInt 1)])
      [specOf [(lit "a", .vInt 2), (lit "b", .vInt 3)]] .nil []).1
      (by decide) (by decide)).2.2.2.2.2
    exact h.trans (by decide)
  · have h := (C10_insert_fields_from_first_row (lit "t") (specOf [(lit "a", .vInt 1)])
      [specOf [(lit "b", .vInt 3)]] .nil []).2 (specOf [(lit "b", .vInt 3)]) (by decide)
      ⟨lit "a", by decide, by decide⟩
    exact h.1

/-- C4 amended: with a non-empty update-set, `BuildUpsert` on PostgreSQL
or SQLite with an empty / all-blank conflict-column list returns
`errEmptyConflictColumns` (for any row list — the check precedes row
validation), while on MySQL the conflict-column argument is ignored
entirely and, provided the rows insert cleanly and the update-set
resolves, the build succeeds with an
`INSERT ... ON DUPLICATE KEY UPDATE` statement. -/
theorem C4_amended :
    (∀ (t : Chars) (rows : List Spec) (cols : List Chars) (update : Spec),
      update.isEmpty = false →
      cols.all (fun c => (trimWS c).isEmpty) = true →
      BuildUpsert .postgres t rows cols update = .error .emptyConflictColumns ∧
      BuildUpsert .sqlite t rows cols update = .error .emptyConflictColumns) ∧
    (∀ (t : Chars) (rows : List Spec) (cols cols2 : List Chars) (update : Spec),
      BuildUpsert .mysql t rows cols update = BuildUpsert .mysql t rows cols2 update) ∧
    (∀ (t : Chars) (rows : List Spec) (cols : List Chars) (update : Spec)
      (iq : Chars) (iv : List Value) (sets : Chars) (uv : List Value),
      update.isEmpty = false →
      buildInsertRaw .mysql t rows .common = .ok (iq, iv) →
      resolveUpdate update = .ok (sets, uv) →
      BuildUpsert .mysql t rows cols update =
        .ok (iq ++ lit " ON DUPLICATE KEY UPDATE " ++ sets, iv ++ uv)) := by
  refine ⟨?_, ?_, ?_⟩
  · intro t rows cols update hue hblank
    cases cols with
    | nil =>
      have hbt : buildConflictTarget [] = .ok [] := rfl
      constructor <;> simp [BuildUpsert, hue, hbt, except_bind_ok] <;> rfl
    | cons c cs =>
      have hc : trimWS c = [] := by
        simp [List.all_cons] at hblank; exact hblank.1
      have hbt : buildConflictTarget (c :: cs) = .error .emptyConflictColumns := by
        simp [buildConflictTarget, List.mapM, List.mapM.loop, hc, Except.map]
        rfl
      constructor <;> simp [BuildUpsert, hue, hbt, except_bind_err]
  · intro t rows cols cols2 update
    cases h : update.isEmpty <;> simp [BuildUpsert, h]
  · intro t rows cols update iq iv sets uv hue hraw hsu
    simp [BuildUpsert, hue, hraw, hsu, except_bind_ok, finalizeQuery, rebindQuery]

/-- Witness for C4 amended at concrete inputs. -/
theorem C4_amended_witness :
    BuildUpsert .postgres (lit "t") [specOf [(lit "a", .vInt 1)]] [lit " "]
      (specOf [(lit "x", .vInt 2)]) = .error .emptyConflictColumns ∧
    BuildUpsert .mysql (lit "t") [specOf [(lit "a", .vInt 1)]] [lit "zz"]
      (specOf [(lit "x", .vInt 2)]) =
      BuildUpsert .mysql (lit "t") [specOf [(lit "a", .vInt 1)]] []
        (specOf [(lit "x", .vInt 2)]) ∧
    BuildUpsert .mysql (lit "t") [specOf [(lit "a", .vInt 1)]] [lit "zz"]
      (specOf [(lit "x", .vInt 2)]) =
      .ok (lit "INSERT INTO t (a) VALUES (?) ON DUPLICATE KEY UPDATE x=?",
        [.vInt 1, .vInt 2]) := by
  refine ⟨(C4_amended.1 (lit "t") [specOf [(lit "a", .vInt 1)]] [lit " "]
      (specOf [(lit "x", .vInt 2)]) (by decide) (by decide)).1,
    C4_amended.2.1 (lit "t") [specOf [(lit "a", .vInt 1)]] [lit "zz"] []
      (specOf [(lit "x", .vInt 2)]), ?_⟩
  have h := C4_amended.2.2 (lit "t") [specOf [(lit "a", .vInt 1)]] [lit "zz"]
    (specOf [(lit "x", .vInt 2)]) (lit "INSERT INTO t (a) VALUES (?)") [.vInt 1]
    (lit "x=?") [.vInt 2] (by decide) (by decide) (by decide)
  exact h.trans (by decide)

/-! ### C5: limit pair asymmetry. -/

/-- Parsing a two-element natural pair. -/
theorem parseLimit_pair (a bb : Nat) :
    parseLimit (.vIntList [(a : Int), (bb : Int)]) = .ok [a, bb] := by
  have ha : ¬((a : Int) < 0) := by omega
  have hb : ¬((bb : Int) < 0) := by omega
  simp [parseLimit, List.mapM, List.mapM.loop, ha, hb, except_bind_ok]

/-- C5: a `_limit` value holding a two-element pair with a non-zero first
element is accepted by SELECT — `parseSelectLimit` reads it as
`(offset, count)` and `BuildSelect` succeeds — while `BuildUpdate` and
`BuildDelete` reject any where-spec carrying it with
`errLimitOffsetNotSupported`; a pair with zero first element passes
`getLimit` with the second element as the row count. -/
theorem C5_limit_pair_asymmetry :
    (∀ (b : Dialect) (t : Chars) (w : Spec) (upd : Spec) (a bb : Nat),
      a ≠ 0 →
      lookup (lit "_limit") w = some (.vIntList [(a : Int), (bb : Int)]) →
      BuildUpdate b t w upd = .error .limitOffsetNotSupported ∧
      BuildDelete b t w = .error .limitOffsetNotSupported) ∧
    (∀ (a bb : Nat), parseSelectLimit (.vIntList [(a : Int), (bb : Int)]) = .ok ⟨a, bb⟩) ∧
    (∀ (b : Dialect) (t : Chars) (flds : List Chars) (a bb : Nat),
      (BuildSelect b t (specOf [(lit "_limit", .vIntList [(a : Int), (bb : Int)])]) flds).isOk
        = true) ∧
    (∀ (w : Spec) (bb : Nat),
      lookup (lit "_limit") w = some (.vIntList [0, (bb : Int)]) →
      getLimit w = .ok bb) := by
  have hpsl : ∀ (a bb : Nat), parseSelectLimit (.vIntList [(a : Int), (bb : Int)]) =
      .ok ⟨a, bb⟩ := by
    intro a bb
    simp [parseSelectLimit, parseLimit_pair]
  refine ⟨?_, hpsl, ?_, ?_⟩
  · intro b t w upd a bb ha hl
    have hg : getLimit w = .error .limitOffsetNotSupported := by
      simp [getLimit, hl, parseLimit_pair, ha]
    constructor
    · simp [BuildUpdate, hg, except_bind_err]
    · simp [BuildDelete, hg, except_bind_err]
  · intro b t flds a bb
    have hgwc : getWhereConditions
        (specOf [(lit "_limit", .vIntList [(a : Int), (bb : Int)])]) = .ok [] := rfl
    have h1 : lookup (lit "_orderby")
        (specOf [(lit "_limit", .vIntList [(a : Int), (bb : Int)])]) = none := rfl
    have h2 : lookup (lit "_groupby")
        (specOf [(lit "_limit", .vIntList [(a : Int), (bb : Int)])]) = none := rfl
    have h3 : lookup (lit "_limit")
        (specOf [(lit "_limit", .vIntList [(a : Int), (bb : Int)])]) =
        some (.vIntList [(a : Int), (bb : Int)]) := rfl
    have h4 : lookup (lit "_lockMode")
        (specOf [(lit "_limit", .vIntList [(a : Int), (bb : Int)])]) = none := rfl
    simp [BuildSelect, h1, h2, h3, h4, hpsl a bb, hgwc, except_bind_ok, Except.map,
      Except.isOk, Except.toBool, pure, Except.pure]
  · intro w bb hl
    have : parseLimit (.vIntList [0, (bb : Int)]) = .ok [0, bb] := by
      have := parseLimit_pair 0 bb
      simpa using this
    simp [getLimit, hl, this]

/-- Witness for C5 at concrete inputs. -/
theorem C5_limit_pair_witness :
    BuildUpdate .mysql (lit "t") (specOf [(lit "_limit", .vIntList [10, 20])]) .nil =
      .error .limitOffsetNotSupported ∧
    BuildDelete .mysql (lit "t") (specOf [(lit "_limit", .vIntList [10, 20])]) =
      .error .limitOffsetNotSupported ∧
    parseSelectLimit (.vIntList [10, 20]) = .ok ⟨10, 20⟩ ∧
    (BuildSelect .mysql (lit "t") (specOf [(lit "_limit", .vIntList [10, 20])]) []).isOk
      = true ∧
    getLimit (specOf [(lit "_limit", .vIntList [0, 7])]) = .ok 7 := by
  have h1 := C5_limit_pair_asymmetry.1 .mysql (lit "t")
    (specOf [(lit "_limit", .vIntList [10, 20])]) .nil 10 20 (by decide) (by decide)
  have h2 := C5_limit_pair_asymmetry.2.1 10 20
  have h3 := C5_limit_pair_asymmetry.2.2.1 .mysql (lit "t") [] 10 20
  have h4 := C5_limit_pair_asymmetry.2.2.2 (specOf [(lit "_limit", .vIntList [0, 7])]) 7
    (by decide)
  exact ⟨by simpa using h1.1, by simpa using h1.2, by simpa using h2,
    by simpa using h3, by simpa using h4⟩

/-! ### C6: build determinism under map order. -/

/-- `Spec` lookup through the standard-list view. -/
theorem lookup_specOf (k : Chars) (l : List (Chars × Value)) :
    lookup k (specOf l) = alookup k l := by
  induction l with
  | nil => rfl
  | cons p tl ih => obtain ⟨k', v⟩ := p; simp [specOf, lookup, alookup, ih]

/-- `Spec` keys through the standard-list view. -/
theorem keysOf_specOf (l : List (Chars × Value)) :
    keysOf (specOf l) = l.map Prod.fst := by
  induction l with
  | nil => rfl
  | cons p tl ih => obtain ⟨k', v⟩ := p; simp [specOf, keysOf, ih]

/-- Association lookup is stable under permutation when keys are unique
(the defining property of a Go map's entry set). -/
theorem alookup_perm {α : Type} {l₁ l₂ : List (Chars × α)}
    (hp : l₁.Perm l₂) (hd : (l₁.map Prod.fst).Nodup) (k : Chars) :
    alookup k l₁ = alookup k l₂ := by
  induction hp with
  | nil => rfl
  | cons x _ ih =>
    obtain ⟨k', v⟩ := x
    simp only [List.map_cons, List.nodup_cons] at hd
    simp [alookup, ih hd.2]
  | swap x y l =>
    obtain ⟨k1, v1⟩ := x
    obtain ⟨k2, v2⟩ := y
    simp only [List.map_cons, List.nodup_cons, List.mem_cons] at hd
    have hne : k2 ≠ k1 := fun h => hd.1 (Or.inl h)
    by_cases h2 : k2 = k
    · by_cases h1 : k1 = k
      · exact absurd (h2.trans h1.symm) hne
      · simp [alookup, h1, h2]
    · simp [alookup, h2]
  | trans h12 _ ih1 ih2 =>
    rw [ih1 hd, ih2 (((h12.map Prod.fst).nodup_iff).mp hd)]

/-- Key sorting is canonical: permuted key slices sort identically. -/
theorem sortKeys_perm_eq {ks₁ ks₂ : List Chars} (hp : ks₁.Perm ks₂) :
    sortKeys ks₁ = sortKeys ks₂ := by
  have hs1 : List.Sorted (· ≤ ·) (sortKeys ks₁) := List.sorted_insertionSort _ ks₁
  have hs2 : List.Sorted (· ≤ ·) (sortKeys ks₂) := List.sorted_insertionSort _ ks₂
  have hpp : (sortKeys ks₁).Perm (sortKeys ks₂) :=
    (List.perm_insertionSort _ ks₁).trans (hp.trans (List.perm_insertionSort _ ks₂).symm)
  exact List.eq_of_perm_of_sorted hpp hs1 hs2

/-- The weight measure through the standard-list view. -/
theorem weight_specOf (l : List (Chars × Value)) :
    (specOf l).weight = (l.map (fun p => p.2.weight + 1)).sum + 1 := by
  induction l with
  | nil => rfl
  | cons p tl ih =>
    obtain ⟨k', v⟩ := p
    simp [specOf, Spec.weight, ih]
    omega

/-- The walk step only consults the specification through `lookup`. -/
theorem gwcStep_congr {w₁ w₂ : Spec} (rec : Spec → Except Err (List Comparable))
    (hlk : ∀ k, lookup k w₁ = lookup k w₂) :
    gwcStep rec w₁ = gwcStep rec w₂ := by
  funext acc k
  simp only [gwcStep, hlk]

/-- `getWhereConditions` is stable under permutation of the specification
entries (unique keys assumed, as for a Go map). -/
theorem getWhereConditions_perm {l₁ l₂ : List (Chars × Value)}
    (hd : (l₁.map Prod.fst).Nodup) (hp : l₁.Perm l₂) :
    getWhereConditions (specOf l₁) = getWhereConditions (specOf l₂) := by
  have hlk : ∀ k, lookup k (specOf l₁) = lookup k (specOf l₂) := by
    intro k
    rw [lookup_specOf, lookup_specOf, alookup_perm hp hd k]
  have hw : (specOf l₁).weight = (specOf l₂).weight := by
    rw [weight_specOf, weight_specOf, ((hp.map (fun p => p.2.weight + 1)).sum_eq)]
  have hks : sortKeys (keysOf (specOf l₁)) = sortKeys (keysOf (specOf l₂)) := by
    rw [keysOf_specOf, keysOf_specOf, sortKeys_perm_eq (hp.map Prod.fst)]
  have hemp : (specOf l₁).isEmpty = (specOf l₂).isEmpty := by
    cases l₁ with
    | nil => rw [hp.nil_eq.symm]
    | cons p tl =>
      cases l₂ with
      | nil => exact absurd hp.symm.nil_eq (by simp)
      | cons q tl2 => rfl
  unfold getWhereConditions
  rw [hw]
  cases hfe : (specOf l₂).weight + 1 with
  | zero => rfl
  | succ fuel =>
    rw [gwcF, gwcF, hemp, hks, gwcStep_congr (gwcF fuel) hlk]

/-- C6: for every pair of entry lists that are permutations of each other
with unique keys (two orderings of one Go map), BuildSelect, BuildUpdate
and BuildDelete return identical results — in particular byte-identical
SQL — because every walk over the map first sorts its keys
lexicographically and otherwise reads the map only through key lookup. -/
theorem C6_deterministic (b : Dialect) (table : Chars) (selectField : List Chars)
    (update : Spec) (l₁ l₂ : List (Chars × Value))
    (hd : (l₁.map Prod.fst).Nodup) (hp : l₁.Perm l₂) :
    BuildSelect b table (specOf l₁) selectField
      = BuildSelect b table (specOf l₂) selectField ∧
    BuildUpdate b table (specOf l₁) update = BuildUpdate b table (specOf l₂) update ∧
    BuildDelete b table (specOf l₁) = BuildDelete b table (specOf l₂) := by
  have hlk : ∀ k, lookup k (specOf l₁) = lookup k (specOf l₂) := fun k => by
    rw [lookup_specOf, lookup_specOf, alookup_perm hp hd k]
  have hgwc := getWhereConditions_perm hd hp
  refine ⟨?_, ?_, ?_⟩
  · unfold BuildSelect
    rw [hlk (lit "_orderby"), hlk (lit "_groupby"), hlk (lit "_having"),
        hlk (lit "_limit"), hlk (lit "_lockMode"), hgwc]
  · unfold BuildUpdate getLimit
    rw [hlk (lit "_limit"), hgwc]
  · unfold BuildDelete getLimit
    rw [hlk (lit "_limit"), hgwc]

/-- C6 witness: a concrete two-key map in both insertion orders builds
the same SELECT statement. -/
theorem C6_deterministic_witness :
    (([(lit "b", Value.vInt 1), (lit "a", Value.vInt 2)].map Prod.fst).Nodup) ∧
    List.Perm [(lit "b", Value.vInt 1), (lit "a", Value.vInt 2)]
      [(lit "a", Value.vInt 2), (lit "b", Value.vInt 1)] ∧
    BuildSelect .mysql (lit "t") (specOf [(lit "b", Value.vInt 1), (lit "a", Value.vInt 2)]) []
      = BuildSelect .mysql (lit "t")
          (specOf [(lit "a", Value.vInt 2), (lit "b", Value.vInt 1)]) [] :=
  ⟨by decide, List.Perm.swap _ _ _,
    (C6_deterministic .mysql (lit "t") [] (specOf [])
      [(lit "b", Value.vInt 1), (lit "a", Value.vInt 2)]
      [(lit "a", Value.vInt 2), (lit "b", Value.vInt 1)]
      (by decide) (List.Perm.swap _ _ _)).1⟩

/-! ### C1: placeholder parity.  Character-level lemmas. -/

/-- `?`-count distributes over append. -/
theorem countQ_append (a b : Chars) : countQ (a ++ b) = countQ a + countQ b := by
  simp [countQ, List.count_append]

/-- `?`-count over cons. -/
theorem countQ_cons (c : Char) (s : Chars) :
    countQ (c :: s) = countQ s + (if c = qm then 1 else 0) := by
  simp [countQ, List.count_cons]

/-- Clean text has no `?`. -/
theorem cleanChars_noQm {s : Chars} (h : cleanChars s = true) :
    s.all (fun c => c != qm) = true := by
  simp only [cleanChars, List.all_eq_true, Bool.and_eq_true] at h
  simp only [List.all_eq_true]
  exact fun c hc => (h c hc).1

/-- Clean text has no `$`. -/
theorem cleanChars_noDol {s : Chars} (h : cleanChars s = true) : noDol s = true := by
  simp only [cleanChars, List.all_eq_true, Bool.and_eq_true] at h
  simp only [noDol, List.all_eq_true]
  exact fun c hc => (h c hc).2

/-- `?`-free text counts zero placeholders. -/
theorem countQ_eq_zero {s : Chars} (h : s.all (fun c => c != qm) = true) :
    countQ s = 0 := by
  simp only [List.all_eq_true, bne_iff_ne, ne_eq] at h
  simp only [countQ, List.count_eq_zero]
  exact fun hmem => h qm hmem rfl

/-- `?`-free text trivially avoids `?`-digit adjacency. -/
theorem noQD_of_noQm {s : Chars} (h : s.all (fun c => c != qm) = true) :
    noQD s = true := by
  induction s with
  | nil => rfl
  | cons c cs ih =>
    simp only [List.all_cons, Bool.and_eq_true, bne_iff_ne, ne_eq] at h
    simp [noQD, ih h.2, h.1]

/-- Head of an append. -/
theorem headND_append (a b : Chars) :
    headND (a ++ b) = (if a.isEmpty then headND b else headND a) := by
  cases a <;> simp [headND]

/-- `?`-digit freedom splits over append when the right part does not
start with a digit. -/
theorem noQD_append_head {a b : Chars} (hb : headND b = true) :
    noQD (a ++ b) = (noQD a && noQD b) := by
  induction a with
  | nil => simp [noQD]
  | cons c tl ih =>
    cases tl with
    | nil =>
      have h1 : noQD [c] = true := by simp [noQD, headND]
      have h2 : noQD (c :: b) = noQD b := by
        show ((!(c == qm && !headND b)) && noQD b) = noQD b
        rw [hb]
        simp
      show noQD (c :: b) = (noQD [c] && noQD b)
      rw [h2, h1, Bool.true_and]
    | cons d tl2 =>
      simp only [List.cons_append]
      calc noQD (c :: d :: (tl2 ++ b))
          = ((!(c == qm && !headND (d :: tl2))) && noQD (d :: (tl2 ++ b))) := rfl
        _ = ((!(c == qm && !headND (d :: tl2))) && (noQD (d :: tl2) && noQD b)) := by
            rw [show noQD (d :: (tl2 ++ b)) = noQD ((d :: tl2) ++ b) from rfl, ih]
        _ = (noQD (c :: d :: tl2) && noQD b) := by rw [← Bool.and_assoc]; rfl

/-- `?`-digit freedom reduces to the right part when the left part is
`?`-free. -/
theorem noQD_append_noQm {a b : Chars} (ha : a.all (fun c => c != qm) = true) :
    noQD (a ++ b) = noQD b := by
  induction a with
  | nil => simp
  | cons c tl ih =>
    simp only [List.all_cons, Bool.and_eq_true, bne_iff_ne, ne_eq] at ha
    simp [noQD, ih ha.2, ha.1]

/-- `?`-digit freedom over an append whose left part does not end in `?`. -/
theorem noQD_append_last {a b : Chars} (ha : noQD a = true) (hb : noQD b = true)
    (h : a.getLast? ≠ some qm) : noQD (a ++ b) = true := by
  induction a with
  | nil => simpa
  | cons c tl ih =>
    cases tl with
    | nil =>
      have hc : ¬ c = qm := by simpa using h
      simpa [noQD, hc] using hb
    | cons d tl2 =>
      have ha' : (!(c == qm && !headND (d :: tl2))) = true ∧ noQD (d :: tl2) = true := by
        rw [show noQD (c :: d :: tl2)
            = ((!(c == qm && !headND (d :: tl2))) && noQD (d :: tl2)) from rfl,
          Bool.and_eq_true] at ha
        exact ha
      have h2 : (d :: tl2).getLast? ≠ some qm := by
        simpa [List.getLast?_cons_cons] using h
      have ihr : noQD ((d :: tl2) ++ b) = true := ih ha'.2 h2
      show ((!(c == qm && !headND (d :: (tl2 ++ b)))) && noQD (d :: (tl2 ++ b))) = true
      rw [Bool.and_eq_true]
      exact ⟨ha'.1, ihr⟩

/-! ### C1: decimal rendering and the PostgreSQL rewrite. -/

/-- Digit characters are digits. -/
theorem digitCh_digit {d : Nat} (h : d < 10) : isDigitCh (digitCh d) = true := by
  interval_cases d <;> decide

/-- A digit is not `?`. -/
theorem digit_ne_qm {c : Char} (h : isDigitCh c = true) : (c == qm) = false := by
  cases hc : c == qm
  · rfl
  · simp only [beq_iff_eq] at hc
    subst hc
    exact absurd h (by decide)

/-- `itoaF` with sufficient fuel renders only digits and is non-empty. -/
theorem itoaF_digits : ∀ (f n : Nat), n < f →
    (itoaF f n).all isDigitCh = true ∧ itoaF f n ≠ []
  | 0, _, h => absurd h (by omega)
  | f + 1, n, _ => by
    rw [itoaF]
    by_cases h10 : n < 10
    · simpa [h10] using digitCh_digit h10
    · have hdiv : n / 10 < f := by
        have h1 : n / 10 < n := Nat.div_lt_self (by omega) (by omega)
        omega
      have ih := itoaF_digits f (n / 10) hdiv
      simp [h10, List.all_append, ih.1, digitCh_digit (Nat.mod_lt n (by omega))]

/-- `itoa` renders only digits and is non-empty. -/
theorem itoa_digits (n : Nat) : (itoa n).all isDigitCh = true ∧ itoa n ≠ [] :=
  itoaF_digits (n + 1) n (by omega)

/-- All-digit text is `?`-free. -/
theorem digits_noQm {s : Chars} (h : s.all isDigitCh = true) :
    s.all (fun c => c != qm) = true := by
  simp only [List.all_eq_true] at *
  intro c hc
  simpa using digit_ne_qm (h c hc)

/-- Reading a digit run extends the current token. -/
theorem pgTokensAux_digits {ds : Chars} (hd : ds.all isDigitCh = true) (rest : Chars) :
    ∀ t, pgTokensAux (ds ++ rest) (some t) = pgTokensAux rest (some (ds.reverse ++ t)) := by
  induction ds with
  | nil => intro t; simp
  | cons c cs ih =>
    intro t
    simp only [List.all_cons, Bool.and_eq_true] at hd
    have e1 : pgTokensAux ((c :: cs) ++ rest) (some t)
        = pgTokensAux (cs ++ rest) (some (c :: t)) := by
      show pgTokensAux (c :: (cs ++ rest)) (some t) = _
      rw [pgTokensAux]
      simp [hd.1]
    rw [e1, ih hd.2 (c :: t)]
    simp

/-- A non-digit head flushes the current token. -/
theorem pgTokensAux_flush {s : Chars} (h : headND s = true) (t : Chars) :
    pgTokensAux s (some t) = t.reverse :: pgTokensAux s none := by
  cases s with
  | nil => rfl
  | cons c cs =>
    have hc : isDigitCh c = false := by simpa [headND] using h
    simp [pgTokensAux, hc]

/-- The rewrite does not create a digit head. -/
theorem headND_rebindAux {q : Chars} (s : Nat) (h : headND q = true) :
    headND (rebindAux q s) = true := by
  cases q with
  | nil => rfl
  | cons c cs =>
    rw [rebindAux]
    by_cases hc : c = qm
    · rw [if_pos hc]
      exact (by decide : (!isDigitCh '$') = true)
    · rw [if_neg hc]
      exact h

/-- The rewrite leaves no `?` behind. -/
theorem countQ_rebindAux (q : Chars) : ∀ (s : Nat), countQ (rebindAux q s) = 0 := by
  induction q with
  | nil => intro s; rfl
  | cons c cs ih =>
    intro s
    rw [rebindAux]
    by_cases hc : c = qm
    · rw [if_pos hc, countQ_cons, countQ_append, ih,
        countQ_eq_zero (digits_noQm (itoa_digits s).1)]
      decide
    · rw [if_neg hc, countQ_cons, ih, if_neg hc]

/-- The PostgreSQL rewrite of a `$`-free, `?`-digit-free query yields the
tokens `$s, $(s+1), …` in order, one per original `?`. -/
theorem pg_rebind (q : Chars) : ∀ (s : Nat), noDol q = true → noQD q = true →
    pgTokensAux (rebindAux q s) none = (List.range' s (countQ q)).map itoa := by
  induction q with
  | nil => intro s _ _; simp [rebindAux, pgTokensAux, countQ]
  | cons c cs ih =>
    intro s h2 h3
    have h2' : (c != '$') = true ∧ noDol cs = true := by
      rw [show noDol (c :: cs) = ((c != '$') && noDol cs) from rfl, Bool.and_eq_true] at h2
      exact h2
    have h3' : (!(c == qm && !headND cs)) = true ∧ noQD cs = true := by
      rw [show noQD (c :: cs) = ((!(c == qm && !headND cs)) && noQD cs) from rfl,
        Bool.and_eq_true] at h3
      exact h3
    rw [rebindAux]
    by_cases hc : c = qm
    · have hhead : headND cs = true := by
        rw [hc] at h3'
        simpa using h3'.1
      have hfl : headND (rebindAux cs (s + 1)) = true := headND_rebindAux (s + 1) hhead
      rw [if_pos hc]
      have e1 : pgTokensAux ('$' :: (itoa s ++ rebindAux cs (s + 1))) none
          = pgTokensAux (itoa s ++ rebindAux cs (s + 1)) (some []) := by
        simp [pgTokensAux]
      rw [e1, pgTokensAux_digits (itoa_digits s).1 _ [], pgTokensAux_flush hfl,
        ih (s + 1) h2'.2 h3'.2, countQ_cons, if_pos hc]
      simp [List.range'_succ]
    · have e2 : pgTokensAux (c :: rebindAux cs s) none
          = pgTokensAux (rebindAux cs s) none := by
        have hnd : ¬ c = '$' := by simpa using h2'.1
        simp [pgTokensAux, hnd]
      rw [if_neg hc, e2, ih s h2'.2 h3'.2, countQ_cons, if_neg hc]
      simp

/-- Pre-rewrite parity yields the claimed placeholder discipline on every
dialect after `finalizeQuery`. -/
theorem finalize_parity {q : Chars} {vals : List Value} (b : Dialect)
    (h1 : countQ q = vals.length) (h2 : noDol q = true) (h3 : noQD q = true) :
    placeholdersMatch b (rebindQuery b q) vals := by
  cases b with
  | mysql => simpa [placeholdersMatch, rebindQuery] using h1
  | sqlite => simpa [placeholdersMatch, rebindQuery] using h1
  | postgres =>
    refine ⟨?_, ?_⟩
    · simpa [rebindQuery] using countQ_rebindAux q 1
    · simpa [rebindQuery, pgTokens, h1] using pg_rebind q 1 h2 h3

/-! ### C1: `mapM` bridge and elementary piece lemmas. -/

/-- The accumulator loop of `List.mapM` over `Except` in terms of the
structural `mapE`. -/
theorem mapM_loop_eq {α β : Type} (f : α → Except Err β) :
    ∀ (l : List α) (acc : List β),
      List.mapM.loop f l acc = (mapE f l).map (fun bs => acc.reverse ++ bs)
  | [], acc => by simp [List.mapM.loop, mapE, Except.map, pure, Except.pure]
  | a :: l, acc => by
    simp only [List.mapM.loop, mapE]
    cases hfa : f a with
    | error e => simp [except_bind_err, Except.map]
    | ok b =>
      rw [except_bind_ok, mapM_loop_eq f l (b :: acc)]
      cases mapE f l <;> simp [Except.map]

/-- `List.mapM` over `Except` is the structural `mapE`. -/
theorem mapM_eq_mapE {α β : Type} (f : α → Except Err β) (l : List α) :
    l.mapM f = mapE f l := by
  rw [show l.mapM f = List.mapM.loop f l [] from rfl, mapM_loop_eq]
  cases mapE f l <;> simp [Except.map]

/-- Every element of a successful `mapE` image comes from an element of
the domain. -/
theorem mapE_ok_mem {α β : Type} {f : α → Except Err β} :
    ∀ {l : List α} {res : List β}, mapE f l = .ok res →
      ∀ b ∈ res, ∃ a ∈ l, f a = .ok b := by
  intro l
  induction l with
  | nil => intro res h b hb; cases h; simp at hb
  | cons a tl ih =>
    intro res h b hb
    simp only [mapE] at h
    cases hfa : f a with
    | error e => rw [hfa] at h; cases h
    | ok b0 =>
      rw [hfa] at h
      cases hml : mapE f tl with
      | error e => rw [hml] at h; cases h
      | ok bs =>
        rw [hml] at h
        simp only [Except.map] at h
        cases h
        rcases List.mem_cons.mp hb with hb0 | hbtl
        · exact ⟨a, by simp, by rw [hfa, hb0]⟩
        · obtain ⟨a2, ha2, hfa2⟩ := ih hml b hbtl
          exact ⟨a2, by simp [ha2], hfa2⟩

/-- `noDol` splits over append. -/
theorem noDol_append (a b : Chars) : noDol (a ++ b) = (noDol a && noDol b) := by
  simp [noDol, List.all_append]

/-- `cleanChars` splits over append. -/
theorem cleanChars_append (a b : Chars) :
    cleanChars (a ++ b) = (cleanChars a && cleanChars b) := by
  simp [cleanChars, List.all_append]

/-- The three parity facts of clean text. -/
theorem cleanChars_ok {s : Chars} (h : cleanChars s = true) :
    countQ s = 0 ∧ noDol s = true ∧ noQD s = true :=
  ⟨countQ_eq_zero (cleanChars_noQm h), cleanChars_noDol h,
    noQD_of_noQm (cleanChars_noQm h)⟩

/-- Cleanliness restricts to sublists. -/
theorem cleanChars_sublist {a b : Chars} (hs : a.Sublist b) (h : cleanChars b = true) :
    cleanChars a = true := by
  simp only [cleanChars, List.all_eq_true] at *
  exact fun c hc => h c (hs.subset hc)

/-- `?`-digit freedom restricts to prefixes. -/
theorem noQD_prefix {a b : Chars} (h : noQD (a ++ b) = true) : noQD a = true := by
  induction a with
  | nil => rfl
  | cons c tl ih =>
    have h' : (!(c == qm && !headND (tl ++ b))) = true ∧ noQD (tl ++ b) = true := by
      rw [show noQD ((c :: tl) ++ b)
          = ((!(c == qm && !headND (tl ++ b))) && noQD (tl ++ b)) from rfl,
        Bool.and_eq_true] at h
      exact h
    show ((!(c == qm && !headND tl)) && noQD tl) = true
    rw [Bool.and_eq_true]
    refine ⟨?_, ih h'.2⟩
    cases tl with
    | nil => simp [headND]
    | cons d tl2 => exact h'.1

/-- Right-trimming decomposes the string, the removed part satisfying
the predicate. -/
theorem trimTrailing_decomp (p : Char → Bool) (s : Chars) :
    ∃ x, s = trimTrailing p s ++ x ∧ x.all p = true := by
  refine ⟨(s.reverse.takeWhile p).reverse, ?_, ?_⟩
  · show s = (s.reverse.dropWhile p).reverse ++ (s.reverse.takeWhile p).reverse
    rw [← List.reverse_append, List.takeWhile_append_dropWhile, List.reverse_reverse]
  · rw [List.all_reverse]
    rw [List.all_eq_true]
    exact fun c hc => List.mem_takeWhile_imp hc

/-- The parity facts survive right-trimming of `?`-free characters. -/
theorem trimTrailing_ok (p : Char → Bool) (s : Chars)
    (hp : ∀ c, p c = true → ¬ c = qm)
    (h1 : noDol s = true) (h2 : noQD s = true) :
    countQ (trimTrailing p s) = countQ s ∧ noDol (trimTrailing p s) = true ∧
      noQD (trimTrailing p s) = true := by
  obtain ⟨x, hx, hxp⟩ := trimTrailing_decomp p s
  have hxq : countQ x = 0 := by
    apply countQ_eq_zero
    rw [List.all_eq_true] at hxp ⊢
    intro c hc
    simpa using hp c (hxp c hc)
  refine ⟨?_, ?_, ?_⟩
  · conv_rhs => rw [hx]
    rw [countQ_append, hxq]
    omega
  · rw [hx, noDol_append, Bool.and_eq_true] at h1
    exact h1.1
  · rw [hx] at h2
    exact noQD_prefix h2

/-- `?`-placeholder runs: count. -/
theorem qmarks_ok : ∀ n, countQ (qmarks n) = n ∧ noDol (qmarks n) = true ∧
    noQD (qmarks n) = true
  | 0 => by decide
  | 1 => by decide
  | n + 2 => by
    have ih := qmarks_ok (n + 1)
    rw [qmarks]
    refine ⟨?_, ?_, ?_⟩
    · rw [countQ_cons, countQ_cons, ih.1]
      simp [qm]
    · simp only [noDol, List.all_cons]
      rw [show (qmarks (n + 1)).all (fun c => c != '$') = noDol (qmarks (n + 1)) from rfl,
        ih.2.1]
      decide
    · show ((!(qm == qm && !headND (',' :: qmarks (n + 1))))
          && ((!(',' == qm && !headND (qmarks (n + 1)))) && noQD (qmarks (n + 1)))) = true
      rw [ih.2.2]
      rfl
  termination_by n => n

/-! ### C1: fragment parity of every `Comparable` renderer. -/

/-- Fragment join: separator and fragment parity. -/
theorem joinSep_ok (sep : Chars) (hq : sep.all (fun c => c != qm) = true)
    (hd : noDol sep = true) (hne : sep ≠ []) (hh : headND sep = true) :
    ∀ (frags : List Chars), (∀ fr ∈ frags, noDol fr = true ∧ noQD fr = true) →
      noDol (joinSep sep frags) = true ∧ noQD (joinSep sep frags) = true ∧
      countQ (joinSep sep frags) = (frags.map countQ).sum
  | [], _ => ⟨rfl, rfl, rfl⟩
  | [x], h => by
    have hx := h x (by simp)
    exact ⟨hx.1, hx.2, by simp [joinSep]⟩
  | x :: y :: xs, h => by
    have hx := h x (by simp)
    have ih := joinSep_ok sep hq hd hne hh (y :: xs) (fun fr hf => h fr (by simp [hf]))
    rw [joinSep]
    have hE : sep.isEmpty = false := by
      cases sep with
      | nil => exact absurd rfl hne
      | cons c cs => rfl
    have hsepr : headND (sep ++ joinSep sep (y :: xs)) = true := by
      simp [headND_append, hE, hh]
    refine ⟨?_, ?_, ?_⟩
    · rw [noDol_append, noDol_append, hx.1, hd, ih.1]
      rfl
    · rw [List.append_assoc, noQD_append_head hsepr, hx.2, noQD_append_noQm hq, ih.2.1]
      rfl
    · rw [countQ_append, countQ_append, countQ_eq_zero hq, ih.2.2]
      simp

/-- Sum of a constant-one map is the length. -/
theorem sum_map_ones {α : Type} (g : α → Nat) :
    ∀ l : List α, (∀ x ∈ l, g x = 1) → (l.map g).sum = l.length
  | [], _ => rfl
  | x :: xs, h => by
    rw [List.map_cons, List.sum_cons, h x (by simp),
      sum_map_ones g xs (fun z hz => h z (by simp [hz]))]
    simp [Nat.add_comm]

/-- Sum of an everywhere-zero map is zero. -/
theorem sum_map_zeros {α : Type} (g : α → Nat) :
    ∀ l : List α, (∀ x ∈ l, g x = 0) → (l.map g).sum = 0
  | [], _ => rfl
  | x :: xs, h => by
    rw [List.map_cons, List.sum_cons, h x (by simp),
      sum_map_zeros g xs (fun z hz => h z (by simp [hz]))]

/-- Sum of per-element counts against the flattened element lists. -/
theorem sum_map_flatten {α β : Type} (g : α → Nat) (f : α → List β) :
    ∀ l : List α, (∀ x ∈ l, g x = (f x).length) →
      (l.map g).sum = ((l.map f).flatten).length
  | [], _ => rfl
  | x :: xs, h => by
    rw [List.map_cons, List.sum_cons, List.map_cons, List.flatten_cons,
      List.length_append, h x (by simp),
      sum_map_flatten g f xs (fun z hz => h z (by simp [hz]))]

/-- Count/value correspondence over a paired rendering with optional
values. -/
theorem pcs_sum_opt {β : Type} (g : Chars → Chars × Option β) :
    ∀ ks : List Chars,
      (∀ k ∈ ks, countQ (g k).1 = optCount (g k).2) →
      (((ks.map g).map Prod.fst).map countQ).sum = ((ks.map g).filterMap Prod.snd).length
  | [], _ => rfl
  | k :: ks, h => by
    have ih := pcs_sum_opt g ks (fun z hz => h z (by simp [hz]))
    have hk := h k (by simp)
    simp only [List.map_cons, List.sum_cons, List.filterMap_cons]
    cases hgk : (g k).2 with
    | none => rw [hk, hgk, ih]; simp [optCount]
    | some b => rw [hk, hgk, ih]; simp [optCount, Nat.add_comm]

/-- Count/value correspondence over a paired rendering with value lists. -/
theorem pcs_sum_list {β : Type} (g : Chars → Chars × List β) :
    ∀ ks : List Chars, (∀ k ∈ ks, countQ (g k).1 = (g k).2.length) →
      (((ks.map g).map Prod.fst).map countQ).sum
        = (((ks.map g).map Prod.snd).flatten).length
  | [], _ => rfl
  | k :: ks, h => by
    have ih := pcs_sum_list g ks (fun z hz => h z (by simp [hz]))
    simp only [List.map_cons, List.sum_cons, List.flatten_cons, List.length_append]
    rw [h k (by simp), ih]

/-- A successful association lookup is a map entry. -/
theorem alookup_mem {α : Type} {k : Chars} {v : α} :
    ∀ {l : List (Chars × α)}, alookup k l = some v → (k, v) ∈ l := by
  intro l
  induction l with
  | nil => intro h; cases h
  | cons p tl ih =>
    obtain ⟨k', v'⟩ := p
    intro h
    rw [alookup] at h
    by_cases hk : k' = k
    · rw [if_pos hk] at h
      cases h
      subst hk
      simp
    · rw [if_neg hk] at h
      simp [ih h]

/-- Parity of `field op ?`. -/
theorem assemble_ok {k op : Chars} (hk : cleanChars k = true) (hop : cleanChars op = true) :
    noDol (assembleExpression k op) = true ∧ noQD (assembleExpression k op) = true ∧
    countQ (assembleExpression k op) = 1 := by
  have h1 := cleanChars_ok hk
  have h2 := cleanChars_ok hop
  refine ⟨?_, ?_, ?_⟩
  · rw [assembleExpression, quoteField, noDol_append, noDol_append, h1.2.1, h2.2.1]
    rfl
  · rw [assembleExpression, quoteField, List.append_assoc,
      noQD_append_noQm (cleanChars_noQm hk), noQD_append_noQm (cleanChars_noQm hop)]
    decide
  · rw [assembleExpression, quoteField, countQ_append, countQ_append, h1.1, h2.1]
    decide

/-- Parity of one rendered Eq/Ne/... pair. -/
theorem kvPair_ok {m : List (Chars × Value)} {op : Chars} (hm : kvClean m = true)
    (hop : cleanChars op = true) {k : Chars} (hk : k ∈ m.map Prod.fst) :
    noDol (kvPair m op k).1 = true ∧ noQD (kvPair m op k).1 = true ∧
    countQ (kvPair m op k).1 = optCount (kvPair m op k).2 := by
  have hkc : cleanChars k = true := by
    obtain ⟨p, hp, hp1⟩ := List.mem_map.mp hk
    rw [kvClean, List.all_eq_true] at hm
    have h := hm p hp
    rw [Bool.and_eq_true] at h
    rw [← hp1]
    exact h.1
  cases hlk : alookup k m with
  | none => simpa only [kvPair, hlk, optCount] using assemble_ok hkc hop
  | some v =>
    cases v with
    | vRaw r =>
      have hrc : cleanChars r = true := by
        have hmem := alookup_mem hlk
        rw [kvClean, List.all_eq_true] at hm
        have h := hm _ hmem
        rw [Bool.and_eq_true] at h
        exact h.2
      have h1 := cleanChars_ok hkc
      have h2 := cleanChars_ok hop
      have h3 := cleanChars_ok hrc
      simp only [kvPair, hlk, optCount]
      refine ⟨?_, ?_, ?_⟩
      · rw [noDol_append, noDol_append, h1.2.1, h2.2.1, h3.2.1]
        rfl
      · apply noQD_of_noQm
        rw [List.append_assoc, List.all_append, cleanChars_noQm hkc, List.all_append,
          cleanChars_noQm hop, cleanChars_noQm hrc]
        rfl
      · rw [countQ_append, countQ_append, h1.1, h2.1, h3.1]
    | vStr s => simpa only [kvPair, hlk, optCount] using assemble_ok hkc hop
    | vInt n => simpa only [kvPair, hlk, optCount] using assemble_ok hkc hop
    | vNull bb => simpa only [kvPair, hlk, optCount] using assemble_ok hkc hop
    | vIntList ns => simpa only [kvPair, hlk, optCount] using assemble_ok hkc hop
    | vList vs => simpa only [kvPair, hlk, optCount] using assemble_ok hkc hop
    | vSpecs ms => simpa only [kvPair, hlk, optCount] using assemble_ok hkc hop
    | vMap mm => simpa only [kvPair, hlk, optCount] using assemble_ok hkc hop
    | vCustom conds cvals err => simpa only [kvPair, hlk, optCount] using assemble_ok hkc hop

/-- Membership through key sorting. -/
theorem mem_sortKeys {k : Chars} {ks : List Chars} : k ∈ sortKeys ks ↔ k ∈ ks := by
  simp [sortKeys, List.mem_insertionSort]

/-- Head of a placeholder run. -/
theorem headND_qmarks : ∀ n, headND (qmarks n) = true
  | 0 => rfl
  | 1 => rfl
  | _ + 2 => rfl

/-- Parity of the Eq/Ne/... renderer on clean maps. -/
theorem buildKV_ok {m : List (Chars × Value)} {op : Chars} (hm : kvClean m = true)
    (hop : cleanChars op = true) : fragOk (buildKV m op) = true := by
  rw [show buildKV m op = (if m.isEmpty then ([], [])
      else (((sortKeys (m.map Prod.fst)).map (kvPair m op)).map Prod.fst,
            ((sortKeys (m.map Prod.fst)).map (kvPair m op)).filterMap Prod.snd)) from rfl]
  by_cases he : m.isEmpty
  · rw [if_pos he]; rfl
  · rw [if_neg he]
    have hks : ∀ k ∈ sortKeys (m.map Prod.fst), k ∈ m.map Prod.fst :=
      fun k hk => mem_sortKeys.mp hk
    simp only [fragOk]
    rw [Bool.and_eq_true]
    constructor
    · rw [List.all_eq_true]
      intro s hs
      obtain ⟨pr, hpr, hpr1⟩ := List.mem_map.mp hs
      obtain ⟨k, hkk, hkp⟩ := List.mem_map.mp hpr
      have h := kvPair_ok hm hop (hks k hkk)
      rw [← hpr1, ← hkp, Bool.and_eq_true]
      exact ⟨h.1, h.2.1⟩
    · rw [pcs_sum_opt (kvPair m op) (sortKeys (m.map Prod.fst))
        (fun k hk => (kvPair_ok hm hop (hks k hk)).2.2)]
      simp

/-- Parity of the LIKE renderer on clean-keyed maps. -/
theorem buildLike_ok {m : List (Chars × Value)} {opTxt : Chars}
    (hm : m.all (fun p => cleanChars p.1) = true) (hop : cleanChars opTxt = true) :
    fragOk (buildLike m opTxt) = true := by
  rw [show buildLike m opTxt = (if m.isEmpty then ([], [])
      else ((sortKeys (m.map Prod.fst)).map (fun k => k ++ opTxt ++ [qm]),
            (sortKeys (m.map Prod.fst)).map (fun k => (alookup k m).getD (.vInt 0))))
      from rfl]
  by_cases he : m.isEmpty
  · rw [if_pos he]; rfl
  · rw [if_neg he]
    have hkc : ∀ k ∈ sortKeys (m.map Prod.fst), cleanChars k = true := by
      intro k hk
      obtain ⟨p, hp, hp1⟩ := List.mem_map.mp (mem_sortKeys.mp hk)
      rw [List.all_eq_true] at hm
      rw [← hp1]
      exact hm p hp
    simp only [fragOk]
    rw [Bool.and_eq_true]
    constructor
    · rw [List.all_eq_true]
      intro s hs
      obtain ⟨k, hkk, hkp⟩ := List.mem_map.mp hs
      have ha := assemble_ok (hkc k hkk) hop
      rw [← hkp, Bool.and_eq_true]
      exact ⟨ha.1, ha.2.1⟩
    · have hsum := sum_map_ones (fun k => countQ (k ++ opTxt ++ [qm]))
        (sortKeys (m.map Prod.fst)) (fun k hk => (assemble_ok (hkc k hk) hop).2.2)
      simp only [List.map_map, Function.comp_def]
      rw [hsum]
      simp

/-- Parity of the IN renderer on clean-keyed maps. -/
theorem buildInKV_ok {m : List (Chars × List Value)} {opTxt : Chars}
    (hm : klClean m = true) (hop : cleanChars opTxt = true) :
    fragOk (buildInKV m opTxt) = true := by
  rw [show buildInKV m opTxt = (if m.isEmpty then ([], [])
      else ((sortKeys (m.map Prod.fst)).map (fun k =>
              quoteField k ++ opTxt ++ [' ', '(']
                ++ qmarks ((alookup k m).getD []).length ++ [')']),
            ((sortKeys (m.map Prod.fst)).map (fun k => (alookup k m).getD [])).flatten))
      from rfl]
  by_cases he : m.isEmpty
  · rw [if_pos he]; rfl
  · rw [if_neg he]
    have hkc : ∀ k ∈ sortKeys (m.map Prod.fst), cleanChars k = true := by
      intro k hk
      obtain ⟨p, hp, hp1⟩ := List.mem_map.mp (mem_sortKeys.mp hk)
      rw [klClean, List.all_eq_true] at hm
      rw [← hp1]
      exact hm p hp
    have hfr : ∀ k, cleanChars k = true →
        noDol (quoteField k ++ opTxt ++ [' ', '(']
            ++ qmarks ((alookup k m).getD []).length ++ [')']) = true ∧
        noQD (quoteField k ++ opTxt ++ [' ', '(']
            ++ qmarks ((alookup k m).getD []).length ++ [')']) = true ∧
        countQ (quoteField k ++ opTxt ++ [' ', '(']
            ++ qmarks ((alookup k m).getD []).length ++ [')'])
          = ((alookup k m).getD []).length := by
      intro k hk
      have h1 := cleanChars_ok hk
      have h2 := cleanChars_ok hop
      have hq := qmarks_ok ((alookup k m).getD []).length
      refine ⟨?_, ?_, ?_⟩
      · rw [quoteField, noDol_append, noDol_append, noDol_append, noDol_append,
          h1.2.1, h2.2.1, hq.2.1]
        rfl
      · rw [quoteField, noQD_append_head (by rfl), noQD_append_head (headND_qmarks _),
          List.append_assoc, noQD_append_noQm (cleanChars_noQm hk),
          noQD_append_noQm (cleanChars_noQm hop), hq.2.2]
        rfl
      · rw [quoteField, countQ_append, countQ_append, countQ_append, countQ_append,
          h1.1, h2.1, hq.1]
        have e1 : countQ [' ', '('] = 0 := rfl
        have e2 : countQ [')'] = 0 := rfl
        omega
    simp only [fragOk]
    rw [Bool.and_eq_true]
    constructor
    · rw [List.all_eq_true]
      intro s hs
      obtain ⟨k, hkk, hkp⟩ := List.mem_map.mp hs
      have h := hfr k (hkc k hkk)
      rw [← hkp, Bool.and_eq_true]
      exact ⟨h.1, h.2.1⟩
    · have hsum := sum_map_flatten
        (fun k => countQ (quoteField k ++ opTxt ++ [' ', '(']
            ++ qmarks ((alookup k m).getD []).length ++ [')']))
        (fun k => (alookup k m).getD [])
        (sortKeys (m.map Prod.fst)) (fun k hk => (hfr k (hkc k hk)).2.2)
      simp only [List.map_map, Function.comp_def]
      rw [hsum]
      simp

/-- Parity of one rendered BETWEEN pair (two-valued operator text). -/
theorem bwPair_ok {m : List (Chars × List Value)} {opTxt : Chars}
    (hops : noDol opTxt = true ∧ noQD opTxt = true ∧ countQ opTxt = 2)
    {k : Chars} (hk : cleanChars k = true) :
    noDol (bwPair m opTxt k).1 = true ∧ noQD (bwPair m opTxt k).1 = true ∧
    countQ (bwPair m opTxt k).1 = (bwPair m opTxt k).2.length := by
  have hk' := cleanChars_ok hk
  simp only [bwPair]
  by_cases h2 : ((alookup k m).getD []).length = 2
  · rw [if_pos h2]
    have hq : ('(' :: k).all (fun c => c != qm) = true := cleanChars_noQm hk
    refine ⟨?_, ?_, ?_⟩
    · rw [noDol_append, noDol_append,
        show noDol ('(' :: k) = noDol k from rfl, hk'.2.1, hops.1]
      rfl
    · rw [noQD_append_head (show headND [')'] = true from rfl),
        noQD_append_noQm hq, hops.2.1]
      rfl
    · rw [countQ_append, countQ_append, countQ_cons, hk'.1, hops.2.2, h2]
      decide
  · rw [if_neg h2]
    exact ⟨by decide, by decide, by decide⟩

/-- Parity of the BETWEEN renderer on clean-keyed maps. -/
theorem betweenBuilder_ok {m : List (Chars × List Value)} (nb : Bool)
    (hm : klClean m = true) : fragOk (betweenBuilder m nb) = true := by
  rw [show betweenBuilder m nb = (if m.isEmpty then ([], [])
      else
        (((sortKeys (m.map Prod.fst)).map
            (bwPair m (if nb then lit " NOT BETWEEN ? AND ?"
                       else lit " BETWEEN ? AND ?"))).map Prod.fst,
         (((sortKeys (m.map Prod.fst)).map
            (bwPair m (if nb then lit " NOT BETWEEN ? AND ?"
                       else lit " BETWEEN ? AND ?"))).map Prod.snd).flatten)) from rfl]
  by_cases he : m.isEmpty
  · rw [if_pos he]; rfl
  · rw [if_neg he]
    have hops : noDol (if nb then lit " NOT BETWEEN ? AND ?"
          else lit " BETWEEN ? AND ?") = true ∧
        noQD (if nb then lit " NOT BETWEEN ? AND ?" else lit " BETWEEN ? AND ?") = true ∧
        countQ (if nb then lit " NOT BETWEEN ? AND ?" else lit " BETWEEN ? AND ?") = 2 := by
      cases nb <;> exact ⟨by decide, by decide, by decide⟩
    have hkc : ∀ k ∈ sortKeys (m.map Prod.fst), cleanChars k = true := by
      intro k hk
      obtain ⟨p, hp, hp1⟩ := List.mem_map.mp (mem_sortKeys.mp hk)
      rw [klClean, List.all_eq_true] at hm
      rw [← hp1]
      exact hm p hp
    simp only [fragOk]
    rw [Bool.and_eq_true]
    constructor
    · rw [List.all_eq_true]
      intro s hs
      obtain ⟨pr, hpr, hpr1⟩ := List.mem_map.mp hs
      obtain ⟨k, hkk, hkp⟩ := List.mem_map.mp hpr
      have h := @bwPair_ok m _ hops k (hkc k hkk)
      rw [← hpr1, ← hkp, Bool.and_eq_true]
      exact ⟨h.1, h.2.1⟩
    · rw [pcs_sum_list _ (sortKeys (m.map Prod.fst))
        (fun k hk => (@bwPair_ok m _ hops k (hkc k hk)).2.2)]
      simp

/-- Parity of the NULL renderer on clean-keyed maps. -/
theorem buildNull_ok {m : List (Chars × Value)}
    (hm : m.all (fun p => cleanChars p.1) = true) : fragOk (buildNull m) = true := by
  rw [show buildNull m = (if m.isEmpty then ([], [])
      else ((sortKeys (m.map Prod.fst)).filterMap (fun k =>
        match alookup k m with
        | some (.vNull b) => some (k ++ (if b then lit " IS NULL" else lit " IS NOT NULL"))
        | _ => none), [])) from rfl]
  by_cases he : m.isEmpty
  · rw [if_pos he]; rfl
  · rw [if_neg he]
    simp only [fragOk]
    rw [Bool.and_eq_true]
    have hfr : ∀ fr ∈ (sortKeys (m.map Prod.fst)).filterMap (fun k =>
        match alookup k m with
        | some (.vNull b) => some (k ++ (if b then lit " IS NULL" else lit " IS NOT NULL"))
        | _ => none),
        noDol fr = true ∧ noQD fr = true ∧ countQ fr = 0 := by
      intro fr hfrm
      obtain ⟨k, hkk, hg⟩ := List.mem_filterMap.mp hfrm
      have hkc : cleanChars k = true := by
        obtain ⟨p, hp, hp1⟩ := List.mem_map.mp (mem_sortKeys.mp hkk)
        rw [List.all_eq_true] at hm
        rw [← hp1]
        exact hm p hp
      have hk' := cleanChars_ok hkc
      cases hlk : alookup k m with
      | none => rw [hlk] at hg; cases hg
      | some v =>
        cases v with
        | vNull b =>
          rw [hlk] at hg
          simp only [Option.some.injEq] at hg
          rw [← hg]
          have hsfx : noDol (if b then lit " IS NULL" else lit " IS NOT NULL") = true ∧
              (if b then lit " IS NULL" else lit " IS NOT NULL").all
                (fun c => c != qm) = true ∧
              countQ (if b then lit " IS NULL" else lit " IS NOT NULL") = 0 := by
            cases b <;> exact ⟨by decide, by decide, by decide⟩
          refine ⟨?_, ?_, ?_⟩
          · rw [noDol_append, hk'.2.1, hsfx.1]
            rfl
          · rw [noQD_append_noQm (cleanChars_noQm hkc)]
            exact noQD_of_noQm hsfx.2.1
          · rw [countQ_append, hk'.1, hsfx.2.2]
        | vInt n => rw [hlk] at hg; cases hg
        | vStr s => rw [hlk] at hg; cases hg
        | vRaw r => rw [hlk] at hg; cases hg
        | vIntList ns => rw [hlk] at hg; cases hg
        | vList vs => rw [hlk] at hg; cases hg
        | vSpecs ms => rw [hlk] at hg; cases hg
        | vMap mm => rw [hlk] at hg; cases hg
        | vCustom conds cvals err => rw [hlk] at hg; cases hg
    constructor
    · rw [List.all_eq_true]
      intro fr hf
      have h := hfr fr hf
      rw [Bool.and_eq_true]
      exact ⟨h.1, h.2.1⟩
    · rw [sum_map_zeros countQ _ (fun fr hf => (hfr fr hf).2.2)]
      rfl

/-- Summed fragment counts of kept pieces are the flattened value count. -/
theorem kept_sum : ∀ (ps : List (List Chars × List Value)),
    (∀ p ∈ ps, fragOk p = true) →
    (((ps.map Prod.fst).flatten).map countQ).sum = ((ps.map Prod.snd).flatten).length
  | [], _ => rfl
  | p :: ps, h => by
    have hp := h p (by simp)
    simp only [fragOk, Bool.and_eq_true] at hp
    have hps := kept_sum ps (fun z hz => h z (by simp [hz]))
    simp only [List.map_cons, List.flatten_cons, List.map_append, List.sum_append,
      List.length_append]
    rw [hps]
    have he : (p.1.map countQ).sum = p.2.length := by
      have h2 := hp.2
      simpa using h2
    rw [he]

/-- Parity of the connector on parity-respecting pieces. -/
theorem connect_ok {andOr : Chars} (hA : cleanChars andOr = true)
    {pieces : List (List Chars × List Value)} (hp : ∀ p ∈ pieces, fragOk p = true) :
    countQ (connect andOr pieces).1 = (connect andOr pieces).2.length ∧
    noDol (connect andOr pieces).1 = true ∧ noQD (connect andOr pieces).1 = true ∧
    headND (connect andOr pieces).1 = true := by
  have hkept : ∀ p ∈ pieces.filter (fun p => !p.1.isEmpty), fragOk p = true :=
    fun p hpk => hp p (List.mem_of_mem_filter hpk)
  have hfr : ∀ fr ∈ ((pieces.filter (fun p => !p.1.isEmpty)).map Prod.fst).flatten,
      noDol fr = true ∧ noQD fr = true := by
    intro fr hfm
    obtain ⟨fl, hfl, hfr2⟩ := List.mem_flatten.mp hfm
    obtain ⟨pk, hpk, hpk1⟩ := List.mem_map.mp hfl
    have h := hkept pk hpk
    simp only [fragOk, Bool.and_eq_true] at h
    have h2 := h.1
    rw [List.all_eq_true] at h2
    have h3 := h2 fr (hpk1 ▸ hfr2)
    rw [Bool.and_eq_true] at h3
    exact h3
  have hsepA : (([' '] ++ andOr ++ [' ']).all (fun c => c != qm)) = true := by
    rw [List.all_append, List.all_append, cleanChars_noQm hA]
    rfl
  have hsepD : noDol ([' '] ++ andOr ++ [' ']) = true := by
    rw [noDol_append, noDol_append, cleanChars_noDol hA]
    rfl
  have hsepN : ([' '] ++ andOr ++ [' '] : Chars) ≠ [] := by
    intro hcon
    exact absurd (congrArg List.length hcon) (by simp)
  have hsepH : headND ([' '] ++ andOr ++ [' ']) = true := rfl
  have hjoin := joinSep_ok _ hsepA hsepD hsepN hsepH
    (((pieces.filter (fun p => !p.1.isEmpty)).map Prod.fst).flatten) hfr
  simp only [connect]
  by_cases hf : (((pieces.filter (fun p => !p.1.isEmpty)).map Prod.fst).flatten).isEmpty
  · rw [if_pos hf]
    exact ⟨rfl, rfl, rfl, rfl⟩
  · rw [if_neg hf]
    have hks := kept_sum _ hkept
    refine ⟨?_, ?_, ?_, ?_⟩
    · show countQ (('(' :: joinSep ([' '] ++ andOr ++ [' '])
          (((pieces.filter (fun p => !p.1.isEmpty)).map Prod.fst).flatten)) ++ [')'])
        = ((pieces.filter (fun p => !p.1.isEmpty)).map Prod.snd).flatten.length
      rw [countQ_append, countQ_cons, hjoin.2.2, hks]
      have e0 : (if '(' = qm then 1 else 0) = 0 := by decide
      have e1 : countQ [')'] = 0 := rfl
      rw [e0, e1]
      omega
    · show noDol (('(' :: joinSep ([' '] ++ andOr ++ [' '])
          (((pieces.filter (fun p => !p.1.isEmpty)).map Prod.fst).flatten)) ++ [')']) = true
      rw [noDol_append,
        show noDol ('(' :: joinSep ([' '] ++ andOr ++ [' '])
            (((pieces.filter (fun p => !p.1.isEmpty)).map Prod.fst).flatten))
          = noDol (joinSep ([' '] ++ andOr ++ [' '])
            (((pieces.filter (fun p => !p.1.isEmpty)).map Prod.fst).flatten)) from rfl,
        hjoin.1]
      rfl
    · show noQD (('(' :: joinSep ([' '] ++ andOr ++ [' '])
          (((pieces.filter (fun p => !p.1.isEmpty)).map Prod.fst).flatten)) ++ [')']) = true
      rw [noQD_append_head (show headND [')'] = true from rfl),
        show noQD ('(' :: joinSep ([' '] ++ andOr ++ [' '])
            (((pieces.filter (fun p => !p.1.isEmpty)).map Prod.fst).flatten))
          = noQD (joinSep ([' '] ++ andOr ++ [' '])
            (((pieces.filter (fun p => !p.1.isEmpty)).map Prod.fst).flatten)) from rfl,
        hjoin.2.1]
      rfl
    · rfl

/-- An empty connector fragment list comes with empty values. -/
theorem connect_empty_vals (andOr : Chars) (pieces : List (List Chars × List Value)) :
    (connect andOr pieces).1 = [] → (connect andOr pieces).2 = [] := by
  simp only [connect]
  by_cases hf : (((pieces.filter (fun p => !p.1.isEmpty)).map Prod.fst).flatten).isEmpty
  · rw [if_pos hf]
    intro _
    rfl
  · rw [if_neg hf]
    intro hcon
    exact absurd (congrArg List.length hcon) (by simp)

/-- Every clean condition node renders a parity-respecting piece. -/
theorem Build_ok {c : Comparable} (h : compClean c = true) : fragOk (Build c) = true := by
  cases c with
  | eqC m => exact buildKV_ok h (by decide)
  | neC m => exact buildKV_ok h (by decide)
  | ltC m => exact buildKV_ok h (by decide)
  | lteC m => exact buildKV_ok h (by decide)
  | gtC m => exact buildKV_ok h (by decide)
  | gteC m => exact buildKV_ok h (by decide)
  | likeC m => exact buildLike_ok h (by decide)
  | notLikeC m => exact buildLike_ok h (by decide)
  | inC m => exact buildInKV_ok h (by decide)
  | notInC m => exact buildInKV_ok h (by decide)
  | betweenC m => exact betweenBuilder_ok false h
  | notBetweenC m => exact betweenBuilder_ok true h
  | nullC m => exact buildNull_ok h
  | nilC => rfl
  | customC conds cvals => exact h
  | nestC built =>
    have h' : ∀ p ∈ built, fragOk p = true := by
      rw [show compClean (.nestC built) = built.all fragOk from rfl,
        List.all_eq_true] at h
      exact h
    have hc := @connect_ok (lit "AND") (by decide) built h'
    show ((([(connect (lit "AND") built).1].all (fun s => noDol s && noQD s)))
        && (([(connect (lit "AND") built).1].map countQ).sum
              == (connect (lit "AND") built).2.length)) = true
    rw [Bool.and_eq_true]
    constructor
    · rw [List.all_eq_true]
      intro s hs
      rw [List.mem_singleton.mp hs, Bool.and_eq_true]
      exact ⟨hc.2.1, hc.2.2.1⟩
    · rw [show ([(connect (lit "AND") built).1].map countQ).sum
          = countQ (connect (lit "AND") built).1 + 0 from rfl, hc.1]
      simp
  | orC built =>
    have h' : ∀ p ∈ built, fragOk p = true := by
      rw [show compClean (.orC built) = built.all fragOk from rfl,
        List.all_eq_true] at h
      exact h
    have hc := @connect_ok (lit "OR") (by decide) built h'
    show ((([(connect (lit "OR") built).1].all (fun s => noDol s && noQD s)))
        && (([(connect (lit "OR") built).1].map countQ).sum
              == (connect (lit "OR") built).2.length)) = true
    rw [Bool.and_eq_true]
    constructor
    · rw [List.all_eq_true]
      intro s hs
      rw [List.mem_singleton.mp hs, Bool.and_eq_true]
      exact ⟨hc.2.1, hc.2.2.1⟩
    · rw [show ([(connect (lit "OR") built).1].map countQ).sum
          = countQ (connect (lit "OR") built).1 + 0 from rfl, hc.1]
      simp

/-- Parity of the WHERE connector over clean conditions. -/
theorem whereConnector_ok {andOr : Chars} (hA : cleanChars andOr = true)
    {conds : List Comparable} (h : ∀ c ∈ conds, compClean c = true) :
    countQ (whereConnector andOr conds).1 = (whereConnector andOr conds).2.length ∧
    noDol (whereConnector andOr conds).1 = true ∧
    noQD (whereConnector andOr conds).1 = true ∧
    headND (whereConnector andOr conds).1 = true :=
  connect_ok hA (fun p hp => by
    obtain ⟨cc, hcc, hccp⟩ := List.mem_map.mp hp
    rw [← hccp]
    exact Build_ok (h cc hcc))

/-- Empty WHERE fragments come with empty values. -/
theorem whereConnector_empty_vals (andOr : Chars) (conds : List Comparable)
    (h : (whereConnector andOr conds).1 = []) : (whereConnector andOr conds).2 = [] :=
  connect_empty_vals _ _ h

/-! ### C1: cleanliness propagation through the where compiler. -/

/-- Unfolding of `Spec.clean` on a cons as the named per-entry predicate. -/
theorem spec_clean_cons (k : Chars) (v : Value) (tl : Spec) :
    (Spec.cons k v tl).clean = (entryClean k v && tl.clean) := rfl

/-- Looking up a clean specification yields per-entry cleanliness. -/
theorem lookup_clean : ∀ (w : Spec), Spec.clean w = true → ∀ (k : Chars) (v : Value),
    lookup k w = some v → entryClean k v = true
  | .nil, _, _, _, h => by cases h
  | .cons k' v' tl, hw, k, v, h => by
    rw [spec_clean_cons, Bool.and_eq_true] at hw
    rw [lookup] at h
    by_cases hk : k' = k
    · rw [if_pos hk] at h
      cases h
      rw [← hk]
      exact hw.1
    · rw [if_neg hk] at h
      exact lookup_clean tl hw.2 k v h

/-- Members of a clean specification list are clean. -/
theorem allClean_mem : ∀ (ms : SpecList), ms.allClean = true →
    ∀ m ∈ ms.toList, Spec.clean m = true
  | .nil, _, m, hm => by simp [SpecList.toList] at hm
  | .cons m0 tl, h, m, hm => by
    rw [show (SpecList.cons m0 tl).allClean = (m0.clean && tl.allClean) from rfl,
      Bool.and_eq_true] at h
    rcases List.mem_cons.mp hm with h1 | h1
    · rw [h1]; exact h.1
    · exact allClean_mem tl h.2 m h1

/-- Insertion preserves an entry predicate. -/
theorem insertReplace_all {α : Type} (P : Chars × α → Bool) (k : Chars) (v : α)
    (hkv : P (k, v) = true) :
    ∀ l : List (Chars × α), l.all P = true → (insertReplace k v l).all P = true
  | [], _ => by simpa [insertReplace] using hkv
  | (k', v') :: tl, h => by
    rw [List.all_cons, Bool.and_eq_true] at h
    rw [insertReplace]
    by_cases hk : k' = k
    · rw [if_pos hk, List.all_cons, Bool.and_eq_true]
      exact ⟨hkv, h.2⟩
    · rw [if_neg hk, List.all_cons, Bool.and_eq_true]
      exact ⟨h.1, insertReplace_all P k v hkv tl h.2⟩

/-- The operator-map write preserves map cleanliness. -/
theorem wmsAdd_inv {op field : Chars} {v : Value}
    {wms : List (Chars × List (Chars × Value))}
    (hf : cleanChars field = true) (hv : valueClean v = true)
    (hw : ∀ p ∈ wms, kvClean p.2 = true) :
    ∀ p ∈ wmsAdd op field v wms, kvClean p.2 = true := by
  intro p hp
  rw [wmsAdd] at hp
  have hpair : (fun q : Chars × Value => cleanChars q.1 && valueClean q.2)
      (field, v) = true := by
    rw [Bool.and_eq_true]
    exact ⟨hf, hv⟩
  cases halk : alookup op wms with
  | some m0 =>
    rw [halk] at hp
    obtain ⟨q, hq, hq1⟩ := List.mem_map.mp hp
    by_cases hqo : q.1 = op
    · rw [if_pos hqo] at hq1
      rw [← hq1]
      exact insertReplace_all _ field v hpair q.2 (hw q hq)
    · rw [if_neg hqo] at hq1
      rw [← hq1]
      exact hw q hq
  | none =>
    rw [halk] at hp
    rcases List.mem_append.mp hp with h1 | h1
    · exact hw p h1
    · rw [List.mem_singleton.mp h1]
      show kvClean [(field, v)] = true
      rw [kvClean, List.all_cons, Bool.and_eq_true]
      refine ⟨?_, rfl⟩
      rw [Bool.and_eq_true]
      exact ⟨hf, hv⟩

/-- The trimmed string is a sublist. -/
theorem trimTrailing_sublist (p : Char → Bool) (s : Chars) :
    (trimTrailing p s).Sublist s := by
  have h1 : (s.reverse.dropWhile p).Sublist s.reverse := List.dropWhile_sublist _
  have h2 := h1.reverse
  simpa [trimTrailing] using h2

/-- Trimming on both sides is a sublist. -/
theorem trimBy_sublist (p : Char → Bool) (s : Chars) : (trimBy p s).Sublist s :=
  (trimTrailing_sublist p _).trans (List.dropWhile_sublist _)

/-- The field produced by `splitKey` is made of the key's characters. -/
theorem splitKey_field_sublist {key : Chars} {v : Value} {field op : Chars}
    (h : splitKey key v = .ok (field, op)) : field.Sublist key := by
  rw [splitKey] at h
  by_cases he : (trimSpacesOnly key).isEmpty
  · rw [if_pos he] at h
    cases h
  · rw [if_neg he] at h
    have hsub : (trimSpacesOnly key).Sublist key := trimBy_sublist _ _
    cases hpost : (trimSpacesOnly key).dropWhile (· ≠ ' ') with
    | nil =>
      rw [hpost] at h
      simp only at h
      cases h
      exact hsub
    | cons c rest =>
      rw [hpost] at h
      simp only at h
      cases h
      exact (List.takeWhile_sublist _).trans hsub

/-- The field produced by `splitKey` from a clean key is clean. -/
theorem splitKey_clean {key : Chars} {v : Value} {field op : Chars}
    (hk : cleanChars key = true) (h : splitKey key v = .ok (field, op)) :
    cleanChars field = true :=
  cleanChars_sublist (splitKey_field_sublist h) hk

/-- Key cleanliness survives slice conversion. -/
theorem convertWms_klClean {m : List (Chars × Value)} {op : Chars} (hm : kvClean m = true)
    {res : List (Chars × List Value)}
    (h : convertWhereMapToWhereMapSlice m op = .ok res) : klClean res = true := by
  rw [convertWhereMapToWhereMapSlice, mapM_eq_mapE] at h
  rw [klClean, List.all_eq_true]
  intro p hp
  obtain ⟨q, hq, hfq⟩ := mapE_ok_mem h p hp
  have hqc : cleanChars q.1 = true := by
    rw [kvClean, List.all_eq_true] at hm
    have h2 := hm q hq
    rw [Bool.and_eq_true] at h2
    exact h2.1
  cases hse : sliceElems q.2 with
  | none => rw [hse] at hfq; cases hfq
  | some vs =>
    rw [hse] at hfq
    simp only at hfq
    split at hfq
    · cases hfq
    · split at hfq
      · cases hfq
      · cases hfq
        exact hqc

/-- The operator dispatch yields clean condition nodes from clean maps. -/
theorem op2Cmp_clean {op : Chars} {m : List (Chars × Value)} (hm : kvClean m = true)
    {c : Comparable} (h : op2Cmp op m = .ok c) : compClean c = true := by
  have hkeys : (m.all (fun p => cleanChars p.1)) = true := by
    rw [List.all_eq_true]
    intro p hp
    rw [kvClean, List.all_eq_true] at hm
    have h2 := hm p hp
    rw [Bool.and_eq_true] at h2
    exact h2.1
  rw [op2Cmp] at h
  by_cases e1 : op = lit "="
  · rw [if_pos e1] at h; cases h; exact hm
  · rw [if_neg e1] at h
    by_cases e2 : op = lit "!="
    · rw [if_pos e2] at h; cases h; exact hm
    · rw [if_neg e2] at h
      by_cases e3 : op = lit "<>"
      · rw [if_pos e3] at h; cases h; exact hm
      · rw [if_neg e3] at h
        by_cases e4 : op = lit "in"
        · rw [if_pos e4] at h
          cases hcv : convertWhereMapToWhereMapSlice m op with
          | error e => rw [hcv] at h; cases h
          | ok res =>
            rw [hcv] at h
            simp only [Except.map] at h
            cases h
            exact convertWms_klClean hm hcv
        · rw [if_neg e4] at h
          by_cases e5 : op = lit "not in"
          · rw [if_pos e5] at h
            cases hcv : convertWhereMapToWhereMapSlice m op with
            | error e => rw [hcv] at h; cases h
            | ok res =>
              rw [hcv] at h
              simp only [Except.map] at h
              cases h
              exact convertWms_klClean hm hcv
          · rw [if_neg e5] at h
            by_cases e6 : op = lit "between"
            · rw [if_pos e6] at h
              cases hcv : convertWhereMapToWhereMapSlice m op with
              | error e => rw [hcv] at h; cases h
              | ok res =>
                rw [hcv] at h
                simp only [Except.map] at h
                cases h
                exact convertWms_klClean hm hcv
            · rw [if_neg e6] at h
              by_cases e7 : op = lit "not between"
              · rw [if_pos e7] at h
                cases hcv : convertWhereMapToWhereMapSlice m op with
                | error e => rw [hcv] at h; cases h
                | ok res =>
                  rw [hcv] at h
                  simp only [Except.map] at h
                  cases h
                  exact convertWms_klClean hm hcv
              · rw [if_neg e7] at h
                by_cases e8 : op = lit ">"
                · rw [if_pos e8] at h; cases h; exact hm
                · rw [if_neg e8] at h
                  by_cases e9 : op = lit ">="
                  · rw [if_pos e9] at h; cases h; exact hm
                  · rw [if_neg e9] at h
                    by_cases e10 : op = lit "<"
                    · rw [if_pos e10] at h; cases h; exact hm
                    · rw [if_neg e10] at h
                      by_cases e11 : op = lit "<="
                      · rw [if_pos e11] at h; cases h; exact hm
                      · rw [if_neg e11] at h
                        by_cases e12 : op = lit "like"
                        · rw [if_pos e12] at h; cases h; exact hkeys
                        · rw [if_neg e12] at h
                          by_cases e13 : op = lit "not like"
                          · rw [if_pos e13] at h; cases h; exact hkeys
                          · rw [if_neg e13] at h
                            by_cases e14 : op = lit "null"
                            · rw [if_pos e14] at h; cases h; exact hkeys
                            · rw [if_neg e14] at h; cases h

/-- Draining the operator map yields clean condition nodes. -/
theorem buildWhereCondition_clean {wms : List (Chars × List (Chars × Value))}
    (hw : ∀ p ∈ wms, kvClean p.2 = true) {built : List Comparable}
    (h : buildWhereCondition wms = .ok built) : ∀ c ∈ built, compClean c = true := by
  rw [buildWhereCondition, mapM_eq_mapE] at h
  intro c hc
  obtain ⟨pr, hpr, hfp⟩ := mapE_ok_mem h c hc
  obtain ⟨op, hop, hg⟩ := List.mem_filterMap.mp hpr
  cases halk : alookup op wms with
  | none => rw [halk] at hg; cases hg
  | some m =>
    rw [halk] at hg
    simp only [Option.map_some'] at hg
    cases hg
    exact op2Cmp_clean (hw (op, m) (alookup_mem halk)) hfp

/-- One walk step preserves accumulator cleanliness (given the recursion
is clean on nested specifications). -/
theorem gwcStep_inv {w : Spec} {fuel : Nat}
    (IH : ∀ m, Spec.clean m = true → ∀ conds, gwcF fuel m = .ok conds →
      ∀ c ∈ conds, compClean c = true)
    (hw : Spec.clean w = true)
    {acc acc2 : List Comparable × List (Chars × List (Chars × Value))} {k : Chars}
    (hstep : gwcStep (gwcF fuel) w acc k = .ok acc2)
    (h1 : ∀ c ∈ acc.1, compClean c = true) (h2 : ∀ p ∈ acc.2, kvClean p.2 = true) :
    (∀ c ∈ acc2.1, compClean c = true) ∧ (∀ p ∈ acc2.2, kvClean p.2 = true) := by
  rw [gwcStep] at hstep
  by_cases hig : k ∈ ignoreKeys
  · rw [if_pos hig] at hstep
    cases hstep
    exact ⟨h1, h2⟩
  · rw [if_neg hig] at hstep
    by_cases hor : (lit "_or").isPrefixOf k
    · rw [if_pos hor] at hstep
      cases hlk : lookup k w with
      | none => rw [hlk] at hstep; cases hstep
      | some v =>
        rw [hlk] at hstep
        cases v with
        | vSpecs ms =>
          have hec := lookup_clean w hw k _ hlk
          rw [entryClean, if_neg hig, if_pos hor] at hec
          have hms : ms.allClean = true := hec
          simp only at hstep
          rw [mapM_eq_mapE] at hstep
          cases hmE : mapE (fun m => (gwcF fuel m).map
              (fun cs => Comparable.nestC (cs.map Build))) ms.toList with
          | error e => rw [hmE] at hstep; cases hstep
          | ok nested =>
            rw [hmE] at hstep
            simp only [Except.map] at hstep
            cases hstep
            constructor
            · intro c hc
              rcases List.mem_append.mp hc with hc1 | hc1
              · exact h1 c hc1
              · rw [List.mem_singleton.mp hc1]
                show (nested.map Build).all fragOk = true
                rw [List.all_eq_true]
                intro pc hpc
                obtain ⟨n, hn, hnb⟩ := List.mem_map.mp hpc
                obtain ⟨m, hm, hfm⟩ := mapE_ok_mem hmE n hn
                cases hgw : gwcF fuel m with
                | error e => rw [hgw] at hfm; cases hfm
                | ok cs =>
                  rw [hgw] at hfm
                  simp only [Except.map] at hfm
                  cases hfm
                  have hcs := IH m (allClean_mem ms hms m hm) cs hgw
                  rw [← hnb]
                  apply Build_ok
                  show (cs.map Build).all fragOk = true
                  rw [List.all_eq_true]
                  intro pb hpb
                  obtain ⟨cb, hcb, hcbb⟩ := List.mem_map.mp hpb
                  rw [← hcbb]
                  exact Build_ok (hcs cb hcb)
            · exact h2
        | vInt n => rw [] at hstep; cases hstep
        | vStr s => cases hstep
        | vRaw r => cases hstep
        | vNull b => cases hstep
        | vIntList ns => cases hstep
        | vList vs => cases hstep
        | vMap mm => cases hstep
        | vCustom conds cvals err => cases hstep
    · rw [if_neg hor] at hstep
      by_cases hcu : (lit "_custom_").isPrefixOf k
      · rw [if_pos hcu] at hstep
        cases hlk : lookup k w with
        | none => rw [hlk] at hstep; cases hstep
        | some v =>
          rw [hlk] at hstep
          cases v with
          | vCustom conds cvals err =>
            have hec := lookup_clean w hw k _ hlk
            rw [entryClean, if_neg hig, if_neg hor, if_pos hcu] at hec
            cases err with
            | some e => cases hstep
            | none =>
              simp only at hstep
              cases hstep
              constructor
              · intro c hc
                rcases List.mem_append.mp hc with hc1 | hc1
                · exact h1 c hc1
                · rw [List.mem_singleton.mp hc1]
                  exact hec
              · exact h2
          | vInt n => cases hstep
          | vStr s => cases hstep
          | vRaw r => cases hstep
          | vNull b => cases hstep
          | vIntList ns => cases hstep
          | vList vs => cases hstep
          | vSpecs ms => cases hstep
          | vMap mm => cases hstep
      · rw [if_neg hcu] at hstep
        cases hlk : lookup k w with
        | none => rw [hlk] at hstep; cases hstep
        | some v =>
          rw [hlk] at hstep
          simp only at hstep
          have hec := lookup_clean w hw k _ hlk
          rw [entryClean, if_neg hig, if_neg hor, if_neg hcu, Bool.and_eq_true] at hec
          cases hsk : splitKey k v with
          | error e => rw [hsk] at hstep; cases hstep
          | ok pr =>
            obtain ⟨field, op0⟩ := pr
            rw [hsk] at hstep
            simp only at hstep
            split at hstep
            · cases hstep
            · cases hstep
              refine ⟨h1, ?_⟩
              exact wmsAdd_inv (splitKey_clean hec.1 hsk) hec.2 h2

/-- The walk fold preserves accumulator cleanliness. -/
theorem foldlM_gwc_inv (w : Spec) (fuel : Nat)
    (IH : ∀ m, Spec.clean m = true → ∀ conds, gwcF fuel m = .ok conds →
      ∀ c ∈ conds, compClean c = true)
    (hw : Spec.clean w = true) :
    ∀ (keys : List Chars) (acc : List Comparable × List (Chars × List (Chars × Value))),
      (∀ c ∈ acc.1, compClean c = true) → (∀ p ∈ acc.2, kvClean p.2 = true) →
      ∀ res, keys.foldlM (gwcStep (gwcF fuel) w) acc = .ok res →
        (∀ c ∈ res.1, compClean c = true) ∧ (∀ p ∈ res.2, kvClean p.2 = true)
  | [], acc, hA, hB, res, h => by
    cases h
    exact ⟨hA, hB⟩
  | k :: ks, acc, hA, hB, res, h => by
    rw [List.foldlM_cons] at h
    cases hstep : gwcStep (gwcF fuel) w acc k with
    | error e => rw [hstep, except_bind_err] at h; cases h
    | ok acc2 =>
      rw [hstep, except_bind_ok] at h
      have hacc2 := gwcStep_inv IH hw hstep hA hB
      exact foldlM_gwc_inv w fuel IH hw ks acc2 hacc2.1 hacc2.2 res h

/-- Every condition compiled from a clean specification is clean. -/
theorem gwcF_clean : ∀ (fuel : Nat) (w : Spec), Spec.clean w = true →
    ∀ conds, gwcF fuel w = .ok conds → ∀ c ∈ conds, compClean c = true
  | 0, _, _, _, h => by cases h
  | fuel + 1, w, hw, conds, h => by
    rw [gwcF] at h
    by_cases he : w.isEmpty
    · rw [if_pos he] at h
      cases h
      intro c hc
      simp at hc
    · rw [if_neg he] at h
      cases hfold : (sortKeys (keysOf w)).foldlM (gwcStep (gwcF fuel) w) ([], []) with
      | error e => rw [hfold] at h; cases h
      | ok acc =>
        obtain ⟨cmps, wms⟩ := acc
        rw [hfold] at h
        simp only at h
        cases hbwc : buildWhereCondition wms with
        | error e => rw [hbwc] at h; cases h
        | ok built =>
          rw [hbwc] at h
          cases h
          have hinv := foldlM_gwc_inv w fuel (gwcF_clean fuel) hw (sortKeys (keysOf w))
            ([], []) (by simp) (by simp) (cmps, wms) hfold
          intro c hc
          rcases List.mem_append.mp hc with hc1 | hc1
          · exact hinv.1 c hc1
          · exact buildWhereCondition_clean hinv.2 hbwc c hc1

/-- Every condition compiled from a clean specification is clean (at the
canonical fuel). -/
theorem getWhereConditions_clean {w : Spec} (hw : Spec.clean w = true)
    {conds : List Comparable} (h : getWhereConditions w = .ok conds) :
    ∀ c ∈ conds, compClean c = true :=
  gwcF_clean (w.weight + 1) w hw conds h

/-- Splitting the condition list preserves membership. -/
theorem splitCondition_mem {conds : List Comparable} {c : Comparable} :
    (c ∈ (splitCondition conds).1 → c ∈ conds) ∧
    (c ∈ (splitCondition conds).2 → c ∈ conds) := by
  rw [splitCondition]
  cases hidx : (conds.reverse).findIdx? isNilC with
  | none => exact ⟨fun h => h, fun h => by simp at h⟩
  | some j =>
    simp only
    split
    · exact ⟨fun h => List.mem_of_mem_take h,
        fun h => List.mem_of_mem_drop h⟩
    · exact ⟨fun h => h, fun h => by simp at h⟩

/-! ### C1: assembly of full statements from parity chunks. -/

/-- Join preserves a character predicate. -/
theorem joinSep_all (p : Char → Bool) (sep : Chars) (hsep : sep.all p = true) :
    ∀ l : List Chars, (∀ x ∈ l, x.all p = true) → (joinSep sep l).all p = true
  | [], _ => rfl
  | [x], h => h x (by simp)
  | x :: y :: xs, h => by
    rw [joinSep, List.all_append, List.all_append, h x (by simp), hsep,
      joinSep_all p sep hsep (y :: xs) (fun z hz => h z (by simp [hz]))]
    rfl

/-- Zero placeholders means `?`-free. -/
theorem noQm_of_countQ_zero {s : Chars} (h : countQ s = 0) :
    s.all (fun c => c != qm) = true := by
  rw [countQ, List.count_eq_zero] at h
  rw [List.all_eq_true]
  intro c hc
  simp only [bne_iff_ne, ne_eq]
  intro hcq
  exact h (hcq ▸ hc)

/-- Parity of a flattened run of chunks that each avoid a digit head. -/
theorem chunks_suffix_ok : ∀ (cs : List (Chars × List Value)),
    (∀ p ∈ cs, countQ p.1 = p.2.length ∧ noDol p.1 = true ∧ noQD p.1 = true ∧
      headND p.1 = true) →
    countQ ((cs.map Prod.fst).flatten) = ((cs.map Prod.snd).flatten).length ∧
    noDol ((cs.map Prod.fst).flatten) = true ∧
    noQD ((cs.map Prod.fst).flatten) = true ∧
    headND ((cs.map Prod.fst).flatten) = true
  | [], _ => ⟨rfl, rfl, rfl, rfl⟩
  | p :: ps, h => by
    have hp := h p (by simp)
    have ih := chunks_suffix_ok ps (fun z hz => h z (by simp [hz]))
    simp only [List.map_cons, List.flatten_cons]
    refine ⟨?_, ?_, ?_, ?_⟩
    · rw [countQ_append, List.length_append, hp.1, ih.1]
    · rw [noDol_append, hp.2.1, ih.2.1]
      rfl
    · rw [noQD_append_head ih.2.2.2, hp.2.2.1, ih.2.2.1]
      rfl
    · rw [headND_append]
      by_cases he : p.1.isEmpty
      · rw [if_pos he]
        exact ih.2.2.2
      · rw [if_neg he]
        exact hp.2.2.2

/-- Parity of a flattened statement: a `?`-free prefix run of valueless
chunks followed by a digit-head-free run of parity chunks. -/
theorem chunks_ok : ∀ (pre suf : List (Chars × List Value)),
    (∀ p ∈ pre, countQ p.1 = 0 ∧ p.2 = ([] : List Value) ∧ noDol p.1 = true) →
    (∀ p ∈ suf, countQ p.1 = p.2.length ∧ noDol p.1 = true ∧ noQD p.1 = true ∧
      headND p.1 = true) →
    countQ (((pre ++ suf).map Prod.fst).flatten)
      = (((pre ++ suf).map Prod.snd).flatten).length ∧
    noDol (((pre ++ suf).map Prod.fst).flatten) = true ∧
    noQD (((pre ++ suf).map Prod.fst).flatten) = true
  | [], suf, _, hs => by
    have h := chunks_suffix_ok suf hs
    exact ⟨h.1, h.2.1, h.2.2.1⟩
  | p :: pre, suf, hp, hs => by
    have h1 := hp p (by simp)
    have ih := chunks_ok pre suf (fun z hz => hp z (by simp [hz])) hs
    simp only [List.cons_append, List.map_cons, List.flatten_cons]
    refine ⟨?_, ?_, ?_⟩
    · rw [countQ_append, List.length_append, h1.1, ih.1, h1.2.1]
      rfl
    · rw [noDol_append, h1.2.2, ih.2.1]
      rfl
    · rw [noQD_append_noQm (noQm_of_countQ_zero h1.1), ih.2.2]

/-- A parsed `_orderby` clause of a clean specification is clean. -/
theorem orderBy_clean {w : Spec} (hw : Spec.clean w = true) {v : Value}
    (hl : lookup (lit "_orderby") w = some v) {s : Chars}
    (hp : parseOrderByClause v = .ok s) : cleanChars s = true := by
  have hec := lookup_clean w hw _ _ hl
  rw [entryClean, if_pos (by decide), if_neg (by decide), if_pos rfl] at hec
  rw [obClean, hp] at hec
  exact hec

/-- A parsed `_groupby` clause of a clean specification is clean. -/
theorem groupBy_clean {w : Spec} (hw : Spec.clean w = true) {v : Value}
    (hl : lookup (lit "_groupby") w = some v) {s : Chars}
    (hp : parseGroupByClause v = .ok s) : cleanChars s = true := by
  have hec := lookup_clean w hw _ _ hl
  rw [entryClean, if_pos (by decide), if_neg (by decide), if_neg (by decide),
    if_pos rfl] at hec
  rw [gbClean, hp] at hec
  exact hec

/-- A resolved `_having` specification of a clean specification is clean. -/
theorem having_clean {w : Spec} (hw : Spec.clean w = true) {v : Value}
    (hl : lookup (lit "_having") w = some v) {hm : Spec}
    (hp : resolveHaving v = .ok hm) : Spec.clean hm = true := by
  have hec := lookup_clean w hw _ _ hl
  rw [entryClean, if_pos (by decide), if_pos rfl] at hec
  cases v with
  | vMap m0 =>
    rw [resolveHaving] at hp
    cases hwk : havingWalk m0 with
    | error e => rw [hwk] at hp; cases hp
    | ok u =>
      rw [hwk] at hp
      simp only [Except.map] at hp
      cases hp
      exact hec
  | vInt n => cases hp
  | vStr s2 => cases hp
  | vRaw r => cases hp
  | vNull b2 => cases hp
  | vIntList ns => cases hp
  | vList vs => cases hp
  | vSpecs ms => cases hp
  | vCustom conds cvals err => cases hp

/-- A successful lock clause is a clean, space-headed literal. -/
theorem lockClause_ok {b : Dialect} {lm s : Chars} (h : lockClause b lm = .ok s) :
    cleanChars s = true ∧ headND s = true := by
  cases b with
  | mysql =>
    rw [lockClause] at h
    split at h
    · cases h; exact ⟨by decide, rfl⟩
    · split at h
      · cases h; exact ⟨by decide, rfl⟩
      · cases h
  | postgres =>
    rw [lockClause] at h
    split at h
    · cases h; exact ⟨by decide, rfl⟩
    · split at h
      · cases h; exact ⟨by decide, rfl⟩
      · cases h
  | sqlite => cases h

/-- Parity of the assembled SELECT text with an abstract limit chunk. -/
theorem selectAssembly_ok (b : Dialect) (t : Chars) (flds : List Chars)
    (gb ob lck : Chars) (conds : List Comparable) (limQ : Chars) (limV : List Value)
    (ht : cleanChars t = true) (hf : flds.all cleanChars = true)
    (hgb : cleanChars gb = true) (hob : cleanChars ob = true)
    (hlckc : cleanChars lck = true) (hlckh : headND lck = true)
    (hc : ∀ c ∈ conds, compClean c = true)
    (hlim : countQ limQ = limV.length ∧ noDol limQ = true ∧ noQD limQ = true ∧
      headND limQ = true) :
    placeholdersMatch b
      (rebindQuery b (lit "SELECT "
        ++ (if flds.isEmpty then lit "*" else joinSep [','] (flds.map quoteField))
        ++ lit " FROM " ++ t
        ++ (if (whereConnector (lit "AND") (splitCondition conds).1).1.isEmpty then []
            else lit " WHERE " ++ (whereConnector (lit "AND") (splitCondition conds).1).1)
        ++ (if gb.isEmpty then [] else lit " GROUP BY " ++ gb)
        ++ (if (splitCondition conds).2.isEmpty then []
            else lit " HAVING " ++ (whereConnector (lit "AND") (splitCondition conds).2).1)
        ++ (if ob.isEmpty then [] else lit " ORDER BY " ++ ob)
        ++ limQ ++ lck))
      ((whereConnector (lit "AND") (splitCondition conds).1).2
        ++ (if (splitCondition conds).2.isEmpty then []
            else (whereConnector (lit "AND") (splitCondition conds).2).2)
        ++ limV) := by
  have hwcs : ∀ c ∈ (splitCondition conds).1, compClean c = true :=
    fun c hcc => hc c (splitCondition_mem.1 hcc)
  have hhcs : ∀ c ∈ (splitCondition conds).2, compClean c = true :=
    fun c hcc => hc c (splitCondition_mem.2 hcc)
  have hW := @whereConnector_ok (lit "AND") (by decide) _ hwcs
  have hH := @whereConnector_ok (lit "AND") (by decide) _ hhcs
  have hfields : cleanChars (if flds.isEmpty then lit "*"
      else joinSep [','] (flds.map quoteField)) = true := by
    by_cases he : flds.isEmpty
    · rw [if_pos he]; decide
    · rw [if_neg he, show quoteField = id from rfl, List.map_id]
      have hl : ∀ x ∈ flds, x.all (fun c => c != qm && c != '$') = true := by
        rw [List.all_eq_true] at hf
        exact fun x hx => hf x hx
      exact joinSep_all _ [','] (by decide) flds hl
  have hpre : ∀ p ∈ ([(lit "SELECT ", ([] : List Value)),
      ((if flds.isEmpty then lit "*" else joinSep [','] (flds.map quoteField)), []),
      (lit " FROM ", []), (t, [])] : List (Chars × List Value)),
      countQ p.1 = 0 ∧ p.2 = ([] : List Value) ∧ noDol p.1 = true := by
    intro p hp
    simp only [List.mem_cons, List.not_mem_nil, or_false] at hp
    rcases hp with h | h | h | h
    · rw [h]; exact ⟨by decide, rfl, by decide⟩
    · rw [h]
      have h2 := cleanChars_ok hfields
      exact ⟨h2.1, rfl, h2.2.1⟩
    · rw [h]; exact ⟨by decide, rfl, by decide⟩
    · rw [h]
      have h2 := cleanChars_ok ht
      exact ⟨h2.1, rfl, h2.2.1⟩
  have hsuf : ∀ p ∈ ([
      ((if (whereConnector (lit "AND") (splitCondition conds).1).1.isEmpty then []
        else lit " WHERE " ++ (whereConnector (lit "AND") (splitCondition conds).1).1),
       (if (whereConnector (lit "AND") (splitCondition conds).1).1.isEmpty then []
        else (whereConnector (lit "AND") (splitCondition conds).1).2)),
      ((if gb.isEmpty then [] else lit " GROUP BY " ++ gb), []),
      ((if (splitCondition conds).2.isEmpty then []
        else lit " HAVING " ++ (whereConnector (lit "AND") (splitCondition conds).2).1),
       (if (splitCondition conds).2.isEmpty then []
        else (whereConnector (lit "AND") (splitCondition conds).2).2)),
      ((if ob.isEmpty then [] else lit " ORDER BY " ++ ob), []),
      (limQ, limV),
      (lck, [])] : List (Chars × List Value)),
      countQ p.1 = p.2.length ∧ noDol p.1 = true ∧ noQD p.1 = true ∧
        headND p.1 = true := by
    intro p hp
    simp only [List.mem_cons, List.not_mem_nil, or_false] at hp
    rcases hp with h | h | h | h | h | h
    · rw [h]
      by_cases hWe : (whereConnector (lit "AND") (splitCondition conds).1).1.isEmpty
      · rw [if_pos hWe, if_pos hWe]
        exact ⟨rfl, rfl, rfl, rfl⟩
      · rw [if_neg hWe, if_neg hWe]
        refine ⟨?_, ?_, ?_, rfl⟩
        · rw [countQ_append, hW.1,
            show countQ (lit " WHERE ") = 0 from rfl, Nat.zero_add]
        · rw [noDol_append, hW.2.1]
          rfl
        · rw [noQD_append_noQm (by decide), hW.2.2.1]
    · rw [h]
      by_cases hGe : gb.isEmpty
      · rw [if_pos hGe]
        exact ⟨rfl, rfl, rfl, rfl⟩
      · rw [if_neg hGe]
        have h2 := cleanChars_ok hgb
        refine ⟨?_, ?_, ?_, rfl⟩
        · rw [countQ_append, h2.1]
          rfl
        · rw [noDol_append, h2.2.1]
          rfl
        · rw [noQD_append_noQm (by decide)]
          exact h2.2.2
    · rw [h]
      by_cases hHe : (splitCondition conds).2.isEmpty
      · rw [if_pos hHe, if_pos hHe]
        exact ⟨rfl, rfl, rfl, rfl⟩
      · rw [if_neg hHe, if_neg hHe]
        refine ⟨?_, ?_, ?_, rfl⟩
        · rw [countQ_append, hH.1,
            show countQ (lit " HAVING ") = 0 from rfl, Nat.zero_add]
        · rw [noDol_append, hH.2.1]
          rfl
        · rw [noQD_append_noQm (by decide), hH.2.2.1]
    · rw [h]
      by_cases hOe : ob.isEmpty
      · rw [if_pos hOe]
        exact ⟨rfl, rfl, rfl, rfl⟩
      · rw [if_neg hOe]
        have h2 := cleanChars_ok hob
        refine ⟨?_, ?_, ?_, rfl⟩
        · rw [countQ_append, h2.1]
          rfl
        · rw [noDol_append, h2.2.1]
          rfl
        · rw [noQD_append_noQm (by decide)]
          exact h2.2.2
    · rw [h]
      exact hlim
    · rw [h]
      have h2 := cleanChars_ok hlckc
      exact ⟨h2.1, h2.2.1, h2.2.2, hlckh⟩
  have hO := chunks_ok _ _ hpre hsuf
  have hflatQ : (lit "SELECT "
      ++ (if flds.isEmpty then lit "*" else joinSep [','] (flds.map quoteField))
      ++ lit " FROM " ++ t
      ++ (if (whereConnector (lit "AND") (splitCondition conds).1).1.isEmpty then []
          else lit " WHERE " ++ (whereConnector (lit "AND") (splitCondition conds).1).1)
      ++ (if gb.isEmpty then [] else lit " GROUP BY " ++ gb)
      ++ (if (splitCondition conds).2.isEmpty then []
          else lit " HAVING " ++ (whereConnector (lit "AND") (splitCondition conds).2).1)
      ++ (if ob.isEmpty then [] else lit " ORDER BY " ++ ob)
      ++ limQ ++ lck) = ((([(lit "SELECT ", ([] : List Value)),
      ((if flds.isEmpty then lit "*" else joinSep [','] (flds.map quoteField)), []),
      (lit " FROM ", []), (t, [])] : List (Chars × List Value)) ++ [
      ((if (whereConnector (lit "AND") (splitCondition conds).1).1.isEmpty then []
        else lit " WHERE " ++ (whereConnector (lit "AND") (splitCondition conds).1).1),
       (if (whereConnector (lit "AND") (splitCondition conds).1).1.isEmpty then []
        else (whereConnector (lit "AND") (splitCondition conds).1).2)),
      ((if gb.isEmpty then [] else lit " GROUP BY " ++ gb), []),
      ((if (splitCondition conds).2.isEmpty then []
        else lit " HAVING " ++ (whereConnector (lit "AND") (splitCondition conds).2).1),
       (if (splitCondition conds).2.isEmpty then []
        else (whereConnector (lit "AND") (splitCondition conds).2).2)),
      ((if ob.isEmpty then [] else lit " ORDER BY " ++ ob), []),
      (limQ, limV),
      (lck, [])]).map Prod.fst).flatten := by
    simp [List.append_assoc]
  have hflatV : ((whereConnector (lit "AND") (splitCondition conds).1).2
      ++ (if (splitCondition conds).2.isEmpty then []
          else (whereConnector (lit "AND") (splitCondition conds).2).2)
      ++ limV)
      = ((([(lit "SELECT ", ([] : List Value)),
      ((if flds.isEmpty then lit "*" else joinSep [','] (flds.map quoteField)), []),
      (lit " FROM ", []), (t, [])] : List (Chars × List Value)) ++ [
      ((if (whereConnector (lit "AND") (splitCondition conds).1).1.isEmpty then []
        else lit " WHERE " ++ (whereConnector (lit "AND") (splitCondition conds).1).1),
       (if (whereConnector (lit "AND") (splitCondition conds).1).1.isEmpty then []
        else (whereConnector (lit "AND") (splitCondition conds).1).2)),
      ((if gb.isEmpty then [] else lit " GROUP BY " ++ gb), []),
      ((if (splitCondition conds).2.isEmpty then []
        else lit " HAVING " ++ (whereConnector (lit "AND") (splitCondition conds).2).1),
       (if (splitCondition conds).2.isEmpty then []
        else (whereConnector (lit "AND") (splitCondition conds).2).2)),
      ((if ob.isEmpty then [] else lit " ORDER BY " ++ ob), []),
      (limQ, limV),
      (lck, [])]).map Prod.snd).flatten := by
    by_cases hWe : (whereConnector (lit "AND") (splitCondition conds).1).1.isEmpty
    · have hwv : (whereConnector (lit "AND") (splitCondition conds).1).2 = [] :=
        whereConnector_empty_vals _ _ (List.isEmpty_iff.mp hWe)
      simp [hWe, hwv]
    · simp [hWe]
  rw [hflatQ, hflatV]
  exact finalize_parity b hO.1 hO.2.1 hO.2.2

/-- Parity of the SELECT assembly from clean pieces. -/
theorem buildSelect_ok (b : Dialect) (t : Chars) (flds : List Chars)
    (gb ob lck : Chars) (lim : Option EleLimit) (conds : List Comparable)
    (ht : cleanChars t = true) (hf : flds.all cleanChars = true)
    (hgb : cleanChars gb = true) (hob : cleanChars ob = true)
    (hlckc : cleanChars lck = true) (hlckh : headND lck = true)
    (hc : ∀ c ∈ conds, compClean c = true) :
    placeholdersMatch b (buildSelect b t flds gb ob lck lim conds).1
      (buildSelect b t flds gb ob lck lim conds).2 := by
  cases lim with
  | none =>
    exact selectAssembly_ok b t flds gb ob lck conds [] []
      ht hf hgb hob hlckc hlckh hc ⟨rfl, rfl, rfl, rfl⟩
  | some l =>
    exact selectAssembly_ok b t flds gb ob lck conds
      (if b = .mysql then lit " LIMIT ?,?" else lit " LIMIT ? OFFSET ?")
      (if b = .mysql then [.vInt l.start, .vInt l.step]
       else [.vInt l.step, .vInt l.start])
      ht hf hgb hob hlckc hlckh hc
      (by cases b with
        | mysql => exact ⟨rfl, rfl, rfl, rfl⟩
        | postgres => exact ⟨rfl, rfl, rfl, rfl⟩
        | sqlite => exact ⟨rfl, rfl, rfl, rfl⟩)

/-- Inversion of a successful `Except` bind. -/
theorem except_bind_inv {ε α β : Type} {x : Except ε α} {k : α → Except ε β} {r : β}
    (h : (x >>= k) = .ok r) : ∃ a, x = .ok a ∧ k a = .ok r := by
  cases x with
  | error e => rw [except_bind_err] at h; cases h
  | ok a => exact ⟨a, rfl, by rwa [except_bind_ok] at h⟩

/-- C1 core, SELECT: a successful `BuildSelect` on a clean specification,
table and field list satisfies the placeholder discipline. -/
theorem BuildSelect_ok {b : Dialect} {t : Chars} {w : Spec} {flds : List Chars}
    (hw : Spec.clean w = true) (ht : cleanChars t = true)
    (hf : flds.all cleanChars = true) {q : Chars} {vals : List Value}
    (h : BuildSelect b t w flds = .ok (q, vals)) : placeholdersMatch b q vals := by
  rw [BuildSelect] at h
  have step1 : ∃ ob, cleanChars ob = true ∧
      (do
        let groupBy ← match lookup (lit "_groupby") w with
          | none => pure []
          | some v => parseGroupByClause v
        let having ← if groupBy.isEmpty then pure none
          else match lookup (lit "_having") w with
            | none => pure none
            | some hh => (resolveHaving hh).map some
        let limit ← match lookup (lit "_limit") w with
          | none => pure none
          | some v => (parseSelectLimit v).map some
        let lockCl ← match lookup (lit "_lockMode") w with
          | none => pure []
          | some (Value.vStr s) => lockClause b (trimWS s)
          | some _ => throw Err.lockModeValueType
        let conditions ← getWhereConditions w
        let conditions ← match having with
          | none => pure conditions
          | some hm =>
            match getWhereConditions hm with
            | Except.error e => throw e
            | Except.ok hc => pure (conditions ++ Comparable.nilC :: hc)
        pure (buildSelect b t flds groupBy ob lockCl limit conditions)) = .ok (q, vals) := by
    cases hlo : lookup (lit "_orderby") w with
    | none =>
      rw [hlo] at h
      simp only at h
      obtain ⟨ob, hx, h2⟩ := except_bind_inv h
      cases hx
      exact ⟨[], by decide, h2⟩
    | some v =>
      rw [hlo] at h
      simp only at h
      obtain ⟨ob, hx, h2⟩ := except_bind_inv h
      exact ⟨ob, orderBy_clean hw hlo hx, h2⟩
  obtain ⟨ob, hobc, h⟩ := step1
  have step2 : ∃ gb, cleanChars gb = true ∧
      (do
        let having ← if (gb : Chars).isEmpty then pure none
          else match lookup (lit "_having") w with
            | none => pure none
            | some hh => (resolveHaving hh).map some
        let limit ← match lookup (lit "_limit") w with
          | none => pure none
          | some v => (parseSelectLimit v).map some
        let lockCl ← match lookup (lit "_lockMode") w with
          | none => pure []
          | some (Value.vStr s) => lockClause b (trimWS s)
          | some _ => throw Err.lockModeValueType
        let conditions ← getWhereConditions w
        let conditions ← match having with
          | none => pure conditions
          | some hm =>
            match getWhereConditions hm with
            | Except.error e => throw e
            | Except.ok hc => pure (conditions ++ Comparable.nilC :: hc)
        pure (buildSelect b t flds gb ob lockCl limit conditions)) = .ok (q, vals) := by
    cases hlo : lookup (lit "_groupby") w with
    | none =>
      rw [hlo] at h
      simp only at h
      obtain ⟨gb, hx, h2⟩ := except_bind_inv h
      cases hx
      exact ⟨[], by decide, h2⟩
    | some v =>
      rw [hlo] at h
      simp only at h
      obtain ⟨gb, hx, h2⟩ := except_bind_inv h
      exact ⟨gb, groupBy_clean hw hlo hx, h2⟩
  obtain ⟨gb, hgbc, h⟩ := step2
  have step3 : ∃ hvO : Option Spec, (∀ hm, hvO = some hm → Spec.clean hm = true) ∧
      (do
        let limit ← match lookup (lit "_limit") w with
          | none => pure none
          | some v => (parseSelectLimit v).map some
        let lockCl ← match lookup (lit "_lockMode") w with
          | none => pure []
          | some (Value.vStr s) => lockClause b (trimWS s)
          | some _ => throw Err.lockModeValueType
        let conditions ← getWhereConditions w
        let conditions ← match hvO with
          | none => pure conditions
          | some hm =>
            match getWhereConditions hm with
            | Except.error e => throw e
            | Except.ok hc => pure (conditions ++ Comparable.nilC :: hc)
        pure (buildSelect b t flds gb ob lockCl limit conditions)) = .ok (q, vals) := by
    by_cases hge : (gb : Chars).isEmpty
    · rw [if_pos hge] at h
      obtain ⟨hvO, hx, h2⟩ := except_bind_inv h
      cases hx
      refine ⟨none, ?_, h2⟩
      intro hm hcon
      cases hcon
    · rw [if_neg hge] at h
      cases hlh : lookup (lit "_having") w with
      | none =>
        rw [hlh] at h
        simp only at h
        obtain ⟨hvO, hx, h2⟩ := except_bind_inv h
        cases hx
        refine ⟨none, ?_, h2⟩
        intro hm hcon
        cases hcon
      | some v =>
        rw [hlh] at h
        simp only at h
        obtain ⟨hvO, hx, h2⟩ := except_bind_inv h
        cases hrh : resolveHaving v with
        | error e =>
          rw [hrh] at hx
          simp only [Except.map] at hx
          cases hx
        | ok hm2 =>
          rw [hrh] at hx
          simp only [Except.map] at hx
          cases hx
          refine ⟨some hm2, ?_, h2⟩
          intro hm hsome
          cases hsome
          exact having_clean hw hlh hrh
  obtain ⟨hvO, hhvc, h⟩ := step3
  have step4 : ∃ lim : Option EleLimit,
      (do
        let lockCl ← match lookup (lit "_lockMode") w with
          | none => pure []
          | some (Value.vStr s) => lockClause b (trimWS s)
          | some _ => throw Err.lockModeValueType
        let conditions ← getWhereConditions w
        let conditions ← match hvO with
          | none => pure conditions
          | some hm =>
            match getWhereConditions hm with
            | Except.error e => throw e
            | Except.ok hc => pure (conditions ++ Comparable.nilC :: hc)
        pure (buildSelect b t flds gb ob lockCl lim conditions)) = .ok (q, vals) := by
    cases hll : lookup (lit "_limit") w with
    | none =>
      rw [hll] at h
      simp only at h
      obtain ⟨lim, hx, h2⟩ := except_bind_inv h
      cases hx
      exact ⟨none, h2⟩
    | some v =>
      rw [hll] at h
      simp only at h
      obtain ⟨lim, hx, h2⟩ := except_bind_inv h
      exact ⟨lim, h2⟩
  obtain ⟨lim, h⟩ := step4
  have step5 : ∃ lck, cleanChars lck = true ∧ headND lck = true ∧
      (do
        let conditions ← getWhereConditions w
        let conditions ← match hvO with
          | none => pure conditions
          | some hm =>
            match getWhereConditions hm with
            | Except.error e => throw e
            | Except.ok hc => pure (conditions ++ Comparable.nilC :: hc)
        pure (buildSelect b t flds gb ob lck lim conditions)) = .ok (q, vals) := by
    cases hlm : lookup (lit "_lockMode") w with
    | none =>
      rw [hlm] at h
      simp only at h
      obtain ⟨lck, hx, h2⟩ := except_bind_inv h
      cases hx
      exact ⟨[], by decide, rfl, h2⟩
    | some v =>
      rw [hlm] at h
      cases v with
      | vStr s =>
        simp only at h
        obtain ⟨lck, hx, h2⟩ := except_bind_inv h
        have hl2 := lockClause_ok hx
        exact ⟨lck, hl2.1, hl2.2, h2⟩
      | vInt n =>
        simp only at h
        obtain ⟨lck, hx, h2⟩ := except_bind_inv h
        cases hx
      | vRaw r =>
        simp only at h
        obtain ⟨lck, hx, h2⟩ := except_bind_inv h
        cases hx
      | vNull b2 =>
        simp only at h
        obtain ⟨lck, hx, h2⟩ := except_bind_inv h
        cases hx
      | vIntList ns =>
        simp only at h
        obtain ⟨lck, hx, h2⟩ := except_bind_inv h
        cases hx
      | vList vs =>
        simp only at h
        obtain ⟨lck, hx, h2⟩ := except_bind_inv h
        cases hx
      | vSpecs ms =>
        simp only at h
        obtain ⟨lck, hx, h2⟩ := except_bind_inv h
        cases hx
      | vMap mm =>
        simp only at h
        obtain ⟨lck, hx, h2⟩ := except_bind_inv h
        cases hx
      | vCustom cnds cvls err =>
        simp only at h
        obtain ⟨lck, hx, h2⟩ := except_bind_inv h
        cases hx
  obtain ⟨lck, hlckc, hlckh, h⟩ := step5
  obtain ⟨conds, hcds, h⟩ := except_bind_inv h
  have hcondsc : ∀ c ∈ conds, compClean c = true := getWhereConditions_clean hw hcds
  have final : ∃ conds2 : List Comparable, (∀ c ∈ conds2, compClean c = true) ∧
      buildSelect b t flds gb ob lck lim conds2 = (q, vals) := by
    cases hvO with
    | none =>
      simp only at h
      obtain ⟨conds2, hx, h2⟩ := except_bind_inv h
      cases hx
      refine ⟨conds, hcondsc, ?_⟩
      cases h2
      rfl
    | some hm =>
      simp only at h
      cases hgw : getWhereConditions hm with
      | error e =>
        rw [hgw] at h
        simp only at h
        obtain ⟨conds2, hx, h2⟩ := except_bind_inv h
        cases hx
      | ok hc2 =>
        rw [hgw] at h
        simp only at h
        obtain ⟨conds2, hx, h2⟩ := except_bind_inv h
        cases hx
        refine ⟨conds ++ Comparable.nilC :: hc2, ?_, by cases h2; rfl⟩
        intro c hcm
        rcases List.mem_append.mp hcm with h1 | h1
        · exact hcondsc c h1
        · rcases List.mem_cons.mp h1 with h3 | h3
          · rw [h3]; rfl
          · exact getWhereConditions_clean (hhvc hm rfl) hgw c h3
  obtain ⟨conds2, hconds2c, h2⟩ := final
  have hq : q = (buildSelect b t flds gb ob lck lim conds2).1 := by rw [h2]
  have hv2 : vals = (buildSelect b t flds gb ob lck lim conds2).2 := by rw [h2]
  rw [hq, hv2]
  exact buildSelect_ok b t flds gb ob lck lim conds2 ht hf hgbc hobc
    hlckc hlckh hconds2c

/-! ### C1: parity of the update-set renderer. -/

/-- Unfolding of `updClean` on a cons. -/
theorem updClean_cons (k : Chars) (v : Value) (tl : Spec) :
    updClean (.cons k v tl) = (updEntryClean k v && updClean tl) := rfl

/-- Looking up a clean update map yields per-entry cleanliness. -/
theorem lookup_updClean : ∀ (u : Spec), updClean u = true → ∀ (k : Chars) (v : Value),
    lookup k u = some v → updEntryClean k v = true
  | .nil, _, _, _, h => by cases h
  | .cons k' v' tl, hu, k, v, h => by
    rw [updClean_cons, Bool.and_eq_true] at hu
    rw [lookup] at h
    by_cases hk : k' = k
    · rw [if_pos hk] at h
      cases h
      rw [← hk]
      exact hu.1
    · rw [if_neg hk] at h
      exact lookup_updClean tl hu.2 k v h

/-- `?`-free, comma-terminated rendering of custom fragments. -/
theorem customFrags_ok : ∀ (conds : List Chars),
    (∀ c ∈ conds, noDol c = true ∧ noQD c = true) →
    noDol ((conds.map (fun s => s ++ [','])).flatten) = true ∧
    noQD ((conds.map (fun s => s ++ [','])).flatten) = true ∧
    countQ ((conds.map (fun s => s ++ [','])).flatten) = (conds.map countQ).sum ∧
    ((conds.map (fun s => s ++ [','])).flatten = [] ∨
      ((conds.map (fun s => s ++ [','])).flatten).getLast? = some ',')
  | [], _ => ⟨rfl, rfl, rfl, Or.inl rfl⟩
  | c :: cs, h => by
    have hc := h c (by simp)
    have ih := customFrags_ok cs (fun z hz => h z (by simp [hz]))
    simp only [List.map_cons, List.flatten_cons]
    have hcc : noQD (c ++ [',']) = true := by
      rw [noQD_append_head (show headND [','] = true from rfl), hc.2]
      rfl
    refine ⟨?_, ?_, ?_, ?_⟩
    · rw [noDol_append, noDol_append, hc.1, ih.1]
      rfl
    · exact noQD_append_last hcc ih.2.1 (by rw [List.getLast?_concat]; decide)
    · rw [countQ_append, countQ_append, ih.2.2.1, List.sum_cons,
        show countQ [','] = 0 from rfl]
      omega
    · rcases ih.2.2.2 with h0 | h0
      · rw [h0]
        right
        rw [List.append_nil, List.getLast?_concat]
      · right
        rw [List.getLast?_append_of_ne_nil, h0]
        intro hcon
        rw [hcon] at h0
        cases h0
  termination_by conds => conds

/-- The update-set walk preserves parity of the accumulated text. -/
theorem resolveUpdateGo_ok (update : Spec) (hu : updClean update = true) :
    ∀ (ks : List Chars) (sb : Chars) (vals : List Value),
      countQ sb = vals.length → noDol sb = true → noQD sb = true →
      (sb = [] ∨ sb.getLast? = some ',') →
      ∀ res, resolveUpdateGo ks update sb vals = .ok res →
        countQ res.1 = res.2.length ∧ noDol res.1 = true ∧ noQD res.1 = true
  | [], sb, vals, h1, h2, h3, _, res, h => by
    cases h
    have ht := trimTrailing_ok (fun x => decide (x = ',')) sb
      (fun c hc => by
        simp only [decide_eq_true_eq] at hc
        rw [hc]
        decide) h2 h3
    refine ⟨?_, ht.2.1, ht.2.2⟩
    show countQ (trimTrailing (fun x => decide (x = ',')) sb) = vals.length
    rw [ht.1, h1]
  | k :: ks, sb, vals, h1, h2, h3, h4, res, h => by
    rw [resolveUpdateGo] at h
    have hlast : sb.getLast? ≠ some qm := by
      rcases h4 with h0 | h0
      · rw [h0]; simp
      · rw [h0]; simp [qm]
    cases hlk : lookup k update with
    | none =>
      rw [hlk] at h
      exact resolveUpdateGo_ok update hu ks sb vals h1 h2 h3 h4 res h
    | some v =>
      have hec := lookup_updClean update hu k v hlk
      cases v with
      | vRaw r =>
        rw [hlk] at h
        rw [updEntryClean, Bool.and_eq_true] at hec
        have hseg : noDol (k ++ ['='] ++ r ++ [',']) = true ∧
            (k ++ ['='] ++ r ++ [',']).all (fun c => c != qm) = true := by
          constructor
          · rw [noDol_append, noDol_append, noDol_append,
              (cleanChars_ok hec.1).2.1, (cleanChars_ok hec.2).2.1]
            rfl
          · rw [List.all_append, List.all_append, List.all_append,
              cleanChars_noQm hec.1, cleanChars_noQm hec.2]
            rfl
        have hsb1 : countQ (sb ++ k ++ ['='] ++ r ++ [',']) = vals.length := by
          rw [countQ_append, countQ_append, countQ_append, countQ_append, h1,
            (cleanChars_ok hec.1).1, (cleanChars_ok hec.2).1,
            show countQ ['='] = 0 from rfl, show countQ [','] = 0 from rfl]
          omega
        have hsb2 : noDol (sb ++ k ++ ['='] ++ r ++ [',']) = true := by
          rw [show sb ++ k ++ ['='] ++ r ++ [','] = sb ++ (k ++ ['='] ++ r ++ [','])
              from by simp [List.append_assoc], noDol_append, h2, hseg.1]
          rfl
        have hsb3 : noQD (sb ++ k ++ ['='] ++ r ++ [',']) = true := by
          rw [show sb ++ k ++ ['='] ++ r ++ [','] = sb ++ (k ++ ['='] ++ r ++ [','])
              from by simp [List.append_assoc]]
          exact noQD_append_last h3 (noQD_of_noQm hseg.2) hlast
        have hsb4 : sb ++ k ++ ['='] ++ r ++ [','] = [] ∨
            (sb ++ k ++ ['='] ++ r ++ [',']).getLast? = some ',' := by
          right
          rw [List.getLast?_concat]
        exact resolveUpdateGo_ok update hu ks _ _ hsb1 hsb2 hsb3 hsb4 res h
      | vCustom conds cvals err =>
        rw [hlk] at h
        simp only at h
        by_cases hcu : (lit "_custom_").isPrefixOf k
        · rw [if_pos hcu] at h
          have hec2 : (if (lit "_custom_").isPrefixOf k
              then customOk (Value.vCustom conds cvals err) else cleanChars k) = true := hec
          rw [if_pos hcu, customOk, Bool.and_eq_true] at hec2
          cases err with
          | some e => cases h
          | none =>
            have hfr : ∀ c ∈ conds, noDol c = true ∧ noQD c = true := by
              intro c hcm
              have h6 := hec2.1
              rw [List.all_eq_true] at h6
              have h5 := h6 c hcm
              rw [Bool.and_eq_true] at h5
              exact h5
            have hcf := customFrags_ok conds hfr
            have hsum : (conds.map countQ).sum = cvals.toList.length := by
              have h6 := hec2.2
              simpa using h6
            have hsb1 : countQ (sb ++ (conds.map (fun s => s ++ [','])).flatten)
                = (vals ++ cvals.toList).length := by
              rw [countQ_append, h1, hcf.2.2.1, hsum, List.length_append]
            have hsb2 : noDol (sb ++ (conds.map (fun s => s ++ [','])).flatten) = true := by
              rw [noDol_append, h2, hcf.1]
              rfl
            have hsb3 : noQD (sb ++ (conds.map (fun s => s ++ [','])).flatten) = true :=
              noQD_append_last h3 hcf.2.1 hlast
            have hsb4 : sb ++ (conds.map (fun s => s ++ [','])).flatten = [] ∨
                (sb ++ (conds.map (fun s => s ++ [','])).flatten).getLast? = some ',' := by
              rcases hcf.2.2.2 with h0 | h0
              · rw [h0, List.append_nil]
                exact h4
              · right
                rw [List.getLast?_append_of_ne_nil, h0]
                intro hcon
                rw [hcon] at h0
                cases h0
            exact resolveUpdateGo_ok update hu ks _ _ hsb1 hsb2 hsb3 hsb4 res h
        · rw [if_neg hcu] at h
          have hec2 : (if (lit "_custom_").isPrefixOf k
              then customOk (Value.vCustom conds cvals err) else cleanChars k) = true := hec
          rw [if_neg hcu] at hec2
          have hsb1 : countQ (sb ++ quoteField k ++ lit "=?,")
              = (vals ++ [Value.vCustom conds cvals err]).length := by
            rw [countQ_append, countQ_append, h1, quoteField, (cleanChars_ok hec2).1,
              List.length_append, show countQ (lit "=?,") = 1 from rfl,
              List.length_cons, List.length_nil]
          have hsb2 : noDol (sb ++ quoteField k ++ lit "=?,") = true := by
            rw [noDol_append, noDol_append, h2, quoteField, (cleanChars_ok hec2).2.1]
            rfl
          have hsb3 : noQD (sb ++ quoteField k ++ lit "=?,") = true := by
            rw [List.append_assoc]
            refine noQD_append_last h3 ?_ hlast
            rw [quoteField, noQD_append_noQm (cleanChars_noQm hec2)]
            decide
          have hsb4 : sb ++ quoteField k ++ lit "=?," = [] ∨
              (sb ++ quoteField k ++ lit "=?,").getLast? = some ',' := by
            right
            rw [show (lit "=?," : Chars) = ['=', '?'] ++ [','] from rfl,
              ← List.append_assoc, List.getLast?_concat]
          exact resolveUpdateGo_ok update hu ks _ _ hsb1 hsb2 hsb3 hsb4 res h
      | vStr s =>
        rw [hlk] at h
        simp only at h
        by_cases hcu : (lit "_custom_").isPrefixOf k
        · rw [if_pos hcu] at h
          exact resolveUpdateGo_ok update hu ks sb vals h1 h2 h3 h4 res h
        · rw [if_neg hcu] at h
          have hec2 : (if (lit "_custom_").isPrefixOf k
              then customOk (Value.vStr s) else cleanChars k) = true := hec
          rw [if_neg hcu] at hec2
          have hsb1 : countQ (sb ++ quoteField k ++ lit "=?,")
              = (vals ++ [Value.vStr s]).length := by
            rw [countQ_append, countQ_append, h1, quoteField, (cleanChars_ok hec2).1,
              List.length_append, show countQ (lit "=?,") = 1 from rfl,
              List.length_cons, List.length_nil]
          have hsb2 : noDol (sb ++ quoteField k ++ lit "=?,") = true := by
            rw [noDol_append, noDol_append, h2, quoteField, (cleanChars_ok hec2).2.1]
            rfl
          have hsb3 : noQD (sb ++ quoteField k ++ lit "=?,") = true := by
            rw [List.append_assoc]
            refine noQD_append_last h3 ?_ hlast
            rw [quoteField, noQD_append_noQm (cleanChars_noQm hec2)]
            decide
          have hsb4 : sb ++ quoteField k ++ lit "=?," = [] ∨
              (sb ++ quoteField k ++ lit "=?,").getLast? = some ',' := by
            right
            rw [show (lit "=?," : Chars) = ['=', '?'] ++ [','] from rfl,
              ← List.append_assoc, List.getLast?_concat]
          exact resolveUpdateGo_ok update hu ks _ _ hsb1 hsb2 hsb3 hsb4 res h
      | vInt n =>
        rw [hlk] at h
        simp only at h
        by_cases hcu : (lit "_custom_").isPrefixOf k
        · rw [if_pos hcu] at h
          exact resolveUpdateGo_ok update hu ks sb vals h1 h2 h3 h4 res h
        · rw [if_neg hcu] at h
          have hec2 : (if (lit "_custom_").isPrefixOf k
              then customOk (Value.vInt n) else cleanChars k) = true := hec
          rw [if_neg hcu] at hec2
          have hsb1 : countQ (sb ++ quoteField k ++ lit "=?,")
              = (vals ++ [Value.vInt n]).length := by
            rw [countQ_append, countQ_append, h1, quoteField, (cleanChars_ok hec2).1,
              List.length_append, show countQ (lit "=?,") = 1 from rfl,
              List.length_cons, List.length_nil]
          have hsb2 : noDol (sb ++ quoteField k ++ lit "=?,") = true := by
            rw [noDol_append, noDol_append, h2, quoteField, (cleanChars_ok hec2).2.1]
            rfl
          have hsb3 : noQD (sb ++ quoteField k ++ lit "=?,") = true := by
            rw [List.append_assoc]
            refine noQD_append_last h3 ?_ hlast
            rw [quoteField, noQD_append_noQm (cleanChars_noQm hec2)]
            decide
          have hsb4 : sb ++ quoteField k ++ lit "=?," = [] ∨
              (sb ++ quoteField k ++ lit "=?,").getLast? = some ',' := by
            right
            rw [show (lit "=?," : Chars) = ['=', '?'] ++ [','] from rfl,
              ← List.append_assoc, List.getLast?_concat]
          exact resolveUpdateGo_ok update hu ks _ _ hsb1 hsb2 hsb3 hsb4 res h
      | vNull b2 =>
        rw [hlk] at h
        simp only at h
        by_cases hcu : (lit "_custom_").isPrefixOf k
        · rw [if_pos hcu] at h
          exact resolveUpdateGo_ok update hu ks sb vals h1 h2 h3 h4 res h
        · rw [if_neg hcu] at h
          have hec2 : (if (lit "_custom_").isPrefixOf k
              then customOk (Value.vNull b2) else cleanChars k) = true := hec
          rw [if_neg hcu] at hec2
          have hsb1 : countQ (sb ++ quoteField k ++ lit "=?,")
              = (vals ++ [Value.vNull b2]).length := by
            rw [countQ_append, countQ_append, h1, quoteField, (cleanChars_ok hec2).1,
              List.length_append, show countQ (lit "=?,") = 1 from rfl,
              List.length_cons, List.length_nil]
          have hsb2 : noDol (sb ++ quoteField k ++ lit "=?,") = true := by
            rw [noDol_append, noDol_append, h2, quoteField, (cleanChars_ok hec2).2.1]
            rfl
          have hsb3 : noQD (sb ++ quoteField k ++ lit "=?,") = true := by
            rw [List.append_assoc]
            refine noQD_append_last h3 ?_ hlast
            rw [quoteField, noQD_append_noQm (cleanChars_noQm hec2)]
            decide
          have hsb4 : sb ++ quoteField k ++ lit "=?," = [] ∨
              (sb ++ quoteField k ++ lit "=?,").getLast? = some ',' := by
            right
            rw [show (lit "=?," : Chars) = ['=', '?'] ++ [','] from rfl,
              ← List.append_assoc, List.getLast?_concat]
          exact resolveUpdateGo_ok update hu ks _ _ hsb1 hsb2 hsb3 hsb4 res h
      | vIntList ns =>
        rw [hlk] at h
        simp only at h
        by_cases hcu : (lit "_custom_").isPrefixOf k
        · rw [if_pos hcu] at h
          exact resolveUpdateGo_ok update hu ks sb vals h1 h2 h3 h4 res h
        · rw [if_neg hcu] at h
          have hec2 : (if (lit "_custom_").isPrefixOf k
              then customOk (Value.vIntList ns) else cleanChars k) = true := hec
          rw [if_neg hcu] at hec2
          have hsb1 : countQ (sb ++ quoteField k ++ lit "=?,")
              = (vals ++ [Value.vIntList ns]).length := by
            rw [countQ_append, countQ_append, h1, quoteField, (cleanChars_ok hec2).1,
              List.length_append, show countQ (lit "=?,") = 1 from rfl,
              List.length_cons, List.length_nil]
          have hsb2 : noDol (sb ++ quoteField k ++ lit "=?,") = true := by
            rw [noDol_append, noDol_append, h2, quoteField, (cleanChars_ok hec2).2.1]
            rfl
          have hsb3 : noQD (sb ++ quoteField k ++ lit "=?,") = true := by
            rw [List.append_assoc]
            refine noQD_append_last h3 ?_ hlast
            rw [quoteField, noQD_append_noQm (cleanChars_noQm hec2)]
            decide
          have hsb4 : sb ++ quoteField k ++ lit "=?," = [] ∨
              (sb ++ quoteField k ++ lit "=?,").getLast? = some ',' := by
            right
            rw [show (lit "=?," : Chars) = ['=', '?'] ++ [','] from rfl,
              ← List.append_assoc, List.getLast?_concat]
          exact resolveUpdateGo_ok update hu ks _ _ hsb1 hsb2 hsb3 hsb4 res h
      | vList vs =>
        rw [hlk] at h
        simp only at h
        by_cases hcu : (lit "_custom_").isPrefixOf k
        · rw [if_pos hcu] at h
          exact resolveUpdateGo_ok update hu ks sb vals h1 h2 h3 h4 res h
        · rw [if_neg hcu] at h
          have hec2 : (if (lit "_custom_").isPrefixOf k
              then customOk (Value.vList vs) else cleanChars k) = true := hec
          rw [if_neg hcu] at hec2
          have hsb1 : countQ (sb ++ quoteField k ++ lit "=?,")
              = (vals ++ [Value.vList vs]).length := by
            rw [countQ_append, countQ_append, h1, quoteField, (cleanChars_ok hec2).1,
              List.length_append, show countQ (lit "=?,") = 1 from rfl,
              List.length_cons, List.length_nil]
          have hsb2 : noDol (sb ++ quoteField k ++ lit "=?,") = true := by
            rw [noDol_append, noDol_append, h2, quoteField, (cleanChars_ok hec2).2.1]
            rfl
          have hsb3 : noQD (sb ++ quoteField k ++ lit "=?,") = true := by
            rw [List.append_assoc]
            refine noQD_append_last h3 ?_ hlast
            rw [quoteField, noQD_append_noQm (cleanChars_noQm hec2)]
            decide
          have hsb4 : sb ++ quoteField k ++ lit "=?," = [] ∨
              (sb ++ quoteField k ++ lit "=?,").getLast? = some ',' := by
            right
            rw [show (lit "=?," : Chars) = ['=', '?'] ++ [','] from rfl,
              ← List.append_assoc, List.getLast?_concat]
          exact resolveUpdateGo_ok update hu ks _ _ hsb1 hsb2 hsb3 hsb4 res h
      | vSpecs ms =>
        rw [hlk] at h
        simp only at h
        by_cases hcu : (lit "_custom_").isPrefixOf k
        · rw [if_pos hcu] at h
          exact resolveUpdateGo_ok update hu ks sb vals h1 h2 h3 h4 res h
        · rw [if_neg hcu] at h
          have hec2 : (if (lit "_custom_").isPrefixOf k
              then customOk (Value.vSpecs ms) else cleanChars k) = true := hec
          rw [if_neg hcu] at hec2
          have hsb1 : countQ (sb ++ quoteField k ++ lit "=?,")
              = (vals ++ [Value.vSpecs ms]).length := by
            rw [countQ_append, countQ_append, h1, quoteField, (cleanChars_ok hec2).1,
              List.length_append, show countQ (lit "=?,") = 1 from rfl,
              List.length_cons, List.length_nil]
          have hsb2 : noDol (sb ++ quoteField k ++ lit "=?,") = true := by
            rw [noDol_append, noDol_append, h2, quoteField, (cleanChars_ok hec2).2.1]
            rfl
          have hsb3 : noQD (sb ++ quoteField k ++ lit "=?,") = true := by
            rw [List.append_assoc]
            refine noQD_append_last h3 ?_ hlast
            rw [quoteField, noQD_append_noQm (cleanChars_noQm hec2)]
            decide
          have hsb4 : sb ++ quoteField k ++ lit "=?," = [] ∨
              (sb ++ quoteField k ++ lit "=?,").getLast? = some ',' := by
            right
            rw [show (lit "=?," : Chars) = ['=', '?'] ++ [','] from rfl,
              ← List.append_assoc, List.getLast?_concat]
          exact resolveUpdateGo_ok update hu ks _ _ hsb1 hsb2 hsb3 hsb4 res h
      | vMap mm =>
        rw [hlk] at h
        simp only at h
        by_cases hcu : (lit "_custom_").isPrefixOf k
        · rw [if_pos hcu] at h
          exact resolveUpdateGo_ok update hu ks sb vals h1 h2 h3 h4 res h
        · rw [if_neg hcu] at h
          have hec2 : (if (lit "_custom_").isPrefixOf k
              then customOk (Value.vMap mm) else cleanChars k) = true := hec
          rw [if_neg hcu] at hec2
          have hsb1 : countQ (sb ++ quoteField k ++ lit "=?,")
              = (vals ++ [Value.vMap mm]).length := by
            rw [countQ_append, countQ_append, h1, quoteField, (cleanChars_ok hec2).1,
              List.length_append, show countQ (lit "=?,") = 1 from rfl,
              List.length_cons, List.length_nil]
          have hsb2 : noDol (sb ++ quoteField k ++ lit "=?,") = true := by
            rw [noDol_append, noDol_append, h2, quoteField, (cleanChars_ok hec2).2.1]
            rfl
          have hsb3 : noQD (sb ++ quoteField k ++ lit "=?,") = true := by
            rw [List.append_assoc]
            refine noQD_append_last h3 ?_ hlast
            rw [quoteField, noQD_append_noQm (cleanChars_noQm hec2)]
            decide
          have hsb4 : sb ++ quoteField k ++ lit "=?," = [] ∨
              (sb ++ quoteField k ++ lit "=?,").getLast? = some ',' := by
            right
            rw [show (lit "=?," : Chars) = ['=', '?'] ++ [','] from rfl,
              ← List.append_assoc, List.getLast?_concat]
          exact resolveUpdateGo_ok update hu ks _ _ hsb1 hsb2 hsb3 hsb4 res h

/-- Parity of the rendered update set. -/
theorem resolveUpdate_ok {update : Spec} (hu : updClean update = true)
    {res : Chars × List Value} (h : resolveUpdate update = .ok res) :
    countQ res.1 = res.2.length ∧ noDol res.1 = true ∧ noQD res.1 = true :=
  resolveUpdateGo_ok update hu (sortKeys (keysOf update)) [] [] rfl rfl rfl
    (Or.inl rfl) res h
